import Mathlib

/-!
Drum-Fit: the cement calculator.

A shallow embedding of `src/utils/calculateCement.js`, and of the summary of
`src/src/app/page.js` that displays its result, with a verification of the
contract.

The JavaScript function works on IEEE doubles, and the source is embedded
twice.

* `calculateCement` is the source in exact arithmetic: over an arbitrary
  linearly ordered field with a floor function, with the constant `Math.PI`
  as first argument.  What follows from the order of the guards alone, and
  the redundancy of the cap, is proved there.
* `calculateCementD` is the source on doubles: every operation computes the
  exact result and rounds it to binary64.  Whatever depends on a rounded
  value (a count, an equality of volumes, the text shown) is proved there.
-/

set_option maxRecDepth 100000

namespace DrumFit

/-- The argument object of `calculateCement`.  `personCount` comes from a
stepper in `page.js` that starts at `1` and moves in whole steps, so it is a
natural number here. -/
structure CementInput (K : Type) where
  personHeight : K
  personWidth : K
  drumHeight : K
  drumDiameter : K
  personCount : ℕ

/-- The record returned by `calculateCement`. -/
structure FitResult (K : Type) where
  message : String
  percentFilled : K
  actualCount : ℤ
  cementVolume : K

section Source

variable {K : Type} [LinearOrderedField K]

/-- Line 2: `Math.PI * (personWidth / 2) ** 2 * personHeight`. -/
def personVolume (pi : K) (a : CementInput K) : K :=
  pi * (a.personWidth / 2) ^ 2 * a.personHeight

/-- Line 3: `Math.PI * (drumDiameter / 2) ** 2 * drumHeight`. -/
def drumVolume (pi : K) (a : CementInput K) : K :=
  pi * (a.drumDiameter / 2) ^ 2 * a.drumHeight

/-- Line 5: `personVolume * personCount`. -/
def totalPeopleVolume (pi : K) (a : CementInput K) : K :=
  personVolume pi a * (a.personCount : K)

/-- `Number.prototype.toFixed(2)` on an exact number: the sign, then the
integer `n` nearest to `|x| * 100` (the larger one on a tie), written in
decimal, padded with zeros to three digits, with a point before the last two.
(For doubles from `10 ^ 21` on JavaScript switches to exponent form; in exact
arithmetic the digits are written out.) -/
def toFixed2 [FloorRing K] (x : K) : String :=
  let s : List Char := if x < 0 then ['-'] else []
  let y : K := if x < 0 then -x else x
  let n : ℕ := ⌊y * 100 + 1 / 2⌋₊
  let d : List Char := Nat.toDigits 10 n
  let m : List Char := List.replicate (3 - d.length) '0' ++ d
  String.mk (s ++ (m.take (m.length - 2) ++ '.' :: m.drop (m.length - 2)))

/-- The template literal of line 24. -/
def cementMessage [FloorRing K] (cementVolume : K) (personCount : ℕ) : String :=
  "Cement needed: " ++ toFixed2 (cementVolume / 1000) ++ " liters (with "
    ++ toString personCount ++ " person(s) inside)."

/-- Line 8: the object returned when a single person does not fit. -/
def notFitResult : FitResult K :=
  { message := "Person does not fit in the drum."
    percentFilled := 0
    actualCount := 0
    cementVolume := 0 }

/-- Lines 12-17 in exact arithmetic: the object returned when the people fill
or overfill the drum.  (The code takes the floor of the rounded quotient of the
rounded volumes, which can be one less than this exact floor: see
`overflowResultD`.) -/
def overflowResult [FloorRing K] (pi : K) (a : CementInput K) : FitResult K :=
  { message := "Too many people! Drum overfilled."
    percentFilled := totalPeopleVolume pi a / drumVolume pi a * 100
    actualCount := ⌊drumVolume pi a / personVolume pi a⌋
    cementVolume := 0 }

/-- Lines 20-28: the object returned when everybody fits. -/
def normalResult [FloorRing K] (pi : K) (a : CementInput K) : FitResult K :=
  let cementVolume := drumVolume pi a - totalPeopleVolume pi a
  let percentFilled := min (totalPeopleVolume pi a / drumVolume pi a * 100) 100
  { message := cementMessage cementVolume a.personCount
    percentFilled := percentFilled
    actualCount := (a.personCount : ℤ)
    cementVolume := cementVolume }

/-- The function `calculateCement` of `src/utils/calculateCement.js`: the two
guards in the order of the source (lines 7 and 11), then the normal fit. -/
def calculateCement [FloorRing K] (pi : K) (a : CementInput K) : FitResult K :=
  if a.personHeight > a.drumHeight ∨ a.personWidth > a.drumDiameter then
    notFitResult
  else if totalPeopleVolume pi a ≥ drumVolume pi a then
    overflowResult pi a
  else
    normalResult pi a

/-- Lines 20-28 with `Math.min` removed from line 21: the variant that the
remark on the cap compares the source with. -/
def normalResultNoMin [FloorRing K] (pi : K) (a : CementInput K) : FitResult K :=
  let cementVolume := drumVolume pi a - totalPeopleVolume pi a
  let percentFilled := totalPeopleVolume pi a / drumVolume pi a * 100
  { message := cementMessage cementVolume a.personCount
    percentFilled := percentFilled
    actualCount := (a.personCount : ℤ)
    cementVolume := cementVolume }

/-- The function `calculateCement` with `Math.min` removed from line 21. -/
def calculateCementNoMin [FloorRing K] (pi : K) (a : CementInput K) : FitResult K :=
  if a.personHeight > a.drumHeight ∨ a.personWidth > a.drumDiameter then
    notFitResult
  else if totalPeopleVolume pi a ≥ drumVolume pi a then
    overflowResult pi a
  else
    normalResultNoMin pi a

/-- The precondition of the calculator: every dimension is strictly positive
and at least one person is asked for. -/
def PositiveInput (a : CementInput K) : Prop :=
  0 < a.personHeight ∧ 0 < a.personWidth ∧ 0 < a.drumHeight ∧ 0 < a.drumDiameter
    ∧ 0 < a.personCount

instance (a : CementInput K) : Decidable (PositiveInput a) := by
  unfold PositiveInput; infer_instance

/-- Scenario A: drum 100 x 60, one person 170 x 40. -/
def scenarioA : CementInput K := ⟨170, 40, 100, 60, 1⟩

end Source

/-! ## The calculator on IEEE doubles

The same source, now with every operation rounded as JavaScript rounds it:
binary64, round to nearest, ties to even, with subnormals, infinities, `NaN`
and both zeros.  A finite double is kept as its sign and the exact rational
value of its magnitude; each operation computes the exact result and rounds
it. -/

/-- A JavaScript number: `NaN`, an infinity with its sign, or a finite double
given by its sign and the exact value of its magnitude. -/
inductive JSNumber where
  | nan : JSNumber
  | inf (neg : Bool) : JSNumber
  | fin (neg : Bool) (mag : ℚ) : JSNumber
deriving DecidableEq

namespace JSNumber

/-- Number of halvings that bring `n` below 2, by recursion on a bound. -/
def log2Fuel : ℕ → ℕ → ℕ
  | 0, _ => 0
  | fuel + 1, n => if n < 2 then 0 else log2Fuel fuel (n / 2) + 1

/-- The integer part of the binary logarithm of a natural number. -/
def natLog2 (n : ℕ) : ℕ := log2Fuel n n

/-- The binary exponent of a positive rational: the `e` with
`2 ^ e ≤ x < 2 ^ (e + 1)`. -/
def floorLog2 (x : ℚ) : ℤ :=
  let d : ℤ := (natLog2 x.num.natAbs : ℤ) - (natLog2 x.den : ℤ)
  if x < 2 ^ d then d - 1 else d

/-- The nearest natural number, the even one on a tie. -/
def roundHalfEven (m : ℚ) : ℕ :=
  let f := ⌊m⌋₊
  if m - f < 1 / 2 then f
  else if 1 / 2 < m - f then f + 1
  else if f % 2 = 0 then f else f + 1

/-- The nearest multiple of the unit in the last place of a non-negative
rational: 53 significant bits, the exponent never below that of the
subnormals, ties to even. -/
def roundVal (x : ℚ) : ℚ :=
  let e : ℤ := max (floorLog2 x) (-1022)
  let u : ℚ := 2 ^ (e - 52)
  (roundHalfEven (x / u) : ℚ) * u

/-- Rounding of an exact magnitude to a double of the given sign: to nearest,
ties to even, overflow to infinity. -/
def roundDouble (neg : Bool) (x : ℚ) : JSNumber :=
  if 2 ^ 1024 ≤ roundVal x then inf neg else fin neg (roundVal x)

/-- The exact value of a finite double. -/
def value (neg : Bool) (m : ℚ) : ℚ := if neg then -m else m

/-- The double of a whole-number literal or of the count. -/
def ofNat (n : ℕ) : JSNumber := roundDouble false n

/-- The operator `*`. -/
def mul : JSNumber → JSNumber → JSNumber
  | nan, _ => nan
  | _, nan => nan
  | inf s, inf t => inf (xor s t)
  | inf s, fin t m => if m = 0 then nan else inf (xor s t)
  | fin s m, inf t => if m = 0 then nan else inf (xor s t)
  | fin s m, fin t k => roundDouble (xor s t) (m * k)

/-- The operator `/`. -/
def div : JSNumber → JSNumber → JSNumber
  | nan, _ => nan
  | _, nan => nan
  | inf _, inf _ => nan
  | inf s, fin t _ => inf (xor s t)
  | fin s _, inf t => fin (xor s t) 0
  | fin s m, fin t k =>
    if k = 0 then (if m = 0 then nan else inf (xor s t))
    else roundDouble (xor s t) (m / k)

/-- The operator `-`. -/
def sub : JSNumber → JSNumber → JSNumber
  | nan, _ => nan
  | _, nan => nan
  | inf s, inf t => if s = t then nan else inf s
  | inf s, fin _ _ => inf s
  | fin _ _, inf t => inf (!t)
  | fin s m, fin t k =>
    if value s m - value t k = 0 then
      fin (s && !t && decide (m = 0) && decide (k = 0)) 0
    else
      roundDouble (decide (value s m - value t k < 0)) |value s m - value t k|

/-- The operator `** 2`, taken as the correctly rounded square. -/
def square (x : JSNumber) : JSNumber := mul x x

/-- The operator `>`. -/
def gt : JSNumber → JSNumber → Bool
  | nan, _ => false
  | _, nan => false
  | inf s, inf t => !s && t
  | inf s, fin _ _ => !s
  | fin _ _, inf t => t
  | fin s m, fin t k => decide (value t k < value s m)

/-- The operator `>=`. -/
def ge : JSNumber → JSNumber → Bool
  | nan, _ => false
  | _, nan => false
  | inf s, inf t => !s || t
  | inf s, fin _ _ => !s
  | fin _ _, inf t => t
  | fin s m, fin t k => decide (value t k ≤ value s m)

/-- The operator `===` on numbers. -/
def strictEq : JSNumber → JSNumber → Bool
  | nan, _ => false
  | _, nan => false
  | inf s, inf t => s == t
  | inf _, fin _ _ => false
  | fin _ _, inf _ => false
  | fin s m, fin t k => decide (value s m = value t k)

/-- The function `Math.floor`. -/
def floor : JSNumber → JSNumber
  | nan => nan
  | inf s => inf s
  | fin s m => fin s |((⌊value s m⌋ : ℤ) : ℚ)|

/-- The function `Math.min` of two arguments. -/
def min (a b : JSNumber) : JSNumber :=
  match a, b with
  | nan, _ => nan
  | _, nan => nan
  | _, _ =>
    if gt b a then a
    else if gt a b then b
    else match a with
      | fin true _ => a
      | _ => b

/-- The value of the constant `Math.PI`: the double nearest to `π`,
`884279719003555 / 2 ^ 48`. -/
def piVal : ℚ := 884279719003555 / 281474976710656

/-- The constant `Math.PI`. -/
def PI : JSNumber := fin false piVal

/-- The method `toFixed(2)`.  (From `10 ^ 21` on JavaScript switches to
exponent form; here the digits are written out.) -/
def toFixed : JSNumber → String
  | nan => "NaN"
  | inf s => if s then "-Infinity" else "Infinity"
  | fin s m => toFixed2 (value s m)

/-- A strictly positive finite number. -/
def isPositive : JSNumber → Bool
  | fin false m => decide (0 < m)
  | _ => false

/-- The number `k` times as large, for a positive factor `k`, without
rounding. -/
def scale (k : ℚ) : JSNumber → JSNumber
  | fin s m => fin s (k * m)
  | x => x

/-- A finite number of sign `+` whose value lies between two bounds. -/
def inRange (lo hi : ℚ) : JSNumber → Prop
  | fin false m => lo ≤ m ∧ m ≤ hi
  | _ => False

instance (lo hi : ℚ) : DecidablePred (inRange lo hi)
  | fin false m => inferInstanceAs (Decidable (lo ≤ m ∧ m ≤ hi))
  | fin true _ => isFalse id
  | inf _ => isFalse id
  | nan => isFalse id

/-- The value that lines 2 and 3 compute from a width and a height when no
step overflows: each operation rounded in turn. -/
def volumeVal (w h : ℚ) : ℚ :=
  roundVal (roundVal (piVal * roundVal (roundVal (w / 2) * roundVal (w / 2))) * h)

end JSNumber

/-- The record returned by `calculateCement`, every number a double. -/
structure DoubleResult where
  message : String
  percentFilled : JSNumber
  actualCount : JSNumber
  cementVolume : JSNumber
deriving DecidableEq

section SourceOnDoubles

open JSNumber

/-- Line 2 on doubles: `Math.PI * (personWidth / 2) ** 2 * personHeight`. -/
def personVolumeD (a : CementInput JSNumber) : JSNumber :=
  mul (mul PI (square (div a.personWidth (ofNat 2)))) a.personHeight

/-- Line 3 on doubles: `Math.PI * (drumDiameter / 2) ** 2 * drumHeight`. -/
def drumVolumeD (a : CementInput JSNumber) : JSNumber :=
  mul (mul PI (square (div a.drumDiameter (ofNat 2)))) a.drumHeight

/-- Line 5 on doubles: `personVolume * personCount`. -/
def totalPeopleVolumeD (a : CementInput JSNumber) : JSNumber :=
  mul (personVolumeD a) (ofNat a.personCount)

/-- Line 8 on doubles. -/
def notFitResultD : DoubleResult :=
  { message := "Person does not fit in the drum."
    percentFilled := ofNat 0
    actualCount := ofNat 0
    cementVolume := ofNat 0 }

/-- Lines 12-17 on doubles. -/
def overflowResultD (a : CementInput JSNumber) : DoubleResult :=
  { message := "Too many people! Drum overfilled."
    percentFilled := mul (div (totalPeopleVolumeD a) (drumVolumeD a)) (ofNat 100)
    actualCount := floor (div (drumVolumeD a) (personVolumeD a))
    cementVolume := ofNat 0 }

/-- Lines 20-28 on doubles. -/
def normalResultD (a : CementInput JSNumber) : DoubleResult :=
  let cementVolume := sub (drumVolumeD a) (totalPeopleVolumeD a)
  let percentFilled :=
    min (mul (div (totalPeopleVolumeD a) (drumVolumeD a)) (ofNat 100)) (ofNat 100)
  { message := "Cement needed: " ++ toFixed (div cementVolume (ofNat 1000))
      ++ " liters (with " ++ toString a.personCount ++ " person(s) inside)."
    percentFilled := percentFilled
    actualCount := ofNat a.personCount
    cementVolume := cementVolume }

/-- The function `calculateCement` on doubles: the guards of lines 7 and 11
with JavaScript's own comparisons, then the normal fit. -/
def calculateCementD (a : CementInput JSNumber) : DoubleResult :=
  if gt a.personHeight a.drumHeight || gt a.personWidth a.drumDiameter then
    notFitResultD
  else if ge (totalPeopleVolumeD a) (drumVolumeD a) then
    overflowResultD a
  else
    normalResultD a

/-- Lines 312-316 of `src/src/app/page.js` on doubles. -/
def summaryTextD (result : DoubleResult) : String :=
  if gt result.percentFilled (ofNat 100) then
    "Cannot fit the human. Drum overflow detected!"
  else if strictEq result.percentFilled (ofNat 100) then
    "Drum is perfectly filled with the person included!"
  else
    "Cement needed to fill the drum: "
      ++ toFixed (div result.cementVolume (ofNat 1000)) ++ " liters"

/-- An input whose four dimensions are whole numbers. -/
def wholeInput (ph pw dh dd n : ℕ) : CementInput JSNumber :=
  ⟨ofNat ph, ofNat pw, ofNat dh, ofNat dd, n⟩

/-- The same input read in exact arithmetic. -/
def wholeInputExact (K : Type) [LinearOrderedField K] (ph pw dh dd n : ℕ) :
    CementInput K :=
  ⟨(ph : K), (pw : K), (dh : K), (dd : K), n⟩

/-- A change of length unit on doubles: the four dimensions multiplied exactly
by the positive factor `k`, the count kept. -/
def scaleInputD (k : ℚ) (a : CementInput JSNumber) : CementInput JSNumber :=
  { personHeight := scale k a.personHeight
    personWidth := scale k a.personWidth
    drumHeight := scale k a.drumHeight
    drumDiameter := scale k a.drumDiameter
    personCount := a.personCount }

instance : DecidableEq (CementInput JSNumber) := fun a b =>
  decidable_of_iff
    (a.personHeight = b.personHeight ∧ a.personWidth = b.personWidth ∧
      a.drumHeight = b.drumHeight ∧ a.drumDiameter = b.drumDiameter ∧
      a.personCount = b.personCount)
    (by cases a; cases b; simp)

/-- An input whose four dimensions are the same double. -/
def cubeInput (x : JSNumber) (n : ℕ) : CementInput JSNumber := ⟨x, x, x, x, n⟩

/-- The precondition on doubles: four strictly positive finite dimensions and
a count of at least one person that a double holds exactly (the stepper of
`page.js` starts at 1 and cannot pass `2 ^ 53`). -/
def PositiveDoubles (a : CementInput JSNumber) : Prop :=
  isPositive a.personHeight = true ∧ isPositive a.personWidth = true ∧
    isPositive a.drumHeight = true ∧ isPositive a.drumDiameter = true ∧
    0 < a.personCount ∧ a.personCount ≤ 2 ^ 53

instance (a : CementInput JSNumber) : Decidable (PositiveDoubles a) := by
  unfold PositiveDoubles; infer_instance

end SourceOnDoubles

/-! ## Auxiliary facts in exact arithmetic -/

section Lemmas

variable {K : Type} [LinearOrderedField K]

lemma personVolume_pos {pi : K} (hpi : 0 < pi) {a : CementInput K}
    (hpos : PositiveInput a) : 0 < personVolume pi a := by
  obtain ⟨hh, hw, -, -, -⟩ := hpos
  exact mul_pos (mul_pos hpi (pow_pos (half_pos hw) 2)) hh

lemma drumVolume_pos {pi : K} (hpi : 0 < pi) {a : CementInput K}
    (hpos : PositiveInput a) : 0 < drumVolume pi a := by
  obtain ⟨-, -, hh, hd, -⟩ := hpos
  exact mul_pos (mul_pos hpi (pow_pos (half_pos hd) 2)) hh

lemma totalPeopleVolume_pos {pi : K} (hpi : 0 < pi) {a : CementInput K}
    (hpos : PositiveInput a) : 0 < totalPeopleVolume pi a :=
  mul_pos (personVolume_pos hpi hpos) (Nat.cast_pos.mpr hpos.2.2.2.2)

lemma calculateCement_of_notFit [FloorRing K] (pi : K) {a : CementInput K}
    (h : a.personHeight > a.drumHeight ∨ a.personWidth > a.drumDiameter) :
    calculateCement pi a = notFitResult := by
  simp only [calculateCement, if_pos h]

lemma fits_iff {a : CementInput K} :
    ¬(a.personHeight > a.drumHeight ∨ a.personWidth > a.drumDiameter) ↔
      a.personHeight ≤ a.drumHeight ∧ a.personWidth ≤ a.drumDiameter := by
  rw [not_or, not_lt, not_lt]

lemma calculateCement_of_overflow [FloorRing K] {pi : K} {a : CementInput K}
    (hh : a.personHeight ≤ a.drumHeight) (hw : a.personWidth ≤ a.drumDiameter)
    (hv : totalPeopleVolume pi a ≥ drumVolume pi a) :
    calculateCement pi a = overflowResult pi a := by
  simp only [calculateCement, if_neg (fits_iff.mpr ⟨hh, hw⟩), if_pos hv]

lemma calculateCement_of_normal [FloorRing K] {pi : K} {a : CementInput K}
    (hh : a.personHeight ≤ a.drumHeight) (hw : a.personWidth ≤ a.drumDiameter)
    (hv : totalPeopleVolume pi a < drumVolume pi a) :
    calculateCement pi a = normalResult pi a := by
  simp only [calculateCement, if_neg (fits_iff.mpr ⟨hh, hw⟩), if_neg (not_le.mpr hv)]

/-- In the normal fit the uncapped percentage lies strictly between 0 and
100. -/
lemma percent_lt_hundred {pi : K} (hpi : 0 < pi) {a : CementInput K}
    (hpos : PositiveInput a) (hv : totalPeopleVolume pi a < drumVolume pi a) :
    0 < totalPeopleVolume pi a / drumVolume pi a * 100 ∧
      totalPeopleVolume pi a / drumVolume pi a * 100 < 100 := by
  have hd := drumVolume_pos hpi hpos
  have ht := totalPeopleVolume_pos hpi hpos
  constructor
  · exact mul_pos (div_pos ht hd) (by norm_num)
  · have h1 : totalPeopleVolume pi a / drumVolume pi a < 1 := (div_lt_one hd).mpr hv
    linarith

end Lemmas

/-! ## What follows from the order of the guards -/

section Contract

variable {K : Type} [LinearOrderedField K] [FloorRing K]

/-- C1 (normal fit).  When the person's height and width fit and the people
together take less than the drum's volume, `calculateCement` returns
`cementVolume = drumVolume - totalPeopleVolume`,
`percentFilled = min (totalPeopleVolume / drumVolume * 100) 100` and
`actualCount = personCount`.  The volumes are written out as in lines 2-5 of the
source; the statement holds over every ordered field and every value of
`Math.PI`, in particular over the reals with `π`. -/
theorem normal_fit (pi : K) (a : CementInput K)
    (hh : a.personHeight ≤ a.drumHeight) (hw : a.personWidth ≤ a.drumDiameter)
    (hv : pi * (a.personWidth / 2) ^ 2 * a.personHeight * (a.personCount : K)
      < pi * (a.drumDiameter / 2) ^ 2 * a.drumHeight) :
    (calculateCement pi a).cementVolume
        = pi * (a.drumDiameter / 2) ^ 2 * a.drumHeight
          - pi * (a.personWidth / 2) ^ 2 * a.personHeight * (a.personCount : K) ∧
      (calculateCement pi a).percentFilled
        = min (pi * (a.personWidth / 2) ^ 2 * a.personHeight * (a.personCount : K)
            / (pi * (a.drumDiameter / 2) ^ 2 * a.drumHeight) * 100) 100 ∧
      (calculateCement pi a).actualCount = (a.personCount : ℤ) := by
  have h : calculateCement pi a = normalResult pi a :=
    calculateCement_of_normal hh hw hv
  rw [h]
  exact ⟨rfl, rfl, rfl⟩

/-- Witness for C1: a drum 100 x 60 with two persons 90 x 30 over the reals.
The hypotheses hold and the result is `49500 π`, `45` percent, two persons. -/
theorem normal_fit_witness :
    ((90 : ℝ) ≤ 100 ∧ (30 : ℝ) ≤ 60) ∧
      (calculateCement Real.pi (⟨90, 30, 100, 60, 2⟩ : CementInput ℝ)).cementVolume
        = 49500 * Real.pi ∧
      (calculateCement Real.pi (⟨90, 30, 100, 60, 2⟩ : CementInput ℝ)).percentFilled = 45 ∧
      (calculateCement Real.pi (⟨90, 30, 100, 60, 2⟩ : CementInput ℝ)).actualCount = 2 := by
  have hpi := Real.pi_pos
  have h := normal_fit Real.pi (⟨90, 30, 100, 60, 2⟩ : CementInput ℝ)
    (by norm_num) (by norm_num) (by norm_num; nlinarith)
  obtain ⟨h1, h2, h3⟩ := h
  refine ⟨by norm_num, ?_, ?_, ?_⟩
  · rw [h1]; norm_num; ring
  · rw [h2]
    have e : Real.pi * ((30 : ℝ) / 2) ^ 2 * 90 * ((2 : ℕ) : ℝ)
        / (Real.pi * ((60 : ℝ) / 2) ^ 2 * 100) * 100 = 45 := by
      field_simp; ring
    simp only [e]; norm_num
  · rw [h3]; rfl

/-- C3 (dimensional infeasibility comes first).  When the person is taller than
the drum or wider than the drum, `calculateCement` returns `percentFilled = 0`,
`actualCount = 0` and `cementVolume = 0`, whatever the count and the volumes. -/
theorem dimensional_infeasibility (pi : K) (a : CementInput K)
    (h : a.personHeight > a.drumHeight ∨ a.personWidth > a.drumDiameter) :
    (calculateCement pi a).percentFilled = 0 ∧
      (calculateCement pi a).actualCount = 0 ∧
      (calculateCement pi a).cementVolume = 0 := by
  rw [calculateCement_of_notFit pi h]
  exact ⟨rfl, rfl, rfl⟩

/-- Witness for C3: scenario A of the specification, a drum 100 x 60 with one
person 170 x 40 over the reals. -/
theorem dimensional_infeasibility_witness :
    ((170 : ℝ) > 100 ∨ (40 : ℝ) > 60) ∧
      (calculateCement Real.pi (scenarioA : CementInput ℝ)).percentFilled = 0 ∧
      (calculateCement Real.pi (scenarioA : CementInput ℝ)).actualCount = 0 ∧
      (calculateCement Real.pi (scenarioA : CementInput ℝ)).cementVolume = 0 :=
  ⟨Or.inl (by norm_num),
    dimensional_infeasibility Real.pi scenarioA
      (Or.inl (by simp only [scenarioA]; norm_num))⟩

/-- Counterexample to C4 as stated: scenario A is a positive input whose one
person (volume `68000 π`) takes less than the drum (`90000 π`), yet the person
is taller than the drum, so the result is the all-zero record: `cementVolume`
is not `drumVolume - totalPeopleVolume`, it is not positive, and `actualCount`
is `0`, not the requested `1`. -/
theorem fit_by_volume_alone_counterexample :
    PositiveInput (scenarioA : CementInput ℝ) ∧
      totalPeopleVolume Real.pi (scenarioA : CementInput ℝ)
        < drumVolume Real.pi (scenarioA : CementInput ℝ) ∧
      (calculateCement Real.pi (scenarioA : CementInput ℝ)).cementVolume
        ≠ drumVolume Real.pi (scenarioA : CementInput ℝ)
          - totalPeopleVolume Real.pi (scenarioA : CementInput ℝ) ∧
      ¬ 0 < (calculateCement Real.pi (scenarioA : CementInput ℝ)).cementVolume ∧
      (calculateCement Real.pi (scenarioA : CementInput ℝ)).actualCount
        ≠ ((scenarioA : CementInput ℝ).personCount : ℤ) := by
  have hpi := Real.pi_pos
  have hlt : totalPeopleVolume Real.pi (scenarioA : CementInput ℝ)
      < drumVolume Real.pi (scenarioA : CementInput ℝ) := by
    simp only [totalPeopleVolume, personVolume, drumVolume, scenarioA]
    norm_num; nlinarith
  have hr : calculateCement Real.pi (scenarioA : CementInput ℝ) = notFitResult :=
    calculateCement_of_notFit Real.pi (Or.inl (by simp only [scenarioA]; norm_num))
  rw [hr]
  refine ⟨by simp only [PositiveInput, scenarioA]; norm_num, hlt, ?_, ?_, ?_⟩
  · show (0 : ℝ) ≠ _
    exact (sub_pos.mpr hlt).ne
  · show ¬ (0 : ℝ) < 0
    exact lt_irrefl 0
  · show (0 : ℤ) ≠ ((1 : ℕ) : ℤ)
    norm_num

/-- C4, amended.  For positive inputs whose dimensions fit and whose people
take less than the drum's volume, `calculateCement` returns
`cementVolume = drumVolume - totalPeopleVolume`, which is strictly positive,
a `percentFilled` in `[0, 100)`, and `actualCount = personCount`. -/
theorem fit_by_volume_when_dimensions_fit (pi : K) (hpi : 0 < pi) (a : CementInput K)
    (hpos : PositiveInput a)
    (hh : a.personHeight ≤ a.drumHeight) (hw : a.personWidth ≤ a.drumDiameter)
    (hv : totalPeopleVolume pi a < drumVolume pi a) :
    (calculateCement pi a).cementVolume = drumVolume pi a - totalPeopleVolume pi a ∧
      0 < (calculateCement pi a).cementVolume ∧
      0 ≤ (calculateCement pi a).percentFilled ∧
      (calculateCement pi a).percentFilled < 100 ∧
      (calculateCement pi a).actualCount = (a.personCount : ℤ) := by
  rw [calculateCement_of_normal hh hw hv]
  obtain ⟨h0, h100⟩ := percent_lt_hundred hpi hpos hv
  refine ⟨rfl, sub_pos.mpr hv, ?_, ?_, rfl⟩
  · exact le_min h0.le (by norm_num)
  · exact lt_of_le_of_lt (min_le_left _ _) h100

/-- Witness for C4 as amended: a drum 100 x 60 with three persons 90 x 30 over
the reals leaves `29250 π` of cement with all three persons inside. -/
theorem fit_by_volume_when_dimensions_fit_witness :
    PositiveInput (⟨90, 30, 100, 60, 3⟩ : CementInput ℝ) ∧
      (calculateCement Real.pi (⟨90, 30, 100, 60, 3⟩ : CementInput ℝ)).cementVolume
        = 29250 * Real.pi ∧
      0 < (calculateCement Real.pi (⟨90, 30, 100, 60, 3⟩ : CementInput ℝ)).cementVolume ∧
      (calculateCement Real.pi (⟨90, 30, 100, 60, 3⟩ : CementInput ℝ)).percentFilled < 100 ∧
      (calculateCement Real.pi (⟨90, 30, 100, 60, 3⟩ : CementInput ℝ)).actualCount = 3 := by
  have hpi := Real.pi_pos
  have hp : PositiveInput (⟨90, 30, 100, 60, 3⟩ : CementInput ℝ) := by
    simp only [PositiveInput]; norm_num
  have h := fit_by_volume_when_dimensions_fit Real.pi hpi
    (⟨90, 30, 100, 60, 3⟩ : CementInput ℝ) hp (by norm_num) (by norm_num)
    (by simp only [totalPeopleVolume, personVolume, drumVolume]; norm_num; nlinarith)
  obtain ⟨h1, h2, -, h4, h5⟩ := h
  refine ⟨hp, ?_, h2, h4, ?_⟩
  · rw [h1]
    simp only [totalPeopleVolume, personVolume, drumVolume]
    norm_num; ring
  · rw [h5]; rfl

end Contract

/-! ## The cap of line 21 -/

section Cap

variable {K : Type} [LinearOrderedField K] [FloorRing K]

/-- C10 (the cap at 100 is redundant).  For positive inputs `calculateCement`
equals its variant with `Math.min` removed; and whenever such an input reaches
the normal fit (the dimensions fit and the people take less than the drum's
volume), `totalPeopleVolume / drumVolume * 100` lies strictly between 0 and
100 and is the `percentFilled` returned. -/
theorem cap_is_redundant (pi : K) (hpi : 0 < pi) (a : CementInput K)
    (hpos : PositiveInput a) :
    calculateCement pi a = calculateCementNoMin pi a ∧
      (a.personHeight ≤ a.drumHeight → a.personWidth ≤ a.drumDiameter →
        totalPeopleVolume pi a < drumVolume pi a →
          0 < totalPeopleVolume pi a / drumVolume pi a * 100 ∧
          totalPeopleVolume pi a / drumVolume pi a * 100 < 100 ∧
          (calculateCement pi a).percentFilled
            = totalPeopleVolume pi a / drumVolume pi a * 100) := by
  constructor
  · by_cases h1 : a.personHeight > a.drumHeight ∨ a.personWidth > a.drumDiameter
    · simp only [calculateCement, calculateCementNoMin, if_pos h1]
    · by_cases h2 : totalPeopleVolume pi a ≥ drumVolume pi a
      · simp only [calculateCement, calculateCementNoMin, if_neg h1, if_pos h2]
      · obtain ⟨-, h100⟩ := percent_lt_hundred hpi hpos (not_le.mp h2)
        simp only [calculateCement, calculateCementNoMin, if_neg h1, if_neg h2,
          normalResult, normalResultNoMin, min_eq_left h100.le]
  · intro hh hw hv
    obtain ⟨h0, h100⟩ := percent_lt_hundred hpi hpos hv
    refine ⟨h0, h100, ?_⟩
    rw [calculateCement_of_normal hh hw hv]
    exact min_eq_left h100.le

/-- Witness for C10: a drum 100 x 60 with four persons 90 x 30 over the reals
is a positive input in the normal fit; the uncapped percentage is 90. -/
theorem cap_is_redundant_witness :
    PositiveInput (⟨90, 30, 100, 60, 4⟩ : CementInput ℝ) ∧
      calculateCement Real.pi (⟨90, 30, 100, 60, 4⟩ : CementInput ℝ)
        = calculateCementNoMin Real.pi ⟨90, 30, 100, 60, 4⟩ ∧
      (calculateCement Real.pi (⟨90, 30, 100, 60, 4⟩ : CementInput ℝ)).percentFilled = 90 := by
  have hpi := Real.pi_pos
  have hp : PositiveInput (⟨90, 30, 100, 60, 4⟩ : CementInput ℝ) := by
    simp only [PositiveInput]; norm_num
  have h := cap_is_redundant Real.pi hpi (⟨90, 30, 100, 60, 4⟩ : CementInput ℝ) hp
  have h3 := h.2 (by norm_num) (by norm_num)
    (by simp only [totalPeopleVolume, personVolume, drumVolume]; norm_num; nlinarith)
  refine ⟨hp, h.1, ?_⟩
  rw [h3.2.2]
  simp only [totalPeopleVolume, personVolume, drumVolume]
  field_simp; ring

end Cap


namespace JSNumber

lemma log2Fuel_spec : ∀ (fuel n : ℕ), n ≤ fuel → 1 ≤ n →
    2 ^ log2Fuel fuel n ≤ n ∧ n < 2 ^ (log2Fuel fuel n + 1)
  | 0, n, h, h1 => by omega
  | fuel + 1, n, h, h1 => by
    unfold log2Fuel
    split_ifs with h2
    · constructor
      · simpa using h1
      · simpa using h2
    · have h3 : n / 2 ≤ fuel := by omega
      have h4 : 1 ≤ n / 2 := by omega
      obtain ⟨ih1, ih2⟩ := log2Fuel_spec fuel (n / 2) h3 h4
      rw [pow_succ] at ih2
      rw [pow_succ, pow_succ, pow_succ]
      generalize 2 ^ log2Fuel fuel (n / 2) = p at ih1 ih2
      constructor <;> omega

lemma natLog2_spec {n : ℕ} (h : 1 ≤ n) :
    2 ^ natLog2 n ≤ n ∧ n < 2 ^ (natLog2 n + 1) :=
  log2Fuel_spec n n le_rfl h

lemma two_zpow_pos (e : ℤ) : (0 : ℚ) < 2 ^ e := zpow_pos (by norm_num) e

/-- The exponent computed by `floorLog2` is the binary exponent. -/
lemma floorLog2_spec {x : ℚ} (hx : 0 < x) :
    (2 : ℚ) ^ floorLog2 x ≤ x ∧ x < 2 ^ (floorLog2 x + 1) := by
  have hnum : 0 < x.num := Rat.num_pos.mpr hx
  have hN : 1 ≤ x.num.natAbs := by omega
  have hD : 1 ≤ x.den := x.den_pos
  obtain ⟨a1, a2⟩ := natLog2_spec hN
  obtain ⟨b1, b2⟩ := natLog2_spec hD
  have hxe : x = (x.num.natAbs : ℚ) / (x.den : ℚ) := by
    have h1 : (x.num.natAbs : ℚ) = (x.num : ℚ) := by
      rw [← Int.cast_natCast, Int.natAbs_of_nonneg hnum.le]
    rw [h1]
    exact (Rat.num_div_den x).symm
  have hDq : (0 : ℚ) < (x.den : ℚ) := by exact_mod_cast hD
  have A1 : ((2 : ℚ) ^ natLog2 x.num.natAbs) ≤ (x.num.natAbs : ℚ) := by exact_mod_cast a1
  have A2 : (x.num.natAbs : ℚ) < (2 : ℚ) ^ (natLog2 x.num.natAbs + 1) := by exact_mod_cast a2
  have B1 : ((2 : ℚ) ^ natLog2 x.den) ≤ (x.den : ℚ) := by exact_mod_cast b1
  have B2 : (x.den : ℚ) < (2 : ℚ) ^ (natLog2 x.den + 1) := by exact_mod_cast b2
  have hlow : (2 : ℚ) ^ ((natLog2 x.num.natAbs : ℤ) - (natLog2 x.den : ℤ) - 1) ≤ x := by
    have e : (2 : ℚ) ^ ((natLog2 x.num.natAbs : ℤ) - (natLog2 x.den : ℤ) - 1)
        = (2 : ℚ) ^ natLog2 x.num.natAbs / (2 : ℚ) ^ (natLog2 x.den + 1) := by
      rw [sub_sub, zpow_sub₀ (by norm_num), zpow_natCast]
      congr 1
      rw [← zpow_natCast]; push_cast; rfl
    rw [e]
    refine le_of_le_of_eq ?_ hxe.symm
    rw [div_le_div_iff₀ (by positivity) hDq]
    calc (2 : ℚ) ^ natLog2 x.num.natAbs * (x.den : ℚ)
        ≤ (x.num.natAbs : ℚ) * (x.den : ℚ) := by gcongr
      _ ≤ (x.num.natAbs : ℚ) * (2 : ℚ) ^ (natLog2 x.den + 1) := by gcongr
  have hhigh : x < (2 : ℚ) ^ ((natLog2 x.num.natAbs : ℤ) - (natLog2 x.den : ℤ) + 1) := by
    have e : (2 : ℚ) ^ ((natLog2 x.num.natAbs : ℤ) - (natLog2 x.den : ℤ) + 1)
        = (2 : ℚ) ^ (natLog2 x.num.natAbs + 1) / (2 : ℚ) ^ natLog2 x.den := by
      rw [sub_add_eq_add_sub, zpow_sub₀ (by norm_num), zpow_natCast]
      congr 1
      rw [← zpow_natCast]; push_cast; rfl
    rw [e]
    refine lt_of_eq_of_lt hxe ?_
    rw [div_lt_div_iff₀ hDq (by positivity)]
    calc (x.num.natAbs : ℚ) * (2 : ℚ) ^ natLog2 x.den
        ≤ (x.num.natAbs : ℚ) * (x.den : ℚ) := by gcongr
      _ < (2 : ℚ) ^ (natLog2 x.num.natAbs + 1) * (x.den : ℚ) := by gcongr
  unfold floorLog2
  simp only
  split_ifs with h
  · exact ⟨hlow, by simpa using h⟩
  · exact ⟨not_lt.mp h, hhigh⟩

/-- The binary exponent is determined by the two bounds. -/
lemma floorLog2_eq {x : ℚ} {e : ℤ} (h1 : (2 : ℚ) ^ e ≤ x) (h2 : x < 2 ^ (e + 1)) :
    floorLog2 x = e := by
  have hx : 0 < x := lt_of_lt_of_le (two_zpow_pos e) h1
  obtain ⟨s1, s2⟩ := floorLog2_spec hx
  have c1 : e < floorLog2 x + 1 :=
    (zpow_lt_zpow_iff_right₀ (by norm_num : (1 : ℚ) < 2)).mp (lt_of_le_of_lt h1 s2)
  have c2 : floorLog2 x < e + 1 :=
    (zpow_lt_zpow_iff_right₀ (by norm_num : (1 : ℚ) < 2)).mp (lt_of_le_of_lt s1 h2)
  omega

/-- The binary exponent does not decrease with the number. -/
lemma floorLog2_mono {x y : ℚ} (hx : 0 < x) (hxy : x ≤ y) : floorLog2 x ≤ floorLog2 y := by
  obtain ⟨s1, -⟩ := floorLog2_spec hx
  obtain ⟨-, t2⟩ := floorLog2_spec (lt_of_lt_of_le hx hxy)
  have c : floorLog2 x < floorLog2 y + 1 :=
    (zpow_lt_zpow_iff_right₀ (by norm_num : (1 : ℚ) < 2)).mp
      (lt_of_le_of_lt (le_trans s1 hxy) t2)
  omega

/-! ### Rounding to the nearest integer -/

lemma roundHalfEven_bounds {m : ℚ} (hm : 0 ≤ m) :
    m - 1 / 2 ≤ (roundHalfEven m : ℚ) ∧ (roundHalfEven m : ℚ) ≤ m + 1 / 2 := by
  have h1 : (⌊m⌋₊ : ℚ) ≤ m := Nat.floor_le hm
  have h2 : m < (⌊m⌋₊ : ℚ) + 1 := Nat.lt_floor_add_one m
  unfold roundHalfEven
  simp only
  split_ifs with c1 c2 c3
  · constructor <;> linarith
  · push_cast; constructor <;> linarith
  · have c4 : m - (⌊m⌋₊ : ℚ) = 1 / 2 := le_antisymm (not_lt.mp c2) (not_lt.mp c1)
    constructor <;> linarith
  · have c4 : m - (⌊m⌋₊ : ℚ) = 1 / 2 := le_antisymm (not_lt.mp c2) (not_lt.mp c1)
    push_cast; constructor <;> linarith

lemma roundHalfEven_natCast (k : ℕ) : roundHalfEven (k : ℚ) = k := by
  unfold roundHalfEven
  simp only [Nat.floor_natCast, sub_self]
  norm_num

lemma roundHalfEven_mono {m n : ℚ} (hm : 0 ≤ m) (hmn : m ≤ n) :
    roundHalfEven m ≤ roundHalfEven n := by
  by_contra hc
  have hlt : roundHalfEven n + 1 ≤ roundHalfEven m := by omega
  have hq : (roundHalfEven n : ℚ) + 1 ≤ (roundHalfEven m : ℚ) := by exact_mod_cast hlt
  obtain ⟨-, b1⟩ := roundHalfEven_bounds hm
  obtain ⟨b2, -⟩ := roundHalfEven_bounds (le_trans hm hmn)
  have heq : m = n := le_antisymm hmn (by linarith)
  rw [heq] at hc
  exact hc le_rfl

lemma le_roundHalfEven {m : ℚ} {k : ℕ} (h : (k : ℚ) ≤ m) : k ≤ roundHalfEven m := by
  have := roundHalfEven_mono (Nat.cast_nonneg k) h
  rwa [roundHalfEven_natCast] at this

lemma roundHalfEven_le {m : ℚ} {k : ℕ} (hm : 0 ≤ m) (h : m ≤ (k : ℚ)) :
    roundHalfEven m ≤ k := by
  have := roundHalfEven_mono hm h
  rwa [roundHalfEven_natCast] at this

/-! ### Rounding to a double -/

/-- The exponent of the unit in the last place used for `x`. -/
lemma roundVal_eq (x : ℚ) :
    roundVal x = (roundHalfEven (x / 2 ^ (max (floorLog2 x) (-1022) - 52)) : ℚ)
      * 2 ^ (max (floorLog2 x) (-1022) - 52) := rfl

lemma roundVal_nonneg (x : ℚ) : 0 ≤ roundVal x := by
  rw [roundVal_eq]
  exact mul_nonneg (Nat.cast_nonneg _) (two_zpow_pos _).le

lemma roundVal_zero : roundVal 0 = 0 := by
  rw [roundVal_eq, zero_div]
  have : roundHalfEven (0 : ℚ) = 0 := by exact_mod_cast roundHalfEven_natCast 0
  rw [this]; simp

/-- A multiple of its own unit in the last place is kept by the rounding. -/
lemma roundVal_of_multiple {x : ℚ} (N : ℕ)
    (h : x = (N : ℚ) * 2 ^ (max (floorLog2 x) (-1022) - 52)) : roundVal x = x := by
  have hu := two_zpow_pos (max (floorLog2 x) (-1022) - 52)
  have hq : x / 2 ^ (max (floorLog2 x) (-1022) - 52) = (N : ℚ) := by
    rw [div_eq_iff hu.ne']; exact h
  rw [roundVal_eq, hq, roundHalfEven_natCast]
  exact h.symm

/-- The rounding error is at most half a unit in the last place. -/
lemma roundVal_error {x : ℚ} (hx : 0 ≤ x) :
    x - 2 ^ (max (floorLog2 x) (-1022) - 53) ≤ roundVal x ∧
      roundVal x ≤ x + 2 ^ (max (floorLog2 x) (-1022) - 53) := by
  have hu := two_zpow_pos (max (floorLog2 x) (-1022) - 52)
  obtain ⟨b1, b2⟩ := roundHalfEven_bounds (div_nonneg hx hu.le)
  have e53 : (2 : ℚ) ^ (max (floorLog2 x) (-1022) - 53)
      = 1 / 2 * 2 ^ (max (floorLog2 x) (-1022) - 52) := by
    rw [show max (floorLog2 x) (-1022) - 53 = max (floorLog2 x) (-1022) - 52 - 1 by ring,
      zpow_sub_one₀ (by norm_num)]
    ring
  have hx' : x = x / 2 ^ (max (floorLog2 x) (-1022) - 52)
      * 2 ^ (max (floorLog2 x) (-1022) - 52) := by field_simp
  rw [roundVal_eq, e53]
  constructor
  · nlinarith
  · nlinarith

/-- Every rounded value is a whole multiple of the smallest subnormal. -/
lemma roundVal_grid (x : ℚ) : ∃ N : ℕ, roundVal x = (N : ℚ) * 2 ^ (-1074 : ℤ) := by
  have he : (0 : ℤ) ≤ max (floorLog2 x) (-1022) - 52 + 1074 := by
    have := le_max_right (floorLog2 x) (-1022); omega
  refine ⟨roundHalfEven (x / 2 ^ (max (floorLog2 x) (-1022) - 52))
    * 2 ^ (max (floorLog2 x) (-1022) - 52 + 1074).toNat, ?_⟩
  rw [roundVal_eq]
  push_cast
  rw [mul_assoc]
  congr 1
  rw [← zpow_natCast, Int.toNat_of_nonneg he, ← zpow_add₀ (by norm_num)]
  congr 1
  ring

lemma two_zpow_53 (e : ℤ) : ((2 ^ 53 : ℕ) : ℚ) * 2 ^ (e - 52) = 2 ^ (e + 1) := by
  have : ((2 ^ 53 : ℕ) : ℚ) = (2 : ℚ) ^ (53 : ℤ) := by norm_num
  rw [this, ← zpow_add₀ (by norm_num)]
  congr 1; ring

lemma two_zpow_52 (e : ℤ) : ((2 ^ 52 : ℕ) : ℚ) * 2 ^ (e - 52) = 2 ^ e := by
  have : ((2 ^ 52 : ℕ) : ℚ) = (2 : ℚ) ^ (52 : ℤ) := by norm_num
  rw [this, ← zpow_add₀ (by norm_num)]
  congr 1; ring

/-- A rounded value does not leave its binade upwards. -/
lemma roundVal_le_binade {x : ℚ} (hx : 0 < x) :
    roundVal x ≤ 2 ^ (max (floorLog2 x) (-1022) + 1) := by
  have hu := two_zpow_pos (max (floorLog2 x) (-1022) - 52)
  obtain ⟨-, s2⟩ := floorLog2_spec hx
  have h1 : x ≤ 2 ^ (max (floorLog2 x) (-1022) + 1) :=
    le_trans s2.le (zpow_le_zpow_right₀ (by norm_num)
      (by have := le_max_left (floorLog2 x) (-1022); omega))
  have h2 : x / 2 ^ (max (floorLog2 x) (-1022) - 52) ≤ ((2 ^ 53 : ℕ) : ℚ) := by
    rw [div_le_iff₀ hu, two_zpow_53]; exact h1
  have h3 := roundHalfEven_le (div_nonneg hx.le hu.le) h2
  have h4 : (roundHalfEven (x / 2 ^ (max (floorLog2 x) (-1022) - 52)) : ℚ)
      ≤ ((2 ^ 53 : ℕ) : ℚ) := by exact_mod_cast h3
  rw [roundVal_eq, ← two_zpow_53]
  exact mul_le_mul_of_nonneg_right h4 hu.le

/-- A rounded normal value does not leave its binade downwards. -/
lemma le_roundVal_binade {x : ℚ} (hx : 0 < x) (he : -1022 ≤ floorLog2 x) :
    2 ^ floorLog2 x ≤ roundVal x := by
  have hmax : max (floorLog2 x) (-1022) = floorLog2 x := max_eq_left he
  have hu := two_zpow_pos (floorLog2 x - 52)
  obtain ⟨s1, -⟩ := floorLog2_spec hx
  have h2 : ((2 ^ 52 : ℕ) : ℚ) ≤ x / 2 ^ (floorLog2 x - 52) := by
    rw [le_div_iff₀ hu, two_zpow_52]; exact s1
  have h3 := le_roundHalfEven h2
  have h4 : ((2 ^ 52 : ℕ) : ℚ) ≤ (roundHalfEven (x / 2 ^ (floorLog2 x - 52)) : ℚ) := by
    exact_mod_cast h3
  rw [roundVal_eq, hmax]
  calc (2 : ℚ) ^ floorLog2 x = ((2 ^ 52 : ℕ) : ℚ) * 2 ^ (floorLog2 x - 52) :=
        (two_zpow_52 _).symm
    _ ≤ _ := mul_le_mul_of_nonneg_right h4 hu.le

/-- Rounding is monotone. -/
lemma roundVal_mono {x y : ℚ} (hx : 0 ≤ x) (hxy : x ≤ y) : roundVal x ≤ roundVal y := by
  rcases hx.eq_or_lt with h0 | hpos
  · rw [← h0, roundVal_zero]; exact roundVal_nonneg y
  have hy : 0 < y := lt_of_lt_of_le hpos hxy
  have hfl := floorLog2_mono hpos hxy
  by_cases hsame : max (floorLog2 x) (-1022) = max (floorLog2 y) (-1022)
  · have hu := two_zpow_pos (max (floorLog2 y) (-1022) - 52)
    rw [roundVal_eq, roundVal_eq, hsame]
    have h1 : x / 2 ^ (max (floorLog2 y) (-1022) - 52)
        ≤ y / 2 ^ (max (floorLog2 y) (-1022) - 52) :=
      div_le_div_of_nonneg_right hxy hu.le
    have h2 := roundHalfEven_mono (div_nonneg hpos.le hu.le) h1
    have h3 : (roundHalfEven (x / 2 ^ (max (floorLog2 y) (-1022) - 52)) : ℚ)
        ≤ (roundHalfEven (y / 2 ^ (max (floorLog2 y) (-1022) - 52)) : ℚ) := by
      exact_mod_cast h2
    exact mul_le_mul_of_nonneg_right h3 hu.le
  · have hlt : max (floorLog2 x) (-1022) < max (floorLog2 y) (-1022) :=
      lt_of_le_of_ne (max_le_max hfl le_rfl) hsame
    have hey : -1022 ≤ floorLog2 y := by
      by_contra hc
      have h1 : max (floorLog2 y) (-1022) = -1022 := max_eq_right (by omega)
      have h2 := le_max_right (floorLog2 x) (-1022)
      omega
    have hmy : max (floorLog2 y) (-1022) = floorLog2 y := max_eq_left hey
    calc roundVal x ≤ 2 ^ (max (floorLog2 x) (-1022) + 1) := roundVal_le_binade hpos
      _ ≤ 2 ^ floorLog2 y := zpow_le_zpow_right₀ (by norm_num) (by omega)
      _ ≤ roundVal y := le_roundVal_binade hy hey

/-- A value at or above a double rounds to that double or above. -/
lemma le_roundVal_of_le {r x : ℚ} (hr : 0 ≤ r) (hfix : roundVal r = r) (h : r ≤ x) :
    r ≤ roundVal x := by
  have := roundVal_mono hr h
  rwa [hfix] at this

/-- A value at or below a double rounds to that double or below. -/
lemma roundVal_le_of_le {r x : ℚ} (hx : 0 ≤ x) (hfix : roundVal r = r) (h : x ≤ r) :
    roundVal x ≤ r := by
  have := roundVal_mono hx h
  rwa [hfix] at this

/-! ### The operations on doubles -/

lemma ofNat_zero : ofNat 0 = fin false 0 := by decide!

lemma ofNat_two : ofNat 2 = fin false 2 := by decide!

lemma ofNat_hundred : ofNat 100 = fin false 100 := by decide!

lemma ofNat_thousand : ofNat 1000 = fin false 1000 := by decide!

lemma roundVal_one : roundVal 1 = 1 := by decide!

lemma roundVal_hundred : roundVal 100 = 100 := by decide!

lemma isPositive_iff {x : JSNumber} :
    isPositive x = true ↔ ∃ m : ℚ, 0 < m ∧ x = fin false m := by
  constructor
  · intro h
    match x, h with
    | fin false m, h => exact ⟨m, by simpa [isPositive] using h, rfl⟩
  · rintro ⟨m, hm, rfl⟩
    simpa [isPositive] using hm

lemma roundDouble_cases (s : Bool) (x : ℚ) :
    (roundDouble s x = inf s ∧ 2 ^ 1024 ≤ roundVal x) ∨
      (roundDouble s x = fin s (roundVal x) ∧ roundVal x < 2 ^ 1024) := by
  unfold roundDouble
  split_ifs with h
  · exact Or.inl ⟨rfl, h⟩
  · exact Or.inr ⟨rfl, not_le.mp h⟩

/-- A finite product has a non-negative magnitude on the grid of doubles. -/
lemma mul_eq_fin {a b : JSNumber} {s : Bool} {v : ℚ} (h : mul a b = fin s v) :
    ∃ x : ℚ, v = roundVal x := by
  match a, b, h with
  | fin s1 m, fin s2 k, h =>
    simp only [mul] at h
    rcases roundDouble_cases (xor s1 s2) (m * k) with ⟨h1, -⟩ | ⟨h1, -⟩
    · rw [h1] at h; exact absurd h (by simp)
    · rw [h1] at h
      exact ⟨m * k, by injection h with _ h2; exact h2.symm⟩
  | inf s1, fin s2 k, h =>
    simp only [mul] at h
    split_ifs at h
  | fin s1 m, inf s2, h =>
    simp only [mul] at h
    split_ifs at h

/-- A finite quotient has a non-negative magnitude. -/
lemma div_eq_fin {a b : JSNumber} {s : Bool} {v : ℚ} (h : div a b = fin s v) :
    0 ≤ v := by
  match a, b, h with
  | fin s1 m, fin s2 k, h =>
    simp only [div] at h
    split_ifs at h with h1 h2
    rcases roundDouble_cases (xor s1 s2) (m / k) with ⟨h3, -⟩ | ⟨h3, -⟩
    · rw [h3] at h; exact absurd h (by simp)
    · rw [h3] at h
      injection h with _ h4
      rw [← h4]; exact roundVal_nonneg _
  | fin s1 m, inf s2, h =>
    simp only [div] at h
    injection h with _ h4
    rw [← h4]

/-- Rounding a value that is at least a double gives at least that double. -/
lemma ge_roundDouble {r x : ℚ} (hr : 0 ≤ r) (hfix : roundVal r = r) (h : r ≤ x) :
    ge (roundDouble false x) (fin false r) = true := by
  rcases roundDouble_cases false x with ⟨h1, -⟩ | ⟨h1, -⟩
  · rw [h1]; rfl
  · rw [h1]
    simp only [ge, value, Bool.false_eq_true, if_false, decide_eq_true_eq]
    exact le_roundVal_of_le hr hfix h

end JSNumber

section ChainLemmas

open JSNumber


lemma piVal_pos : 0 < piVal := by unfold piVal; norm_num

/-- A whole number up to `2 ^ 53` is a double. -/
lemma roundVal_natCast {n : ℕ} (hn : n ≤ 2 ^ 53) : roundVal (n : ℚ) = (n : ℚ) := by
  rcases Nat.eq_zero_or_pos n with h0 | hpos
  · subst h0; simpa using roundVal_zero
  have hx : (0 : ℚ) < (n : ℚ) := by exact_mod_cast hpos
  obtain ⟨s1, s2⟩ := floorLog2_spec hx
  have hlo : (0 : ℤ) ≤ floorLog2 (n : ℚ) := by
    have h1 : (2 : ℚ) ^ (0 : ℤ) ≤ (n : ℚ) := by
      rw [zpow_zero]; exact_mod_cast hpos
    have := (zpow_lt_zpow_iff_right₀ (by norm_num : (1 : ℚ) < 2)).mp (lt_of_le_of_lt h1 s2)
    omega
  have hhi : floorLog2 (n : ℚ) ≤ 53 := by
    have h1 : (n : ℚ) ≤ (2 : ℚ) ^ (53 : ℤ) := by
      have h0 : (n : ℚ) ≤ ((2 ^ 53 : ℕ) : ℚ) := by exact_mod_cast hn
      have e : ((2 ^ 53 : ℕ) : ℚ) = (2 : ℚ) ^ (53 : ℤ) := by norm_num
      rwa [e] at h0
    have := (zpow_le_zpow_iff_right₀ (by norm_num : (1 : ℚ) < 2)).mp (le_trans s1 h1)
    omega
  have hmax : max (floorLog2 (n : ℚ)) (-1022) = floorLog2 (n : ℚ) := max_eq_left (by omega)
  rcases hhi.eq_or_lt with h53 | hlt
  · -- the number is `2 ^ 53` itself
    have hn53 : (n : ℚ) = (2 : ℚ) ^ (53 : ℤ) := by
      apply le_antisymm
      · have h0 : (n : ℚ) ≤ ((2 ^ 53 : ℕ) : ℚ) := by exact_mod_cast hn
        have e : ((2 ^ 53 : ℕ) : ℚ) = (2 : ℚ) ^ (53 : ℤ) := by norm_num
        rwa [e] at h0
      · rw [h53] at s1; exact s1
    apply roundVal_of_multiple (2 ^ 52)
    rw [hmax, h53, hn53]
    norm_num
  · apply roundVal_of_multiple (n * 2 ^ (52 - floorLog2 (n : ℚ)).toNat)
    rw [hmax]
    push_cast
    rw [mul_assoc, ← zpow_natCast, Int.toNat_of_nonneg (by omega), ← zpow_add₀ (by norm_num)]
    have : 52 - floorLog2 (n : ℚ) + (floorLog2 (n : ℚ) - 52) = 0 := by ring
    rw [this, zpow_zero, mul_one]

lemma ofNat_eq {n : ℕ} (hn : n ≤ 2 ^ 53) : ofNat n = fin false (n : ℚ) := by
  unfold ofNat roundDouble
  rw [roundVal_natCast hn]
  have h1 : (n : ℚ) ≤ ((2 ^ 53 : ℕ) : ℚ) := by exact_mod_cast hn
  have h2 : ¬ (2 : ℚ) ^ 1024 ≤ (n : ℚ) := by
    rw [not_le]
    refine lt_of_le_of_lt h1 ?_
    norm_num
  rw [if_neg h2]

lemma mul_fin_fin (s t : Bool) (m k : ℚ) :
    mul (fin s m) (fin t k) = roundDouble (xor s t) (m * k) := rfl

lemma mul_inf_fin {k : ℚ} (hk : k ≠ 0) : mul (inf false) (fin false k) = inf false := by
  show (if k = 0 then nan else inf (xor false false)) = inf false
  rw [if_neg hk]; rfl

lemma mul_fin_inf {k : ℚ} (hk : k ≠ 0) : mul (fin false k) (inf false) = inf false := by
  show (if k = 0 then nan else inf (xor false false)) = inf false
  rw [if_neg hk]; rfl

lemma mul_inf_inf : mul (inf false) (inf false) = inf false := rfl

lemma div_fin_fin (s t : Bool) (m : ℚ) {k : ℚ} (hk : k ≠ 0) :
    div (fin s m) (fin t k) = roundDouble (xor s t) (m / k) := by
  show (if k = 0 then (if m = 0 then nan else inf (xor s t))
    else roundDouble (xor s t) (m / k)) = _
  rw [if_neg hk]

/-- The volume of lines 2 and 3 on doubles is `+Infinity` or the finite value of
the rounded chain; it is never `NaN` and never negative. -/
lemma volume_cases (w h : ℚ) (hh : h ≠ 0) :
    mul (mul PI (square (div (fin false w) (ofNat 2)))) (fin false h) = inf false ∨
      (mul (mul PI (square (div (fin false w) (ofNat 2)))) (fin false h)
        = fin false (volumeVal w h) ∧ volumeVal w h < 2 ^ 1024) := by
  have hpi : piVal ≠ 0 := piVal_pos.ne'
  rw [ofNat_two, div_fin_fin false false w (by norm_num : (2 : ℚ) ≠ 0)]
  unfold square PI
  rcases roundDouble_cases false (w / 2) with ⟨h1, -⟩ | ⟨h1, -⟩
  · left
    show mul (mul (fin false piVal) (mul (roundDouble false (w / 2)) (roundDouble false (w / 2))))
      (fin false h) = inf false
    rw [h1, mul_inf_inf, mul_fin_inf hpi, mul_inf_fin hh]
  show mul (mul (fin false piVal) (mul (roundDouble false (w / 2)) (roundDouble false (w / 2))))
      (fin false h) = inf false ∨
    (mul (mul (fin false piVal) (mul (roundDouble false (w / 2)) (roundDouble false (w / 2))))
      (fin false h) = fin false (volumeVal w h) ∧ volumeVal w h < 2 ^ 1024)
  rw [h1, mul_fin_fin]
  rcases roundDouble_cases false (roundVal (w / 2) * roundVal (w / 2)) with ⟨h2, -⟩ | ⟨h2, -⟩
  · left
    show mul (mul (fin false piVal) (roundDouble false (roundVal (w / 2) * roundVal (w / 2))))
      (fin false h) = inf false
    rw [h2, mul_fin_inf hpi, mul_inf_fin hh]
  show mul (mul (fin false piVal) (roundDouble false (roundVal (w / 2) * roundVal (w / 2))))
      (fin false h) = inf false ∨
    (mul (mul (fin false piVal) (roundDouble false (roundVal (w / 2) * roundVal (w / 2))))
      (fin false h) = fin false (volumeVal w h) ∧ volumeVal w h < 2 ^ 1024)
  rw [h2, mul_fin_fin]
  rcases roundDouble_cases false (piVal * roundVal (roundVal (w / 2) * roundVal (w / 2)))
    with ⟨h3, -⟩ | ⟨h3, -⟩
  · left
    show mul (roundDouble false (piVal * roundVal (roundVal (w / 2) * roundVal (w / 2))))
      (fin false h) = inf false
    rw [h3, mul_inf_fin hh]
  show mul (roundDouble false (piVal * roundVal (roundVal (w / 2) * roundVal (w / 2))))
      (fin false h) = inf false ∨
    (mul (roundDouble false (piVal * roundVal (roundVal (w / 2) * roundVal (w / 2))))
      (fin false h) = fin false (volumeVal w h) ∧ volumeVal w h < 2 ^ 1024)
  rw [h3, mul_fin_fin]
  rcases roundDouble_cases false
    (roundVal (piVal * roundVal (roundVal (w / 2) * roundVal (w / 2))) * h) with ⟨h4, -⟩ | ⟨h4, h5⟩
  · left; exact h4
  · right; exact ⟨h4, h5⟩

/-- The four dimensions and the count of a positive input. -/
lemma PositiveDoubles.dest {a : CementInput JSNumber} (hpos : PositiveDoubles a) :
    ∃ ph pw dh dd : ℚ, 0 < ph ∧ 0 < pw ∧ 0 < dh ∧ 0 < dd ∧
      a.personHeight = fin false ph ∧ a.personWidth = fin false pw ∧
      a.drumHeight = fin false dh ∧ a.drumDiameter = fin false dd ∧
      0 < a.personCount ∧ a.personCount ≤ 2 ^ 53 := by
  obtain ⟨h1, h2, h3, h4, h5, h6⟩ := hpos
  obtain ⟨ph, hph, e1⟩ := isPositive_iff.mp h1
  obtain ⟨pw, hpw, e2⟩ := isPositive_iff.mp h2
  obtain ⟨dh, hdh, e3⟩ := isPositive_iff.mp h3
  obtain ⟨dd, hdd, e4⟩ := isPositive_iff.mp h4
  exact ⟨ph, pw, dh, dd, hph, hpw, hdh, hdd, e1, e2, e3, e4, h5, h6⟩

lemma personVolumeD_cases {a : CementInput JSNumber} {w h : ℚ}
    (hw : a.personWidth = fin false w) (hh : a.personHeight = fin false h) (h0 : h ≠ 0) :
    personVolumeD a = inf false ∨
      (personVolumeD a = fin false (volumeVal w h) ∧ volumeVal w h < 2 ^ 1024) := by
  unfold personVolumeD; rw [hw, hh]; exact volume_cases w h h0

lemma drumVolumeD_cases {a : CementInput JSNumber} {w h : ℚ}
    (hw : a.drumDiameter = fin false w) (hh : a.drumHeight = fin false h) (h0 : h ≠ 0) :
    drumVolumeD a = inf false ∨
      (drumVolumeD a = fin false (volumeVal w h) ∧ volumeVal w h < 2 ^ 1024) := by
  unfold drumVolumeD; rw [hw, hh]; exact volume_cases w h h0

/-- The total volume of a positive count of persons is `+Infinity` or the
rounded product; it is never `NaN`. -/
lemma totalPeopleVolumeD_cases {a : CementInput JSNumber} {w h : ℚ}
    (hw : a.personWidth = fin false w) (hh : a.personHeight = fin false h) (h0 : h ≠ 0)
    (hn : 0 < a.personCount) (hn2 : a.personCount ≤ 2 ^ 53) :
    (totalPeopleVolumeD a = inf false ∧
        (personVolumeD a = inf false ∨
          2 ^ 1024 ≤ roundVal (volumeVal w h * (a.personCount : ℚ)))) ∨
      (personVolumeD a = fin false (volumeVal w h) ∧
        totalPeopleVolumeD a = fin false (roundVal (volumeVal w h * (a.personCount : ℚ)))) := by
  have hnq : (a.personCount : ℚ) ≠ 0 := by exact_mod_cast hn.ne'
  unfold totalPeopleVolumeD
  rw [ofNat_eq hn2]
  rcases personVolumeD_cases hw hh h0 with h1 | ⟨h1, -⟩
  · left; rw [h1]; exact ⟨mul_inf_fin hnq, Or.inl rfl⟩
  · rw [h1, mul_fin_fin]
    rcases roundDouble_cases false (volumeVal w h * (a.personCount : ℚ)) with ⟨h2, h3⟩ | ⟨h2, -⟩
    · left; exact ⟨h2, Or.inr h3⟩
    · right; exact ⟨rfl, h2⟩

end ChainLemmas

section Divisors

open JSNumber


/-- A power of two within the range of the doubles is a double. -/
lemma roundVal_two_zpow {k : ℤ} (hk : -1074 ≤ k) : roundVal ((2 : ℚ) ^ k) = (2 : ℚ) ^ k := by
  have hfl : floorLog2 ((2 : ℚ) ^ k) = k :=
    floorLog2_eq le_rfl (zpow_lt_zpow_right₀ (by norm_num) (by omega))
  have he : (0 : ℤ) ≤ k - (max k (-1022) - 52) := by
    rcases le_total k (-1022) with h | h
    · rw [max_eq_right h]; omega
    · rw [max_eq_left h]; omega
  apply roundVal_of_multiple (2 ^ (k - (max k (-1022) - 52)).toNat)
  rw [hfl]
  push_cast
  rw [← zpow_natCast, Int.toNat_of_nonneg he, ← zpow_add₀ (by norm_num)]
  congr 1; ring

lemma roundDouble_of_lt {x : ℚ} (h : roundVal x < 2 ^ 1024) :
    roundDouble false x = fin false (roundVal x) := by
  unfold roundDouble
  rw [if_neg (not_le.mpr h)]

/-- Rounding keeps a value between two powers of two. -/
lemma roundVal_range {x : ℚ} {i j : ℤ} (hi : -1074 ≤ i) (hj : -1074 ≤ j)
    (h1 : (2 : ℚ) ^ i ≤ x) (h2 : x ≤ 2 ^ j) :
    (2 : ℚ) ^ i ≤ roundVal x ∧ roundVal x ≤ 2 ^ j :=
  ⟨le_roundVal_of_le (two_zpow_pos i).le (roundVal_two_zpow hi) h1,
    roundVal_le_of_le (le_trans (two_zpow_pos i).le h1) (roundVal_two_zpow hj) h2⟩

lemma two_zpow_lt_huge {j : ℤ} (hj : j ≤ 1023) : (2 : ℚ) ^ j < 2 ^ 1024 := by
  have : (2 : ℚ) ^ (1024 : ℕ) = (2 : ℚ) ^ (1024 : ℤ) := by norm_num
  rw [this]
  exact zpow_lt_zpow_right₀ (by norm_num) (by omega)

lemma piVal_bounds : (2 : ℚ) ^ (1 : ℤ) ≤ piVal ∧ piVal ≤ (2 : ℚ) ^ (2 : ℤ) := by
  unfold piVal; constructor <;> norm_num

/-- With both arguments between `2 ^ i` and `2 ^ j`, for exponents well inside
the range, the volume of lines 2 and 3 is finite and stays between
`2 ^ (3 i - 1)` and `2 ^ (3 j)`. -/
lemma volume_of_range {w h : ℚ} {i j : ℤ} (hi : -340 ≤ i) (hj : j ≤ 340) 
    (hw1 : (2 : ℚ) ^ i ≤ w) (hw2 : w ≤ 2 ^ j) (hh1 : (2 : ℚ) ^ i ≤ h) (hh2 : h ≤ 2 ^ j) :
    mul (mul PI (square (div (fin false w) (ofNat 2)))) (fin false h)
        = fin false (volumeVal w h) ∧
      (2 : ℚ) ^ (3 * i - 1) ≤ volumeVal w h ∧ volumeVal w h ≤ 2 ^ (3 * j) := by
  have hij : i ≤ j := by
    have := (zpow_le_zpow_iff_right₀ (by norm_num : (1 : ℚ) < 2)).mp (le_trans hw1 hw2)
    exact this
  have two : (1 : ℚ) < 2 := by norm_num
  -- the half
  have a1 : (2 : ℚ) ^ (i - 1) ≤ w / 2 := by
    rw [zpow_sub_one₀ (by norm_num)]
    exact div_le_div_of_nonneg_right hw1 (by norm_num)
  have a2 : w / 2 ≤ (2 : ℚ) ^ (j - 1) := by
    rw [zpow_sub_one₀ (by norm_num)]
    exact div_le_div_of_nonneg_right hw2 (by norm_num)
  obtain ⟨b1, b2⟩ := roundVal_range (by omega) (by omega) a1 a2
  have hb0 : 0 < roundVal (w / 2) := lt_of_lt_of_le (two_zpow_pos _) b1
  -- the square
  have c1 : (2 : ℚ) ^ (2 * i - 2) ≤ roundVal (w / 2) * roundVal (w / 2) := by
    have e : (2 : ℚ) ^ (2 * i - 2) = 2 ^ (i - 1) * 2 ^ (i - 1) := by
      rw [← zpow_add₀ (by norm_num)]; congr 1; ring
    rw [e]
    exact mul_le_mul b1 b1 (two_zpow_pos _).le hb0.le
  have c2 : roundVal (w / 2) * roundVal (w / 2) ≤ (2 : ℚ) ^ (2 * j - 2) := by
    have e : (2 : ℚ) ^ (2 * j - 2) = 2 ^ (j - 1) * 2 ^ (j - 1) := by
      rw [← zpow_add₀ (by norm_num)]; congr 1; ring
    rw [e]
    exact mul_le_mul b2 b2 hb0.le (two_zpow_pos _).le
  obtain ⟨d1, d2⟩ := roundVal_range (by omega) (by omega) c1 c2
  have hd0 : 0 < roundVal (roundVal (w / 2) * roundVal (w / 2)) :=
    lt_of_lt_of_le (two_zpow_pos _) d1
  -- times `Math.PI`
  have e1 : (2 : ℚ) ^ (2 * i - 1)
      ≤ piVal * roundVal (roundVal (w / 2) * roundVal (w / 2)) := by
    have e : (2 : ℚ) ^ (2 * i - 1) = 2 ^ (1 : ℤ) * 2 ^ (2 * i - 2) := by
      rw [← zpow_add₀ (by norm_num)]; congr 1; ring
    rw [e]
    exact mul_le_mul piVal_bounds.1 d1 (two_zpow_pos _).le piVal_pos.le
  have e2 : piVal * roundVal (roundVal (w / 2) * roundVal (w / 2)) ≤ (2 : ℚ) ^ (2 * j) := by
    have e : (2 : ℚ) ^ (2 * j) = 2 ^ (2 : ℤ) * 2 ^ (2 * j - 2) := by
      rw [← zpow_add₀ (by norm_num)]; congr 1; ring
    rw [e]
    exact mul_le_mul piVal_bounds.2 d2 hd0.le (two_zpow_pos _).le
  obtain ⟨f1, f2⟩ := roundVal_range (by omega) (by omega) e1 e2
  have hf0 : 0 < roundVal (piVal * roundVal (roundVal (w / 2) * roundVal (w / 2))) :=
    lt_of_lt_of_le (two_zpow_pos _) f1
  -- times the height
  have hh0 : 0 < h := lt_of_lt_of_le (two_zpow_pos _) hh1
  have g1 : (2 : ℚ) ^ (3 * i - 1)
      ≤ roundVal (piVal * roundVal (roundVal (w / 2) * roundVal (w / 2))) * h := by
    have e : (2 : ℚ) ^ (3 * i - 1) = 2 ^ (2 * i - 1) * 2 ^ i := by
      rw [← zpow_add₀ (by norm_num)]; congr 1; ring
    rw [e]
    exact mul_le_mul f1 hh1 (two_zpow_pos _).le hf0.le
  have g2 : roundVal (piVal * roundVal (roundVal (w / 2) * roundVal (w / 2))) * h
      ≤ (2 : ℚ) ^ (3 * j) := by
    have e : (2 : ℚ) ^ (3 * j) = 2 ^ (2 * j) * 2 ^ j := by
      rw [← zpow_add₀ (by norm_num)]; congr 1; ring
    rw [e]
    exact mul_le_mul f2 hh2 hh0.le (two_zpow_pos _).le
  obtain ⟨k1, k2⟩ := roundVal_range (by omega) (by omega) g1 g2
  refine ⟨?_, k1, k2⟩
  rw [ofNat_two, div_fin_fin false false w (by norm_num : (2 : ℚ) ≠ 0)]
  unfold square PI
  show mul (mul (fin false piVal) (mul (roundDouble false (w / 2)) (roundDouble false (w / 2))))
      (fin false h) = fin false (volumeVal w h)
  rw [roundDouble_of_lt (lt_of_le_of_lt b2 (two_zpow_lt_huge (by omega))), mul_fin_fin]
  show mul (mul (fin false piVal) (roundDouble false (roundVal (w / 2) * roundVal (w / 2))))
      (fin false h) = fin false (volumeVal w h)
  rw [roundDouble_of_lt (lt_of_le_of_lt d2 (two_zpow_lt_huge (by omega))), mul_fin_fin]
  show mul (roundDouble false (piVal * roundVal (roundVal (w / 2) * roundVal (w / 2))))
      (fin false h) = fin false (volumeVal w h)
  rw [roundDouble_of_lt (lt_of_le_of_lt f2 (two_zpow_lt_huge (by omega))), mul_fin_fin]
  show roundDouble false (roundVal (piVal * roundVal (roundVal (w / 2) * roundVal (w / 2))) * h)
    = fin false (volumeVal w h)
  rw [roundDouble_of_lt (lt_of_le_of_lt k2 (two_zpow_lt_huge (by omega)))]
  rfl

lemma inRange_iff {lo hi : ℚ} {x : JSNumber} :
    inRange lo hi x ↔ ∃ m : ℚ, x = fin false m ∧ lo ≤ m ∧ m ≤ hi := by
  constructor
  · intro h
    match x, h with
    | fin false m, h => exact ⟨m, rfl, h⟩
  · rintro ⟨m, rfl, h⟩
    exact h

end Divisors

namespace JSNumber

/-! ### Doubles are the fixed points of the rounding -/

/-- Rounding twice is rounding once. -/
lemma roundVal_idem {x : ℚ} (hx : 0 ≤ x) : roundVal (roundVal x) = roundVal x := by
  rcases hx.eq_or_lt with h0 | hpos
  · rw [← h0, roundVal_zero, roundVal_zero]
  rcases (roundVal_nonneg x).eq_or_lt with hv0 | hvpos
  · rw [← hv0, roundVal_zero]
  have hle := roundVal_le_binade hpos
  have hu := two_zpow_pos (max (floorLog2 x) (-1022) - 52)
  rcases hle.eq_or_lt with heq | hlt
  · -- rounded up to the next power of two
    rw [heq]
    exact roundVal_two_zpow (by have := le_max_right (floorLog2 x) (-1022); omega)
  · by_cases hfl : -1022 ≤ floorLog2 x
    · -- normal: the exponent is kept
      have hmax : max (floorLog2 x) (-1022) = floorLog2 x := max_eq_left hfl
      rw [hmax] at hlt
      have hflv : floorLog2 (roundVal x) = floorLog2 x :=
        floorLog2_eq (le_roundVal_binade hpos hfl) hlt
      apply roundVal_of_multiple (roundHalfEven (x / 2 ^ (max (floorLog2 x) (-1022) - 52)))
      rw [hflv]
      exact roundVal_eq x
    · -- subnormal: the exponent stays the smallest one
      have hmax : max (floorLog2 x) (-1022) = -1022 := max_eq_right (by omega)
      rw [hmax] at hlt
      have hflv : floorLog2 (roundVal x) < -1022 + 1 := by
        obtain ⟨s1, -⟩ := floorLog2_spec hvpos
        exact (zpow_lt_zpow_iff_right₀ (by norm_num : (1 : ℚ) < 2)).mp (lt_of_le_of_lt s1 hlt)
      apply roundVal_of_multiple (roundHalfEven (x / 2 ^ (max (floorLog2 x) (-1022) - 52)))
      have hmaxv : max (floorLog2 (roundVal x)) (-1022) = -1022 := max_eq_right (by omega)
      have e : (2 : ℚ) ^ (max (floorLog2 x) (-1022) - 52) = 2 ^ ((-1022 : ℤ) - 52) := by
        rw [hmax]
      rw [hmaxv, ← e]
      exact roundVal_eq x

/-- A double is a whole multiple of every power of two up to its own unit in
the last place. -/
lemma multiple_of_fixed {v : ℚ} (g : ℤ) (hfix : roundVal v = v)
    (hg : g ≤ max (floorLog2 v) (-1022) - 52) : ∃ K : ℕ, v = (K : ℚ) * 2 ^ g := by
  refine ⟨roundHalfEven (v / 2 ^ (max (floorLog2 v) (-1022) - 52))
    * 2 ^ (max (floorLog2 v) (-1022) - 52 - g).toNat, ?_⟩
  push_cast
  rw [mul_assoc, ← zpow_natCast, Int.toNat_of_nonneg (by omega), ← zpow_add₀ (by norm_num)]
  have : max (floorLog2 v) (-1022) - 52 - g + g = max (floorLog2 v) (-1022) - 52 := by ring
  rw [this]
  exact hfix.symm.trans (roundVal_eq v)

/-- Two distinct doubles differ by at least the unit in the last place of the
smaller one. -/
lemma sub_ge_ulp {s t : ℚ} (hs : 0 < s) (hst : s < t) (fs : roundVal s = s)
    (ft : roundVal t = t) : (2 : ℚ) ^ (max (floorLog2 s) (-1022) - 52) ≤ t - s := by
  have hfl := floorLog2_mono hs hst.le
  obtain ⟨N, hN⟩ := multiple_of_fixed (max (floorLog2 s) (-1022) - 52) fs le_rfl
  obtain ⟨K, hK⟩ := multiple_of_fixed (max (floorLog2 s) (-1022) - 52) ft
    (by have := max_le_max hfl (le_refl (-1022 : ℤ)); omega)
  have hu := two_zpow_pos (max (floorLog2 s) (-1022) - 52)
  have hlt : (N : ℚ) < (K : ℚ) := by
    have : (N : ℚ) * 2 ^ (max (floorLog2 s) (-1022) - 52)
        < (K : ℚ) * 2 ^ (max (floorLog2 s) (-1022) - 52) := by rw [← hN, ← hK]; exact hst
    exact lt_of_mul_lt_mul_right this hu.le
  have hnat : N + 1 ≤ K := by exact_mod_cast hlt
  have hq : (N : ℚ) + 1 ≤ (K : ℚ) := by exact_mod_cast hnat
  have e : t - s = ((K : ℚ) - (N : ℚ)) * 2 ^ (max (floorLog2 s) (-1022) - 52) := by
    rw [sub_mul, ← hN, ← hK]
  rw [e]
  nlinarith

lemma lt_binade {s : ℚ} (hs : 0 < s) : s < 2 ^ (max (floorLog2 s) (-1022) + 1) := by
  obtain ⟨-, s2⟩ := floorLog2_spec hs
  exact lt_of_lt_of_le s2 (zpow_le_zpow_right₀ (by norm_num)
    (by have := le_max_left (floorLog2 s) (-1022); omega))

lemma ulp_eq (e : ℤ) : (2 : ℚ) ^ (e - 52) = 2 ^ (e + 1) * 2 ^ (-53 : ℤ) := by
  rw [← zpow_add₀ (by norm_num)]; congr 1; ring

/-- The quotient of a double by a smaller double exceeds `1 + 2 ^ -53`. -/
lemma ratio_gt {d t : ℚ} (hd : 0 < d) (hdt : d < t) (fd : roundVal d = d)
    (ft : roundVal t = t) : 1 + 2 ^ (-53 : ℤ) < t / d := by
  have h1 := sub_ge_ulp hd hdt fd ft
  have h2 := lt_binade hd
  have h53 : (0 : ℚ) < 2 ^ (-53 : ℤ) := two_zpow_pos _
  rw [ulp_eq] at h1
  rw [lt_div_iff₀ hd]
  have h3 : d * 2 ^ (-53 : ℤ) < 2 ^ (max (floorLog2 d) (-1022) + 1) * 2 ^ (-53 : ℤ) :=
    mul_lt_mul_of_pos_right h2 h53
  linarith

/-- The quotient of a double by a larger double is at most `1 - 2 ^ -53`. -/
lemma ratio_le {d t : ℚ} (ht : 0 < t) (htd : t < d) (fd : roundVal d = d)
    (ft : roundVal t = t) : t / d ≤ 1 - 2 ^ (-53 : ℤ) := by
  have hd : 0 < d := lt_trans ht htd
  have h1 := sub_ge_ulp ht htd ft fd
  have h53 : (0 : ℚ) < 2 ^ (-53 : ℤ) := two_zpow_pos _
  rw [ulp_eq] at h1
  rw [div_le_iff₀ hd]
  by_cases hc : d ≤ 2 ^ (max (floorLog2 t) (-1022) + 1)
  · have h3 : d * 2 ^ (-53 : ℤ) ≤ 2 ^ (max (floorLog2 t) (-1022) + 1) * 2 ^ (-53 : ℤ) :=
      mul_le_mul_of_nonneg_right hc h53.le
    linarith
  · -- the larger one lies beyond the binade of the smaller one
    have hB := two_zpow_pos (max (floorLog2 t) (-1022) + 1)
    have hfixB : roundVal ((2 : ℚ) ^ (max (floorLog2 t) (-1022) + 1))
        = 2 ^ (max (floorLog2 t) (-1022) + 1) :=
      roundVal_two_zpow (by have := le_max_right (floorLog2 t) (-1022); omega)
    have h4 := sub_ge_ulp ht (lt_binade ht) ft hfixB
    rw [ulp_eq] at h4
    have h5 : (2 : ℚ) ^ (max (floorLog2 t) (-1022) + 1) < d := not_le.mp hc
    have h6 : (0 : ℚ) < 1 - 2 ^ (-53 : ℤ) := by
      have : (2 : ℚ) ^ (-53 : ℤ) < 1 := by
        rw [zpow_neg]; norm_num
      linarith
    calc t ≤ 2 ^ (max (floorLog2 t) (-1022) + 1) * (1 - 2 ^ (-53 : ℤ)) := by linarith
      _ ≤ d * (1 - 2 ^ (-53 : ℤ)) := mul_le_mul_of_nonneg_right h5.le h6.le
      _ = (1 - 2 ^ (-53 : ℤ)) * d := by ring

end JSNumber

namespace JSNumber

/-! ### The percentage on either side of the boundary -/

lemma roundVal_in_binade {x : ℚ} {e : ℤ} (h1 : (2 : ℚ) ^ e ≤ x) (h2 : x < 2 ^ (e + 1))
    (he : -1022 ≤ e) :
    roundVal x = (roundHalfEven (x / 2 ^ (e - 52)) : ℚ) * 2 ^ (e - 52) := by
  rw [roundVal_eq, floorLog2_eq h1 h2, max_eq_left he]

lemma roundVal_onePred : roundVal (1 - 2 ^ (-53 : ℤ)) = 1 - 2 ^ (-53 : ℤ) := by decide!

/-- Above `1 + 2 ^ -53` the rounded quotient is at least `1 + 2 ^ -52`. -/
lemma roundVal_gt_one {x : ℚ} (hx : 1 + 2 ^ (-53 : ℤ) < x) :
    1 + 2 ^ (-52 : ℤ) ≤ roundVal x := by
  have h53 : (0 : ℚ) < 2 ^ (-53 : ℤ) := two_zpow_pos _
  by_cases h2 : (2 : ℚ) ^ (1 : ℤ) ≤ x
  · have := le_roundVal_of_le (two_zpow_pos 1).le (roundVal_two_zpow (by norm_num)) h2
    have e : (2 : ℚ) ^ (-52 : ℤ) ≤ 1 := by rw [zpow_neg]; norm_num
    norm_num at this ⊢
    linarith
  · have h1 : (2 : ℚ) ^ (0 : ℤ) ≤ x := by rw [zpow_zero]; linarith
    rw [roundVal_in_binade h1 (by simpa using not_le.mp h2) (by norm_num)]
    have hu : (0 : ℚ) < 2 ^ ((0 : ℤ) - 52) := two_zpow_pos _
    obtain ⟨b1, -⟩ := roundHalfEven_bounds (div_nonneg (by linarith : (0 : ℚ) ≤ x) hu.le)
    have hm : ((2 ^ 52 : ℕ) : ℚ) + 1 / 2 < x / 2 ^ ((0 : ℤ) - 52) := by
      rw [lt_div_iff₀ hu]
      norm_num at hx ⊢
      linarith
    have hlt : ((2 ^ 52 : ℕ) : ℚ) < (roundHalfEven (x / 2 ^ ((0 : ℤ) - 52)) : ℚ) := by linarith
    have hnat : 2 ^ 52 + 1 ≤ roundHalfEven (x / 2 ^ ((0 : ℤ) - 52)) := by exact_mod_cast hlt
    have hq : ((2 ^ 52 + 1 : ℕ) : ℚ) ≤ (roundHalfEven (x / 2 ^ ((0 : ℤ) - 52)) : ℚ) := by
      exact_mod_cast hnat
    calc (1 : ℚ) + 2 ^ (-52 : ℤ) = ((2 ^ 52 + 1 : ℕ) : ℚ) * 2 ^ ((0 : ℤ) - 52) := by norm_num
      _ ≤ _ := mul_le_mul_of_nonneg_right hq hu.le

/-- A hundred times at least `1 + 2 ^ -52` rounds above 100. -/
lemma roundVal_hundred_lt {y : ℚ} (hy : 100 * (1 + 2 ^ (-52 : ℤ)) ≤ y) : 100 < roundVal y := by
  by_cases h2 : (2 : ℚ) ^ (7 : ℤ) ≤ y
  · have := le_roundVal_of_le (two_zpow_pos 7).le (roundVal_two_zpow (by norm_num)) h2
    norm_num at this ⊢
    linarith
  · have h52 : (0 : ℚ) < 2 ^ (-52 : ℤ) := two_zpow_pos _
    have h1 : (2 : ℚ) ^ (6 : ℤ) ≤ y := by norm_num at hy ⊢; linarith
    rw [roundVal_in_binade h1 (by simpa using not_le.mp h2) (by norm_num)]
    have hu : (0 : ℚ) < 2 ^ ((6 : ℤ) - 52) := two_zpow_pos _
    have hy0 : (0 : ℚ) ≤ y := le_trans (two_zpow_pos 6).le h1
    obtain ⟨b1, -⟩ := roundHalfEven_bounds (div_nonneg hy0 hu.le)
    have hm : ((100 * 2 ^ 46 : ℕ) : ℚ) + 1 / 2 < y / 2 ^ ((6 : ℤ) - 52) := by
      rw [lt_div_iff₀ hu]
      norm_num at hy ⊢
      linarith
    have hlt : ((100 * 2 ^ 46 : ℕ) : ℚ) < (roundHalfEven (y / 2 ^ ((6 : ℤ) - 52)) : ℚ) := by
      linarith
    calc (100 : ℚ) = ((100 * 2 ^ 46 : ℕ) : ℚ) * 2 ^ ((6 : ℤ) - 52) := by norm_num
      _ < _ := mul_lt_mul_of_pos_right hlt hu

/-- A hundred times at most `1 - 2 ^ -53` rounds below 100. -/
lemma roundVal_lt_hundred {y : ℚ} (hy0 : 0 ≤ y) (hy : y ≤ 100 * (1 - 2 ^ (-53 : ℤ))) :
    roundVal y < 100 := by
  by_cases h2 : y < (2 : ℚ) ^ (6 : ℤ)
  · have := roundVal_le_of_le hy0 (roundVal_two_zpow (by norm_num : (-1074 : ℤ) ≤ 6)) h2.le
    norm_num at this ⊢
    linarith
  · have h1 : (2 : ℚ) ^ (6 : ℤ) ≤ y := not_lt.mp h2
    have h3 : y < (2 : ℚ) ^ ((6 : ℤ) + 1) := by norm_num at hy ⊢; linarith
    rw [roundVal_in_binade h1 h3 (by norm_num)]
    have hu : (0 : ℚ) < 2 ^ ((6 : ℤ) - 52) := two_zpow_pos _
    obtain ⟨-, b2⟩ := roundHalfEven_bounds (div_nonneg hy0 hu.le)
    have hm : y / 2 ^ ((6 : ℤ) - 52) + 1 / 2 < ((100 * 2 ^ 46 : ℕ) : ℚ) := by
      have : y / 2 ^ ((6 : ℤ) - 52) ≤ ((100 * 2 ^ 46 : ℕ) : ℚ) - 100 / 128 := by
        rw [div_le_iff₀ hu]
        norm_num at hy ⊢
        linarith
      linarith
    have hlt : (roundHalfEven (y / 2 ^ ((6 : ℤ) - 52)) : ℚ) < ((100 * 2 ^ 46 : ℕ) : ℚ) := by
      linarith
    calc _ < ((100 * 2 ^ 46 : ℕ) : ℚ) * 2 ^ ((6 : ℤ) - 52) := mul_lt_mul_of_pos_right hlt hu
      _ = 100 := by norm_num

lemma mul_fin_false (m k : ℚ) :
    mul (fin false m) (fin false k) = roundDouble false (m * k) := rfl

/-- Above the boundary the percentage is above 100. -/
lemma percent_gt {x : ℚ} (hx : 1 + 2 ^ (-53 : ℤ) < x) :
    gt (mul (roundDouble false x) (fin false 100)) (fin false 100) = true := by
  rcases roundDouble_cases false x with ⟨h1, -⟩ | ⟨h1, -⟩
  · rw [h1, mul_inf_fin (by norm_num)]; rfl
  · rw [h1, mul_fin_false]
    have hq := roundVal_gt_one hx
    have hy : 100 * (1 + 2 ^ (-52 : ℤ)) ≤ roundVal x * 100 := by linarith
    have hv := roundVal_hundred_lt hy
    rcases roundDouble_cases false (roundVal x * 100) with ⟨h2, -⟩ | ⟨h2, -⟩
    · rw [h2]; rfl
    · rw [h2]
      simpa [JSNumber.gt, value] using hv

/-- Below the boundary the percentage is finite and below 100. -/
lemma percent_lt {x : ℚ} (hx0 : 0 ≤ x) (hx : x ≤ 1 - 2 ^ (-53 : ℤ)) :
    ∃ v : ℚ, mul (roundDouble false x) (fin false 100) = fin false v ∧ v < 100 := by
  have hq : roundVal x ≤ 1 - 2 ^ (-53 : ℤ) := roundVal_le_of_le hx0 roundVal_onePred hx
  have h53 : (0 : ℚ) < 2 ^ (-53 : ℤ) := two_zpow_pos _
  have hq1 : roundVal x < 2 ^ 1024 := by
    have : (1 : ℚ) < 2 ^ 1024 := by norm_num
    linarith
  have hy : roundVal x * 100 ≤ 100 * (1 - 2 ^ (-53 : ℤ)) := by linarith
  have hv := roundVal_lt_hundred (mul_nonneg (roundVal_nonneg x) (by norm_num)) hy
  have hv1 : roundVal (roundVal x * 100) < 2 ^ 1024 := by
    have : (100 : ℚ) < 2 ^ 1024 := by norm_num
    linarith
  refine ⟨roundVal (roundVal x * 100), ?_, hv⟩
  rw [roundDouble_of_lt hq1, mul_fin_false]
  exact roundDouble_of_lt hv1

end JSNumber

section DoubleContract

open JSNumber


lemma calculateCementD_of_notFit {a : CementInput JSNumber}
    (h : (gt a.personHeight a.drumHeight || gt a.personWidth a.drumDiameter) = true) :
    calculateCementD a = notFitResultD := by
  simp only [calculateCementD, h, if_true]

lemma calculateCementD_of_overflow {a : CementInput JSNumber}
    (hfit : (gt a.personHeight a.drumHeight || gt a.personWidth a.drumDiameter) = false)
    (hv : ge (totalPeopleVolumeD a) (drumVolumeD a) = true) :
    calculateCementD a = overflowResultD a := by
  simp only [calculateCementD, hfit, hv, if_true, Bool.false_eq_true, if_false]

lemma calculateCementD_of_normal {a : CementInput JSNumber}
    (hfit : (gt a.personHeight a.drumHeight || gt a.personWidth a.drumDiameter) = false)
    (hv : ge (totalPeopleVolumeD a) (drumVolumeD a) = false) :
    calculateCementD a = normalResultD a := by
  simp only [calculateCementD, hfit, hv, Bool.false_eq_true, if_false]

/-- A finite total volume has a non-negative magnitude. -/
lemma totalPeopleVolumeD_eq_fin {a : CementInput JSNumber} {s : Bool} {t : ℚ}
    (h : totalPeopleVolumeD a = fin s t) : 0 ≤ t := by
  obtain ⟨x, hx⟩ := mul_eq_fin h
  rw [hx]; exact roundVal_nonneg x

/-- Counterexample to C2 as stated: drum 80 x 60, ten persons 80 x 20.  Over
the reals the dimensions fit, the people take `80000 π ≥ 72000 π` and
`⌊drumVolume / personVolume⌋ = 9`; on the doubles of the code the quotient is
`8.999999999999998` and the overflow branch returns `actualCount = 8`. -/
theorem overflow_count_counterexample :
    ((80 : ℝ) ≤ 80 ∧ (20 : ℝ) ≤ 60) ∧
      totalPeopleVolume Real.pi (wholeInputExact ℝ 80 20 80 60 10)
        ≥ drumVolume Real.pi (wholeInputExact ℝ 80 20 80 60 10) ∧
      ⌊drumVolume Real.pi (wholeInputExact ℝ 80 20 80 60 10)
        / personVolume Real.pi (wholeInputExact ℝ 80 20 80 60 10)⌋ = 9 ∧
      calculateCementD (wholeInput 80 20 80 60 10) = overflowResultD (wholeInput 80 20 80 60 10) ∧
      div (drumVolumeD (wholeInput 80 20 80 60 10)) (personVolumeD (wholeInput 80 20 80 60 10))
        = fin false (5066549580791807 / 562949953421312) ∧
      (calculateCementD (wholeInput 80 20 80 60 10)).actualCount = fin false 8 := by
  have hpi := Real.pi_pos
  refine ⟨⟨by norm_num, by norm_num⟩, ?_, ?_, by decide!, by decide!, by decide!⟩
  · simp only [totalPeopleVolume, personVolume, drumVolume, wholeInputExact]
    norm_num; nlinarith
  · rw [Int.floor_eq_iff]
    simp only [personVolume, drumVolume, wholeInputExact]
    constructor
    · rw [le_div_iff₀ (by positivity)]; norm_num; nlinarith
    · rw [div_lt_iff₀ (by positivity)]; norm_num; nlinarith

/-- C2, amended (volumetric overflow on the doubles of the code).  When neither
`>` of line 7 holds and the computed `totalPeopleVolume >= drumVolume` holds,
`calculateCement` returns `cementVolume = 0`,
`actualCount = Math.floor(drumVolume / personVolume)` and
`percentFilled = (totalPeopleVolume / drumVolume) * 100`, every operation the
rounded one on the rounded volumes; and `percentFilled >= 100`, not capped,
whenever the computed `drumVolume` is finite and positive. -/
theorem overflow_on_doubles (a : CementInput JSNumber)
    (hfit : (gt a.personHeight a.drumHeight || gt a.personWidth a.drumDiameter) = false)
    (hv : ge (totalPeopleVolumeD a) (drumVolumeD a) = true) :
    (calculateCementD a).cementVolume = fin false 0 ∧
      (calculateCementD a).actualCount = floor (div (drumVolumeD a) (personVolumeD a)) ∧
      (calculateCementD a).percentFilled
        = mul (div (totalPeopleVolumeD a) (drumVolumeD a)) (fin false 100) ∧
      (isPositive (drumVolumeD a) = true →
        ge (calculateCementD a).percentFilled (fin false 100) = true) := by
  rw [calculateCementD_of_overflow hfit hv]
  refine ⟨ofNat_zero, rfl, by simp only [overflowResultD, ofNat_hundred], ?_⟩
  intro hpos
  obtain ⟨d, hd, hdrum⟩ := isPositive_iff.mp hpos
  simp only [overflowResultD, ofNat_hundred]
  rw [hdrum] at hv ⊢
  match htot : totalPeopleVolumeD a, hv with
  | inf false, _ =>
    simp [div, mul, ge]
  | fin s t, hv =>
    have ht := totalPeopleVolumeD_eq_fin htot
    have hs : s = false := by
      cases s
      · rfl
      · simp only [ge, value, if_true, Bool.false_eq_true, if_false, decide_eq_true_eq] at hv
        linarith
    subst hs
    simp only [ge, value, Bool.false_eq_true, if_false, decide_eq_true_eq] at hv
    have hq : 1 ≤ t / d := (one_le_div hd).mpr hv
    simp only [div, hd.ne', if_false, Bool.xor_false]
    rcases roundDouble_cases false (t / d) with ⟨h1, -⟩ | ⟨h1, -⟩
    · rw [h1]; simp [mul, ge]
    · rw [h1]
      have hq1 : 1 ≤ roundVal (t / d) := le_roundVal_of_le zero_le_one roundVal_one hq
      simp only [mul, Bool.xor_false]
      exact ge_roundDouble (by norm_num) roundVal_hundred (by linarith)

/-- Witness for C2 as amended: scenario C of the specification on doubles, a
drum 100 x 60 with five persons 90 x 30, gives exactly 112.5 percent, four
persons and no cement. -/
theorem overflow_on_doubles_witness :
    (calculateCementD (wholeInput 90 30 100 60 5)).cementVolume = fin false 0 ∧
      (calculateCementD (wholeInput 90 30 100 60 5)).actualCount = fin false 4 ∧
      (calculateCementD (wholeInput 90 30 100 60 5)).percentFilled = fin false (225 / 2) ∧
      ge (calculateCementD (wholeInput 90 30 100 60 5)).percentFilled (fin false 100) = true := by
  have h := overflow_on_doubles (wholeInput 90 30 100 60 5) (by decide!) (by decide!)
  obtain ⟨h1, h2, h3, h4⟩ := h
  refine ⟨h1, ?_, ?_, h4 (by decide!)⟩
  · rw [h2]; decide!
  · rw [h3]; decide!

end DoubleContract

section DoubleContract2

open JSNumber


lemma normalResultD_message_ne (a : CementInput JSNumber) :
    (normalResultD a).message ≠ "Too many people! Drum overfilled." := by
  intro h
  have := congrArg String.data h
  simp only [normalResultD, String.data_append] at this
  revert this
  simp

lemma normalResultD_message_ne_notFit (a : CementInput JSNumber) :
    (normalResultD a).message ≠ "Person does not fit in the drum." := by
  intro h
  have := congrArg String.data h
  simp only [normalResultD, String.data_append] at this
  revert this
  simp

/-- Counterexample to C5 as stated.  Drum 70 x 45 with seven persons 10 x 45:
the dimensions fit, the volumes are equal over the reals and equal as computed
doubles, the overflow branch is taken, yet `actualCount` is 6, not the 7
persons asked for.  Drum 80 x 45 with nine persons 80 x 15: the volumes are
equal over the reals, yet the computed total is below the computed drum volume
and the normal-fit record is returned. -/
theorem exact_boundary_counterexample :
    (PositiveDoubles (wholeInput 10 45 70 45 7) ∧
        totalPeopleVolume Real.pi (wholeInputExact ℝ 10 45 70 45 7)
          = drumVolume Real.pi (wholeInputExact ℝ 10 45 70 45 7) ∧
        totalPeopleVolumeD (wholeInput 10 45 70 45 7) = drumVolumeD (wholeInput 10 45 70 45 7) ∧
        calculateCementD (wholeInput 10 45 70 45 7) = overflowResultD (wholeInput 10 45 70 45 7) ∧
        (calculateCementD (wholeInput 10 45 70 45 7)).actualCount = fin false 6 ∧
        (calculateCementD (wholeInput 10 45 70 45 7)).actualCount ≠ ofNat 7) ∧
      (PositiveDoubles (wholeInput 80 15 80 45 9) ∧
        totalPeopleVolume Real.pi (wholeInputExact ℝ 80 15 80 45 9)
          = drumVolume Real.pi (wholeInputExact ℝ 80 15 80 45 9) ∧
        calculateCementD (wholeInput 80 15 80 45 9) = normalResultD (wholeInput 80 15 80 45 9) ∧
        (calculateCementD (wholeInput 80 15 80 45 9)).message
          = "Cement needed: 0.00 liters (with 9 person(s) inside).") := by
  refine ⟨⟨by decide!, ?_, by decide!, by decide!, by decide!, by decide!⟩,
    ⟨by decide!, ?_, by decide!, by decide!⟩⟩
  · simp only [totalPeopleVolume, personVolume, drumVolume, wholeInputExact]
    norm_num; ring
  · simp only [totalPeopleVolume, personVolume, drumVolume, wholeInputExact]
    norm_num; ring

/-- C5, amended (the boundary on the doubles of the code).  When neither `>` of
line 7 holds and the computed volumes are equal, finite and positive,
`calculateCement` returns the overflow record: the overflow message,
`percentFilled = 100` exactly, `cementVolume = 0` and
`actualCount = Math.floor(drumVolume / personVolume)`; this is not the
normal-fit record. -/
theorem boundary_on_doubles (a : CementInput JSNumber)
    (hfit : (gt a.personHeight a.drumHeight || gt a.personWidth a.drumDiameter) = false)
    (hpos : isPositive (drumVolumeD a) = true)
    (heq : strictEq (totalPeopleVolumeD a) (drumVolumeD a) = true) :
    calculateCementD a =
        { message := "Too many people! Drum overfilled."
          percentFilled := fin false 100
          actualCount := floor (div (drumVolumeD a) (personVolumeD a))
          cementVolume := fin false 0 } ∧
      calculateCementD a ≠ normalResultD a := by
  obtain ⟨d, hd, hdrum⟩ := isPositive_iff.mp hpos
  have htot : totalPeopleVolumeD a = fin false d := by
    rw [hdrum] at heq
    match htot : totalPeopleVolumeD a, heq with
    | fin s t, heq =>
      have ht := totalPeopleVolumeD_eq_fin htot
      cases s
      · simp only [strictEq, value, Bool.false_eq_true, if_false, decide_eq_true_eq] at heq
        rw [heq]
      · simp only [strictEq, value, if_true, Bool.false_eq_true, if_false,
          decide_eq_true_eq] at heq
        linarith
  have hv : ge (totalPeopleVolumeD a) (drumVolumeD a) = true := by
    rw [htot, hdrum]; simp [ge]
  have hr := calculateCementD_of_overflow hfit hv
  have hpf : mul (div (totalPeopleVolumeD a) (drumVolumeD a)) (ofNat 100) = fin false 100 := by
    rw [htot, hdrum]
    simp only [div, hd.ne', if_false, div_self hd.ne', Bool.xor_false]
    decide!
  constructor
  · rw [hr, overflowResultD, hpf, ofNat_zero]
  · rw [hr]
    intro h
    have hm := congrArg DoubleResult.message h
    exact normalResultD_message_ne a hm.symm

/-- Witness for C5 as amended: drum 100 x 60 with four persons 100 x 30, where
the computed volumes are equal; the count is 4. -/
theorem boundary_on_doubles_witness :
    calculateCementD (wholeInput 100 30 100 60 4) =
        { message := "Too many people! Drum overfilled."
          percentFilled := fin false 100
          actualCount := fin false 4
          cementVolume := fin false 0 } ∧
      calculateCementD (wholeInput 100 30 100 60 4) ≠ normalResultD (wholeInput 100 30 100 60 4) := by
  have h := boundary_on_doubles (wholeInput 100 30 100 60 4) (by decide!) (by decide!)
    (by decide!)
  refine ⟨?_, h.2⟩
  rw [h.1]
  decide!

/-- Counterexample to C7 as stated: drum 80 x 60, ten persons 80 x 20.  Over
the reals nine persons fill the drum exactly (`9 * 8000 π = 72000 π`); the
code returns `k = 8`, so `drumVolume < (k + 1) * personVolume` fails and 8 is
not the largest count that fits. -/
theorem overflow_count_not_maximal_counterexample :
    PositiveDoubles (wholeInput 80 20 80 60 10) ∧
      calculateCementD (wholeInput 80 20 80 60 10) = overflowResultD (wholeInput 80 20 80 60 10) ∧
      (calculateCementD (wholeInput 80 20 80 60 10)).actualCount = fin false 8 ∧
      ¬ drumVolume Real.pi (wholeInputExact ℝ 80 20 80 60 10)
        < ((8 : ℝ) + 1) * personVolume Real.pi (wholeInputExact ℝ 80 20 80 60 10) ∧
      ((8 : ℝ) + 1) * personVolume Real.pi (wholeInputExact ℝ 80 20 80 60 10)
        ≤ drumVolume Real.pi (wholeInputExact ℝ 80 20 80 60 10) := by
  have e : ((8 : ℝ) + 1) * personVolume Real.pi (wholeInputExact ℝ 80 20 80 60 10)
      = drumVolume Real.pi (wholeInputExact ℝ 80 20 80 60 10) := by
    simp only [personVolume, drumVolume, wholeInputExact]
    norm_num; ring
  exact ⟨by decide!, by decide!, by decide!, not_lt.mpr e.le, e.le⟩

/-- C7, amended (the overflow count on the doubles of the code).  When neither
`>` of line 7 holds, the computed `totalPeopleVolume >= drumVolume` holds and
the rounded quotient `q = drumVolume / personVolume` is finite, the returned
`actualCount` is a whole number `k ≥ 0` with `k ≤ q < k + 1`: the floor of the
rounded quotient of the rounded volumes. -/
theorem overflow_count_on_doubles (a : CementInput JSNumber) (q : ℚ)
    (hfit : (gt a.personHeight a.drumHeight || gt a.personWidth a.drumDiameter) = false)
    (hv : ge (totalPeopleVolumeD a) (drumVolumeD a) = true)
    (hq : div (drumVolumeD a) (personVolumeD a) = fin false q) :
    ∃ k : ℕ, (calculateCementD a).actualCount = fin false (k : ℚ) ∧
      (k : ℚ) ≤ q ∧ q < (k : ℚ) + 1 := by
  have hq0 : 0 ≤ q := div_eq_fin hq
  have hfl : (0 : ℤ) ≤ ⌊q⌋ := Int.floor_nonneg.mpr hq0
  refine ⟨⌊q⌋.toNat, ?_, ?_, ?_⟩
  · rw [calculateCementD_of_overflow hfit hv]
    simp only [overflowResultD, hq, floor, value, Bool.false_eq_true, if_false]
    congr 1
    rw [abs_of_nonneg (by exact_mod_cast hfl)]
    have : ((⌊q⌋.toNat : ℤ) : ℚ) = ((⌊q⌋ : ℤ) : ℚ) := by rw [Int.toNat_of_nonneg hfl]
    rw [← this]; push_cast; rfl
  · have : ((⌊q⌋.toNat : ℤ) : ℚ) = ((⌊q⌋ : ℤ) : ℚ) := by rw [Int.toNat_of_nonneg hfl]
    have h2 : ((⌊q⌋.toNat : ℕ) : ℚ) = ((⌊q⌋ : ℤ) : ℚ) := by rw [← this]; push_cast; rfl
    rw [h2]; exact Int.floor_le q
  · have : ((⌊q⌋.toNat : ℤ) : ℚ) = ((⌊q⌋ : ℤ) : ℚ) := by rw [Int.toNat_of_nonneg hfl]
    have h2 : ((⌊q⌋.toNat : ℕ) : ℚ) = ((⌊q⌋ : ℤ) : ℚ) := by rw [← this]; push_cast; rfl
    rw [h2]; exact Int.lt_floor_add_one q

/-- Witness for C7 as amended: in scenario C on doubles the rounded quotient is
`4.444444444444445` and the count is 4. -/
theorem overflow_count_on_doubles_witness :
    div (drumVolumeD (wholeInput 90 30 100 60 5)) (personVolumeD (wholeInput 90 30 100 60 5))
        = fin false (2501999792983609 / 562949953421312) ∧
      (calculateCementD (wholeInput 90 30 100 60 5)).actualCount = fin false 4 ∧
      ∃ k : ℕ, (calculateCementD (wholeInput 90 30 100 60 5)).actualCount = fin false (k : ℚ) ∧
        (k : ℚ) ≤ 2501999792983609 / 562949953421312 ∧
        (2501999792983609 / 562949953421312 : ℚ) < (k : ℚ) + 1 :=
  ⟨by decide!, by decide!,
    overflow_count_on_doubles (wholeInput 90 30 100 60 5) _ (by decide!) (by decide!)
      (by decide!)⟩

end DoubleContract2

section CementVolume

open JSNumber


lemma roundVal_minSubnormal : roundVal (2 ^ (-1074 : ℤ)) = 2 ^ (-1074 : ℤ) := by decide!

/-- The difference of two distinct doubles does not round to zero. -/
lemma roundVal_sub_pos {x y : ℚ} (h : roundVal y < roundVal x) :
    0 < roundVal (roundVal x - roundVal y) := by
  obtain ⟨N, hN⟩ := roundVal_grid x
  obtain ⟨M, hM⟩ := roundVal_grid y
  have hu : (0 : ℚ) < 2 ^ (-1074 : ℤ) := two_zpow_pos _
  rw [hN, hM] at h ⊢
  have hlt : (M : ℚ) < (N : ℚ) := lt_of_mul_lt_mul_right h hu.le
  have hnat : M + 1 ≤ N := by exact_mod_cast hlt
  have hq : (M : ℚ) + 1 ≤ (N : ℚ) := by exact_mod_cast hnat
  have hge : (2 : ℚ) ^ (-1074 : ℤ) ≤ (N : ℚ) * 2 ^ (-1074 : ℤ) - (M : ℚ) * 2 ^ (-1074 : ℤ) := by
    nlinarith
  exact lt_of_lt_of_le hu (le_roundVal_of_le hu.le roundVal_minSubnormal hge)

/-- In the normal fit of a positive input the cement volume is `+Infinity` or
finite and strictly positive. -/
lemma normal_cementVolume_pos {a : CementInput JSNumber} (hpos : PositiveDoubles a)
    (hv : ge (totalPeopleVolumeD a) (drumVolumeD a) = false) :
    sub (drumVolumeD a) (totalPeopleVolumeD a) = inf false ∨
      ∃ v : ℚ, 0 < v ∧ sub (drumVolumeD a) (totalPeopleVolumeD a) = fin false v := by
  obtain ⟨ph, pw, dh, dd, hph, hpw, hdh, hdd, e1, e2, e3, e4, hn, hn2⟩ := hpos.dest
  rcases drumVolumeD_cases e4 e3 hdh.ne' with hD | ⟨hD, -⟩ <;>
    rcases totalPeopleVolumeD_cases e2 e1 hph.ne' hn hn2 with ⟨hT, -⟩ | ⟨-, hT⟩
  · rw [hD, hT] at hv; exact absurd hv (by decide)
  · left; rw [hD, hT]; rfl
  · rw [hD, hT] at hv; exact Bool.noConfusion hv
  · rw [hD, hT] at hv ⊢
    have hlt : roundVal (volumeVal pw ph * (a.personCount : ℚ)) < volumeVal dd dh := by
      simpa [ge, value] using hv
    have hne : value false (volumeVal dd dh)
        - value false (roundVal (volumeVal pw ph * (a.personCount : ℚ))) ≠ 0 := by
      simp only [value, Bool.false_eq_true, if_false]; linarith
    have hpos' : ¬ value false (volumeVal dd dh)
        - value false (roundVal (volumeVal pw ph * (a.personCount : ℚ))) < 0 := by
      simp only [value, Bool.false_eq_true, if_false]; linarith
    have hsub : sub (fin false (volumeVal dd dh))
        (fin false (roundVal (volumeVal pw ph * (a.personCount : ℚ))))
        = roundDouble false (volumeVal dd dh
          - roundVal (volumeVal pw ph * (a.personCount : ℚ))) := by
      show (if value false (volumeVal dd dh)
          - value false (roundVal (volumeVal pw ph * (a.personCount : ℚ))) = 0
        then _ else roundDouble (decide (value false (volumeVal dd dh)
          - value false (roundVal (volumeVal pw ph * (a.personCount : ℚ))) < 0))
          |value false (volumeVal dd dh)
            - value false (roundVal (volumeVal pw ph * (a.personCount : ℚ)))|) = _
      rw [if_neg hne, decide_eq_false hpos']
      congr 1
      simp only [value, Bool.false_eq_true, if_false]
      exact abs_of_pos (by linarith)
    rw [hsub]
    rcases roundDouble_cases false (volumeVal dd dh
        - roundVal (volumeVal pw ph * (a.personCount : ℚ))) with ⟨h5, -⟩ | ⟨h5, -⟩
    · left; exact h5
    · right
      refine ⟨_, ?_, h5⟩
      have hvol : volumeVal dd dh = roundVal
          (roundVal (piVal * roundVal (roundVal (dd / 2) * roundVal (dd / 2))) * dh) := rfl
      rw [hvol] at hlt ⊢
      exact roundVal_sub_pos hlt

/-- Counterexample to C6 as stated: drum 80 x 45 with nine persons 80 x 15.
Over the reals the dimensions fit and the people take exactly the drum's
volume (`40500 π`), so the claim asks for `cementVolume = 0`; the code's
doubles differ in the last bit, the normal fit is taken and `cementVolume` is
`2 ^ -36 > 0`. -/
theorem cementVolume_zero_counterexample :
    PositiveDoubles (wholeInput 80 15 80 45 9) ∧
      ((80 : ℝ) ≤ 80 ∧ (15 : ℝ) ≤ 45) ∧
      totalPeopleVolume Real.pi (wholeInputExact ℝ 80 15 80 45 9)
        ≥ drumVolume Real.pi (wholeInputExact ℝ 80 15 80 45 9) ∧
      (calculateCementD (wholeInput 80 15 80 45 9)).cementVolume
        = fin false (1 / 68719476736) ∧
      (calculateCementD (wholeInput 80 15 80 45 9)).cementVolume ≠ fin false 0 ∧
      gt (calculateCementD (wholeInput 80 15 80 45 9)).cementVolume (fin false 0) = true := by
  refine ⟨by decide!, ⟨by norm_num, by norm_num⟩, ?_, by decide!, by decide!, by decide!⟩
  simp only [totalPeopleVolume, personVolume, drumVolume, wholeInputExact]
  norm_num
  apply le_of_eq; ring

/-- C6, amended (`cementVolume` on the doubles of the code).  For positive
inputs the returned `cementVolume` is never negative and never `NaN`; it is 0
exactly when a guard of the code holds (a `>` of line 7, or the computed
`totalPeopleVolume >= drumVolume` of line 11) and strictly positive exactly in
every other case. -/
theorem cementVolume_on_doubles (a : CementInput JSNumber) (hpos : PositiveDoubles a) :
    ge (calculateCementD a).cementVolume (fin false 0) = true ∧
      ((calculateCementD a).cementVolume = fin false 0 ↔
        ((gt a.personHeight a.drumHeight || gt a.personWidth a.drumDiameter) = true ∨
          ge (totalPeopleVolumeD a) (drumVolumeD a) = true)) ∧
      (gt (calculateCementD a).cementVolume (fin false 0) = true ↔
        ¬((gt a.personHeight a.drumHeight || gt a.personWidth a.drumDiameter) = true ∨
          ge (totalPeopleVolumeD a) (drumVolumeD a) = true)) := by
  cases h1 : (gt a.personHeight a.drumHeight || gt a.personWidth a.drumDiameter)
  · cases h2 : ge (totalPeopleVolumeD a) (drumVolumeD a)
    · rw [calculateCementD_of_normal h1 h2]
      have hc : ¬(false = true ∨ false = true) := by simp
      show ge (sub (drumVolumeD a) (totalPeopleVolumeD a)) (fin false 0) = true ∧
        (sub (drumVolumeD a) (totalPeopleVolumeD a) = fin false 0 ↔ (false = true ∨ false = true)) ∧
        (gt (sub (drumVolumeD a) (totalPeopleVolumeD a)) (fin false 0) = true ↔
          ¬(false = true ∨ false = true))
      rcases normal_cementVolume_pos hpos h2 with h | ⟨v, hv, h⟩
      · rw [h]
        exact ⟨rfl, ⟨fun h' => absurd h' (by simp), fun h' => absurd h' hc⟩,
          ⟨fun _ => hc, fun _ => rfl⟩⟩
      · rw [h]
        have hgt : gt (fin false v) (fin false 0) = true := by
          simpa [gt, value] using hv
        have hge : ge (fin false v) (fin false 0) = true := by
          simpa [ge, value] using hv.le
        refine ⟨hge, ⟨fun h' => ?_, fun h' => absurd h' hc⟩, ⟨fun _ => hc, fun _ => hgt⟩⟩
        injection h' with _ h3
        exact absurd h3 hv.ne'
    · rw [calculateCementD_of_overflow h1 h2]
      show ge (ofNat 0) (fin false 0) = true ∧
        (ofNat 0 = fin false 0 ↔ (false = true ∨ true = true)) ∧
        (gt (ofNat 0) (fin false 0) = true ↔ ¬(false = true ∨ true = true))
      rw [ofNat_zero]
      exact ⟨by decide, ⟨fun _ => Or.inr rfl, fun _ => rfl⟩,
        ⟨fun h' => absurd h' (by decide), fun h' => absurd (Or.inr rfl) h'⟩⟩
  · rw [calculateCementD_of_notFit h1]
    show ge (ofNat 0) (fin false 0) = true ∧
      (ofNat 0 = fin false 0 ↔
        (true = true ∨ ge (totalPeopleVolumeD a) (drumVolumeD a) = true)) ∧
      (gt (ofNat 0) (fin false 0) = true ↔
        ¬(true = true ∨ ge (totalPeopleVolumeD a) (drumVolumeD a) = true))
    rw [ofNat_zero]
    exact ⟨by decide, ⟨fun _ => Or.inl rfl, fun _ => rfl⟩,
      ⟨fun h' => absurd h' (by decide), fun h' => absurd (Or.inl rfl) h'⟩⟩

/-- Witness for C6 as amended: scenario B is a positive input outside both
guards and keeps `219126.0875878881` of cement; scenario C is a positive input
inside the guard of line 11 and keeps none. -/
theorem cementVolume_on_doubles_witness :
    (PositiveDoubles (wholeInput 90 30 100 60 1) ∧
        (calculateCementD (wholeInput 90 30 100 60 1)).cementVolume
          = fin false (7529115039123287 / 34359738368) ∧
        gt (calculateCementD (wholeInput 90 30 100 60 1)).cementVolume (fin false 0) = true) ∧
      (PositiveDoubles (wholeInput 90 30 100 60 5) ∧
        ge (totalPeopleVolumeD (wholeInput 90 30 100 60 5))
          (drumVolumeD (wholeInput 90 30 100 60 5)) = true ∧
        (calculateCementD (wholeInput 90 30 100 60 5)).cementVolume = fin false 0) := by
  have hB : PositiveDoubles (wholeInput 90 30 100 60 1) := by decide!
  have hC : PositiveDoubles (wholeInput 90 30 100 60 5) := by decide!
  have h1 := cementVolume_on_doubles (wholeInput 90 30 100 60 1) hB
  have h2 := cementVolume_on_doubles (wholeInput 90 30 100 60 5) hC
  have hg : ge (totalPeopleVolumeD (wholeInput 90 30 100 60 5))
      (drumVolumeD (wholeInput 90 30 100 60 5)) = true := by decide!
  refine ⟨⟨hB, by decide!, h1.2.2.mpr ?_⟩, ⟨hC, hg, h2.2.1.mpr (Or.inr hg)⟩⟩
  rintro (h | h)
  · exact absurd h (by decide!)
  · exact absurd h (by decide!)

end CementVolume

section DivisorsClaim

open JSNumber


lemma notFitResultD_ne_overflowResultD (a : CementInput JSNumber) :
    notFitResultD ≠ overflowResultD a := by
  intro h
  have hm := congrArg DoubleResult.message h
  revert hm
  simp only [notFitResultD, overflowResultD]
  decide

lemma notFitResultD_ne_normalResultD (a : CementInput JSNumber) :
    notFitResultD ≠ normalResultD a := fun h =>
  normalResultD_message_ne_notFit a (congrArg DoubleResult.message h).symm

lemma overflowResultD_ne_normalResultD (a : CementInput JSNumber) :
    overflowResultD a ≠ normalResultD a := fun h =>
  normalResultD_message_ne a (congrArg DoubleResult.message h).symm

/-- Counterexample to C8 as stated: the four dimensions equal to the double
`1e-200` and one person form a positive input, but `(1e-200 / 2) ** 2`
underflows to 0, so `personVolume = drumVolume = 0` and both divisions are
`0 / 0`: the overflow record carries `percentFilled = NaN` and
`actualCount = NaN`. -/
theorem zero_divisor_counterexample :
    PositiveDoubles (cubeInput (roundDouble false (1 / 10 ^ 200)) 1) ∧
      personVolumeD (cubeInput (roundDouble false (1 / 10 ^ 200)) 1) = fin false 0 ∧
      drumVolumeD (cubeInput (roundDouble false (1 / 10 ^ 200)) 1) = fin false 0 ∧
      calculateCementD (cubeInput (roundDouble false (1 / 10 ^ 200)) 1) =
        { message := "Too many people! Drum overfilled."
          percentFilled := nan
          actualCount := nan
          cementVolume := fin false 0 } := by
  refine ⟨by decide!, by decide!, by decide!, by decide!⟩

/-- C8, amended (no division by zero within range, one record out of three).
On doubles a division by zero raises nothing: it yields `NaN` or an infinity,
and `calculateCement`, a total function, returns exactly one of the three
records of the source for every input.  For inputs whose four dimensions lie
between `2 ^ -300` and `2 ^ 300`, `personVolume` and `drumVolume` are finite
and strictly positive, so neither divisor is zero. -/
theorem divisors_on_doubles (a : CementInput JSNumber) :
    ((calculateCementD a = notFitResultD ∧
          calculateCementD a ≠ overflowResultD a ∧
          calculateCementD a ≠ normalResultD a) ∨
        (calculateCementD a ≠ notFitResultD ∧
          calculateCementD a = overflowResultD a ∧
          calculateCementD a ≠ normalResultD a) ∨
        (calculateCementD a ≠ notFitResultD ∧
          calculateCementD a ≠ overflowResultD a ∧
          calculateCementD a = normalResultD a)) ∧
      (inRange (1 / 2 ^ 300) (2 ^ 300) a.personHeight →
        inRange (1 / 2 ^ 300) (2 ^ 300) a.personWidth →
        inRange (1 / 2 ^ 300) (2 ^ 300) a.drumHeight →
        inRange (1 / 2 ^ 300) (2 ^ 300) a.drumDiameter →
          isPositive (personVolumeD a) = true ∧ isPositive (drumVolumeD a) = true) := by
  constructor
  · cases h1 : (gt a.personHeight a.drumHeight || gt a.personWidth a.drumDiameter)
    · cases h2 : ge (totalPeopleVolumeD a) (drumVolumeD a)
      · right; right
        rw [calculateCementD_of_normal h1 h2]
        exact ⟨(notFitResultD_ne_normalResultD a).symm,
          (overflowResultD_ne_normalResultD a).symm, rfl⟩
      · right; left
        rw [calculateCementD_of_overflow h1 h2]
        exact ⟨(notFitResultD_ne_overflowResultD a).symm, rfl,
          overflowResultD_ne_normalResultD a⟩
    · left
      rw [calculateCementD_of_notFit h1]
      exact ⟨rfl, notFitResultD_ne_overflowResultD a, notFitResultD_ne_normalResultD a⟩
  · intro r1 r2 r3 r4
    obtain ⟨ph, e1, l1, u1⟩ := inRange_iff.mp r1
    obtain ⟨pw, e2, l2, u2⟩ := inRange_iff.mp r2
    obtain ⟨dh, e3, l3, u3⟩ := inRange_iff.mp r3
    obtain ⟨dd, e4, l4, u4⟩ := inRange_iff.mp r4
    have elo : (1 / 2 ^ 300 : ℚ) = (2 : ℚ) ^ (-300 : ℤ) := by
      rw [zpow_neg, one_div]; norm_num
    have ehi : (2 ^ 300 : ℚ) = (2 : ℚ) ^ (300 : ℤ) := by norm_num
    rw [elo] at l1 l2 l3 l4
    rw [ehi] at u1 u2 u3 u4
    obtain ⟨hP, bP, -⟩ := volume_of_range (by norm_num) (by norm_num) l2 u2 l1 u1
    obtain ⟨hD, bD, -⟩ := volume_of_range (by norm_num) (by norm_num) l4 u4 l3 u3
    constructor
    · unfold personVolumeD
      rw [e1, e2, hP]
      exact isPositive_iff.mpr ⟨_, lt_of_lt_of_le (two_zpow_pos _) bP, rfl⟩
    · unfold drumVolumeD
      rw [e3, e4, hD]
      exact isPositive_iff.mpr ⟨_, lt_of_lt_of_le (two_zpow_pos _) bD, rfl⟩

/-- Witness for C8 as amended: scenario B on doubles lies within the range; its
volumes are the positive doubles `63617.25123519331` and `282743.3388230814`,
and its record is the normal one, not one of the other two. -/
theorem divisors_on_doubles_witness :
    inRange (1 / 2 ^ 300) (2 ^ 300) (wholeInput 90 30 100 60 1).personHeight ∧
      personVolumeD (wholeInput 90 30 100 60 1) = fin false (2185872108132567 / 34359738368) ∧
      drumVolumeD (wholeInput 90 30 100 60 1) = fin false (4857493573627927 / 17179869184) ∧
      isPositive (personVolumeD (wholeInput 90 30 100 60 1)) = true ∧
      isPositive (drumVolumeD (wholeInput 90 30 100 60 1)) = true ∧
      calculateCementD (wholeInput 90 30 100 60 1) ≠ notFitResultD ∧
      calculateCementD (wholeInput 90 30 100 60 1) ≠ overflowResultD (wholeInput 90 30 100 60 1) ∧
      calculateCementD (wholeInput 90 30 100 60 1) = normalResultD (wholeInput 90 30 100 60 1) := by
  have h := divisors_on_doubles (wholeInput 90 30 100 60 1)
  have hr : inRange (1 / 2 ^ 300) (2 ^ 300) (wholeInput 90 30 100 60 1).personHeight := by
    decide!
  have hv := h.2 hr (by decide!) (by decide!) (by decide!)
  have hn : calculateCementD (wholeInput 90 30 100 60 1)
      = normalResultD (wholeInput 90 30 100 60 1) := by decide!
  refine ⟨hr, by decide!, by decide!, hv.1, hv.2, ?_⟩
  rcases h.1 with h3 | h3 | h3
  · exact absurd hn h3.2.2
  · exact absurd hn h3.2.2
  · exact h3

end DivisorsClaim

section ScenarioBOnDoubles

open JSNumber


/-- Counterexample to C9 as stated: in scenario B the code's `percentFilled` is
the double `22.499999999999996`, strictly below `22.5`, so
`percentFilled === 22.5` is false; and its `cementVolume` is the double
`219126.0875878881`, strictly above `69750 π`. -/
theorem scenario_B_not_exact_counterexample :
    (calculateCementD (wholeInput 90 30 100 60 1)).percentFilled
        = fin false (6333186975989759 / 281474976710656) ∧
      strictEq (calculateCementD (wholeInput 90 30 100 60 1)).percentFilled (fin false (45 / 2))
        = false ∧
      (6333186975989759 / 281474976710656 : ℚ) < 45 / 2 ∧
      (calculateCementD (wholeInput 90 30 100 60 1)).cementVolume
        = fin false (7529115039123287 / 34359738368) ∧
      69750 * Real.pi < (7529115039123287 / 34359738368 : ℝ) := by
  refine ⟨by decide!, by decide!, by norm_num, by decide!, ?_⟩
  have h := Real.pi_lt_d20
  rw [lt_div_iff₀ (by norm_num)]
  norm_num at h ⊢
  linarith

/-- C9, amended (scenario B on the doubles of the code).  A drum 100 x 60 with
one person 90 x 30 takes the normal-fit branch and returns `actualCount = 1`,
`percentFilled = 6333186975989759 / 2 ^ 48` (printed `22.499999999999996`,
within `10 ^ -14` below `22.5`) and `cementVolume = 7529115039123287 / 2 ^ 35`
(printed `219126.0875878881`), which lies between 219126 and 219127 and within
`10 ^ -10` of `69750 π`; `cementVolume / 1000` to two decimals is `219.13`, as
the message reports. -/
theorem scenario_B_on_doubles :
    calculateCementD (wholeInput 90 30 100 60 1) = normalResultD (wholeInput 90 30 100 60 1) ∧
      calculateCementD (wholeInput 90 30 100 60 1) =
        { message := "Cement needed: 219.13 liters (with 1 person(s) inside)."
          percentFilled := fin false (6333186975989759 / 281474976710656)
          actualCount := fin false 1
          cementVolume := fin false (7529115039123287 / 34359738368) } ∧
      ((45 / 2 : ℚ) - 1 / 10 ^ 14 < 6333186975989759 / 281474976710656 ∧
        (6333186975989759 / 281474976710656 : ℚ) < 45 / 2) ∧
      ((219126 : ℚ) < 7529115039123287 / 34359738368 ∧
        (7529115039123287 / 34359738368 : ℚ) < 219127) ∧
      |(7529115039123287 / 34359738368 : ℝ) - 69750 * Real.pi| < 1 / 10 ^ 10 ∧
      toFixed (div (calculateCementD (wholeInput 90 30 100 60 1)).cementVolume (ofNat 1000))
        = "219.13" := by
  refine ⟨by decide!, by decide!, by norm_num, by norm_num, ?_, by decide!⟩
  have h1 := Real.pi_gt_d20
  have h2 := Real.pi_lt_d20
  rw [abs_lt]
  norm_num at h1 h2 ⊢
  constructor <;> linarith

end ScenarioBOnDoubles

section CountBounds

open JSNumber

/-- The value of lines 2 and 3 does not decrease with the width or the
height. -/
lemma volumeVal_mono {w W h H : ℚ} (hw : 0 ≤ w) (hwW : w ≤ W) (hh : 0 ≤ h) (hhH : h ≤ H) :
    volumeVal w h ≤ volumeVal W H := by
  have h1 : roundVal (w / 2) ≤ roundVal (W / 2) :=
    roundVal_mono (by positivity) (div_le_div_of_nonneg_right hwW (by norm_num))
  have h2 : roundVal (roundVal (w / 2) * roundVal (w / 2))
      ≤ roundVal (roundVal (W / 2) * roundVal (W / 2)) :=
    roundVal_mono (mul_nonneg (roundVal_nonneg _) (roundVal_nonneg _))
      (mul_le_mul h1 h1 (roundVal_nonneg _) (roundVal_nonneg _))
  have h3 : roundVal (piVal * roundVal (roundVal (w / 2) * roundVal (w / 2)))
      ≤ roundVal (piVal * roundVal (roundVal (W / 2) * roundVal (W / 2))) :=
    roundVal_mono (mul_nonneg piVal_pos.le (roundVal_nonneg _))
      (mul_le_mul_of_nonneg_left h2 piVal_pos.le)
  exact roundVal_mono (mul_nonneg (roundVal_nonneg _) hh)
    (mul_le_mul h3 hhH hh (roundVal_nonneg _))

/-- A whole number below `2 ^ 52` plus a half is a double. -/
lemma roundVal_add_half {n : ℕ} (hn : n < 2 ^ 52) :
    roundVal ((n : ℚ) + 1 / 2) = (n : ℚ) + 1 / 2 := by
  have hx : (0 : ℚ) < (n : ℚ) + 1 / 2 := by positivity
  obtain ⟨s1, s2⟩ := floorLog2_spec hx
  have hlo : (-1 : ℤ) ≤ floorLog2 ((n : ℚ) + 1 / 2) := by
    have h1 : (2 : ℚ) ^ (-1 : ℤ) ≤ (n : ℚ) + 1 / 2 := by
      rw [zpow_neg_one]
      have : (0 : ℚ) ≤ (n : ℚ) := Nat.cast_nonneg n
      linarith
    have := (zpow_lt_zpow_iff_right₀ (by norm_num : (1 : ℚ) < 2)).mp (lt_of_le_of_lt h1 s2)
    omega
  have hhi : floorLog2 ((n : ℚ) + 1 / 2) ≤ 51 := by
    have h0 : (n : ℚ) + 1 ≤ ((2 ^ 52 : ℕ) : ℚ) := by exact_mod_cast hn
    have e : ((2 ^ 52 : ℕ) : ℚ) = (2 : ℚ) ^ (52 : ℤ) := by norm_num
    rw [e] at h0
    have h1 : (n : ℚ) + 1 / 2 < (2 : ℚ) ^ (52 : ℤ) := by linarith
    have := (zpow_lt_zpow_iff_right₀ (by norm_num : (1 : ℚ) < 2)).mp (lt_of_le_of_lt s1 h1)
    omega
  have hmax : max (floorLog2 ((n : ℚ) + 1 / 2)) (-1022) = floorLog2 ((n : ℚ) + 1 / 2) :=
    max_eq_left (by omega)
  apply roundVal_of_multiple ((2 * n + 1) * 2 ^ (51 - floorLog2 ((n : ℚ) + 1 / 2)).toNat)
  rw [hmax]
  push_cast
  rw [mul_assoc, ← zpow_natCast, Int.toNat_of_nonneg (by omega), ← zpow_add₀ (by norm_num)]
  have : 51 - floorLog2 ((n : ℚ) + 1 / 2) + (floorLog2 ((n : ℚ) + 1 / 2) - 52) = -1 := by ring
  rw [this, zpow_neg_one]
  ring

/-- A drum that the rounded total of `n < 2 ^ 52` persons reaches holds at most
`n` and a half persons by the rounded volumes. -/
lemma quotient_le_count {P D x : ℚ} {n : ℕ} (hP : 0 < P) (hPx : P = roundVal x)
    (hn : n ≤ 2 ^ 52) (hD : D ≤ roundVal (P * (n : ℚ))) : D / P ≤ (n : ℚ) + 1 / 2 := by
  have hn0 : (0 : ℚ) ≤ (n : ℚ) := Nat.cast_nonneg n
  have hnq : (n : ℚ) ≤ (2 : ℚ) ^ (52 : ℤ) := by
    have h0 : (n : ℚ) ≤ ((2 ^ 52 : ℕ) : ℚ) := by exact_mod_cast hn
    have e : ((2 ^ 52 : ℕ) : ℚ) = (2 : ℚ) ^ (52 : ℤ) := by norm_num
    rwa [e] at h0
  rw [div_le_iff₀ hP]
  refine le_trans hD ?_
  rcases (mul_nonneg hP.le hn0).eq_or_lt with h0 | hpos
  · rw [← h0, roundVal_zero]; nlinarith
  obtain ⟨-, herr⟩ := roundVal_error hpos.le
  refine le_trans herr ?_
  by_cases hfl : -1022 ≤ floorLog2 (P * (n : ℚ))
  · rw [max_eq_left hfl]
    obtain ⟨s1, -⟩ := floorLog2_spec hpos
    have e : (2 : ℚ) ^ (floorLog2 (P * (n : ℚ)) - 53)
        = 2 ^ floorLog2 (P * (n : ℚ)) * 2 ^ (-53 : ℤ) := by
      rw [← zpow_add₀ (by norm_num)]; congr 1
    have e2 : (2 : ℚ) ^ (52 : ℤ) * 2 ^ (-53 : ℤ) = 1 / 2 := by
      rw [← zpow_add₀ (by norm_num)]; norm_num
    have h53 : (0 : ℚ) < 2 ^ (-53 : ℤ) := two_zpow_pos _
    rw [e]
    have h1 : (2 : ℚ) ^ floorLog2 (P * (n : ℚ)) * 2 ^ (-53 : ℤ)
        ≤ P * (n : ℚ) * 2 ^ (-53 : ℤ) := mul_le_mul_of_nonneg_right s1 h53.le
    have h2 : (n : ℚ) * 2 ^ (-53 : ℤ) ≤ 1 / 2 := by
      rw [← e2]; exact mul_le_mul_of_nonneg_right hnq h53.le
    nlinarith
  · rw [max_eq_right (by omega)]
    obtain ⟨N, hN⟩ := roundVal_grid x
    have hu : (0 : ℚ) < 2 ^ (-1074 : ℤ) := two_zpow_pos _
    have hN1 : (1 : ℚ) ≤ (N : ℚ) := by
      have hNpos : (0 : ℚ) < (N : ℚ) := by
        rw [hPx, hN] at hP
        exact (pos_iff_pos_of_mul_pos hP).mpr hu
      have : 0 < N := by exact_mod_cast hNpos
      exact_mod_cast this
    have hPge : (2 : ℚ) ^ (-1074 : ℤ) ≤ P := by
      rw [hPx, hN]; nlinarith
    have e : (2 : ℚ) ^ ((-1022 : ℤ) - 53) = 2 ^ (-1074 : ℤ) * (1 / 2) := by
      rw [show ((-1022 : ℤ) - 53) = -1074 - 1 by norm_num, zpow_sub_one₀ (by norm_num)]
      ring
    rw [e]
    have h1 : (2 : ℚ) ^ (-1074 : ℤ) * (1 / 2) ≤ P * (1 / 2) :=
      mul_le_mul_of_nonneg_right hPge (by norm_num)
    have h2 : ((n : ℚ) + 1 / 2) * P = P * (n : ℚ) + P * (1 / 2) := by ring
    rw [h2]
    linarith

end CountBounds

section CountClaim

open JSNumber

/-- The computed volumes of a positive input, when finite and positive, are the
values of the rounded chain. -/
lemma PositiveDoubles.volumes {a : CementInput JSNumber} (hpos : PositiveDoubles a)
    (hP : isPositive (personVolumeD a) = true) (hD : isPositive (drumVolumeD a) = true) :
    ∃ ph pw dh dd : ℚ, 0 < ph ∧ 0 < pw ∧ 0 < dh ∧ 0 < dd ∧
      a.personHeight = fin false ph ∧ a.personWidth = fin false pw ∧
      a.drumHeight = fin false dh ∧ a.drumDiameter = fin false dd ∧
      personVolumeD a = fin false (volumeVal pw ph) ∧ 0 < volumeVal pw ph ∧
      drumVolumeD a = fin false (volumeVal dd dh) ∧ 0 < volumeVal dd dh ∧
      volumeVal dd dh < 2 ^ 1024 := by
  obtain ⟨ph, pw, dh, dd, hph, hpw, hdh, hdd, e1, e2, e3, e4, -, -⟩ := hpos.dest
  obtain ⟨P, hP0, hPe⟩ := isPositive_iff.mp hP
  obtain ⟨D, hD0, hDe⟩ := isPositive_iff.mp hD
  refine ⟨ph, pw, dh, dd, hph, hpw, hdh, hdd, e1, e2, e3, e4, ?_⟩
  rcases personVolumeD_cases e2 e1 hph.ne' with h1 | ⟨h1, -⟩
  · rw [h1] at hPe; exact absurd hPe (by simp)
  rcases drumVolumeD_cases e4 e3 hdh.ne' with h2 | ⟨h2, h3⟩
  · rw [h2] at hDe; exact absurd hDe (by simp)
  have eP : volumeVal pw ph = P := by
    rw [h1] at hPe; injection hPe
  have eD : volumeVal dd dh = D := by
    rw [h2] at hDe; injection hDe
  exact ⟨h1, by rw [eP]; exact hP0, h2, by rw [eD]; exact hD0, h3⟩

lemma gt_fin_eq_false {x y : ℚ} (h : gt (fin false x) (fin false y) = false) : x ≤ y := by
  simpa [JSNumber.gt, value] using h

/-- Counterexample to C11 as stated.  With the four dimensions `1e200` and one
person the input is positive, both volumes overflow to `Infinity`, the overflow
branch is taken and `actualCount` is `NaN`.  With one person 1 x 1, a drum of
diameter 1 and height 8757208318859427 and that same count, the volumes are
finite and equal, and the code returns `actualCount = 8757208318859428`, one
more than the count asked for. -/
theorem actualCount_bounds_counterexample :
    (PositiveDoubles (cubeInput (roundDouble false (10 ^ 200)) 1) ∧
        personVolumeD (cubeInput (roundDouble false (10 ^ 200)) 1) = inf false ∧
        calculateCementD (cubeInput (roundDouble false (10 ^ 200)) 1)
          = overflowResultD (cubeInput (roundDouble false (10 ^ 200)) 1) ∧
        (calculateCementD (cubeInput (roundDouble false (10 ^ 200)) 1)).actualCount = nan) ∧
      (PositiveDoubles (wholeInput 1 1 8757208318859427 1 8757208318859427) ∧
        isPositive (personVolumeD (wholeInput 1 1 8757208318859427 1 8757208318859427)) = true ∧
        isPositive (drumVolumeD (wholeInput 1 1 8757208318859427 1 8757208318859427)) = true ∧
        calculateCementD (wholeInput 1 1 8757208318859427 1 8757208318859427)
          = overflowResultD (wholeInput 1 1 8757208318859427 1 8757208318859427) ∧
        (calculateCementD (wholeInput 1 1 8757208318859427 1 8757208318859427)).actualCount
          = fin false 8757208318859428) := by
  refine ⟨⟨by decide!, by decide!, by decide!, by decide!⟩,
    ⟨by decide!, by decide!, by decide!, by decide!, by decide!⟩⟩

/-- C11, amended (bounds on `actualCount` on the doubles of the code).  For
positive inputs whose computed `personVolume` and `drumVolume` are finite and
positive and whose count is below `2 ^ 52`, the returned `actualCount` is a
whole number `k` with `0 ≤ k ≤ personCount`; it is 0 exactly when a `>` of
line 7 holds; when neither holds the computed `drumVolume >= personVolume`,
and so in the overflow branch `1 ≤ k ≤ personCount`. -/
theorem actualCount_on_doubles (a : CementInput JSNumber) (hpos : PositiveDoubles a)
    (hP : isPositive (personVolumeD a) = true) (hD : isPositive (drumVolumeD a) = true)
    (hn : a.personCount < 2 ^ 52) :
    ∃ k : ℕ, (calculateCementD a).actualCount = fin false (k : ℚ) ∧
      k ≤ a.personCount ∧
      (k = 0 ↔ (gt a.personHeight a.drumHeight || gt a.personWidth a.drumDiameter) = true) ∧
      ((gt a.personHeight a.drumHeight || gt a.personWidth a.drumDiameter) = false →
        ge (drumVolumeD a) (personVolumeD a) = true) ∧
      ((gt a.personHeight a.drumHeight || gt a.personWidth a.drumDiameter) = false →
        ge (totalPeopleVolumeD a) (drumVolumeD a) = true → 1 ≤ k) := by
  obtain ⟨ph, pw, dh, dd, hph, hpw, hdh, hdd, e1, e2, e3, e4, eP, hP0, eD, hD0, hDlt⟩ :=
    hpos.volumes hP hD
  have hn1 : 0 < a.personCount := hpos.2.2.2.2.1
  have hn53 : a.personCount ≤ 2 ^ 53 := hpos.2.2.2.2.2
  cases h1 : (gt a.personHeight a.drumHeight || gt a.personWidth a.drumDiameter)
  · -- the dimensions fit
    obtain ⟨g1, g2⟩ := Bool.or_eq_false_iff.mp h1
    rw [e1, e3] at g1
    rw [e2, e4] at g2
    have hle : volumeVal pw ph ≤ volumeVal dd dh :=
      volumeVal_mono hpw.le (gt_fin_eq_false g2) hph.le (gt_fin_eq_false g1)
    have hge : ge (drumVolumeD a) (personVolumeD a) = true := by
      rw [eP, eD]; simpa [JSNumber.ge, value] using hle
    cases h2 : ge (totalPeopleVolumeD a) (drumVolumeD a)
    · -- normal fit
      refine ⟨a.personCount, ?_, le_rfl, ⟨fun h => ?_, fun h => absurd h (by simp)⟩,
        fun _ => hge, fun _ h => absurd h (by simp)⟩
      · rw [calculateCementD_of_normal h1 h2]
        exact ofNat_eq hn53
      · omega
    · -- overflow
      have hDle : volumeVal dd dh
          ≤ roundVal (volumeVal pw ph * (a.personCount : ℚ)) := by
        rcases totalPeopleVolumeD_cases e2 e1 hph.ne' hn1 hn53 with ⟨-, h3 | h3⟩ | ⟨-, h3⟩
        · rw [eP] at h3; exact absurd h3 (by simp)
        · exact le_trans hDlt.le h3
        · rw [h3, eD] at h2
          simpa [JSNumber.ge, value] using h2
      have hq2 : volumeVal dd dh / volumeVal pw ph ≤ (a.personCount : ℚ) + 1 / 2 :=
        quotient_le_count hP0 rfl (by omega) hDle
      have hq1 : 1 ≤ volumeVal dd dh / volumeVal pw ph := (one_le_div hP0).mpr hle
      have r1 : 1 ≤ roundVal (volumeVal dd dh / volumeVal pw ph) :=
        le_roundVal_of_le zero_le_one roundVal_one hq1
      have r2 : roundVal (volumeVal dd dh / volumeVal pw ph) ≤ (a.personCount : ℚ) + 1 / 2 :=
        roundVal_le_of_le (le_trans zero_le_one hq1) (roundVal_add_half hn) hq2
      have hbig : roundVal (volumeVal dd dh / volumeVal pw ph) < 2 ^ 1024 := by
        have h52 : (a.personCount : ℚ) < ((2 ^ 52 : ℕ) : ℚ) := by exact_mod_cast hn
        have h53 : ((2 ^ 52 : ℕ) : ℚ) + 1 / 2 < (2 : ℚ) ^ 1024 := by norm_num
        exact lt_of_le_of_lt r2 (lt_trans (add_lt_add_right h52 _) h53)
      have hdiv : div (drumVolumeD a) (personVolumeD a)
          = fin false (roundVal (volumeVal dd dh / volumeVal pw ph)) := by
        rw [eP, eD, div_fin_fin false false _ hP0.ne']
        exact roundDouble_of_lt hbig
      have f1 : (1 : ℤ) ≤ ⌊roundVal (volumeVal dd dh / volumeVal pw ph)⌋ :=
        Int.le_floor.mpr (by simpa using r1)
      have f2 : ⌊roundVal (volumeVal dd dh / volumeVal pw ph)⌋ ≤ (a.personCount : ℤ) := by
        have : ⌊roundVal (volumeVal dd dh / volumeVal pw ph)⌋ < (a.personCount : ℤ) + 1 := by
          rw [Int.floor_lt]
          push_cast
          linarith
        omega
      have hcast : ((⌊roundVal (volumeVal dd dh / volumeVal pw ph)⌋.toNat : ℕ) : ℚ)
          = ((⌊roundVal (volumeVal dd dh / volumeVal pw ph)⌋ : ℤ) : ℚ) := by
        rw [← Int.cast_natCast, Int.toNat_of_nonneg (by omega)]
      refine ⟨⌊roundVal (volumeVal dd dh / volumeVal pw ph)⌋.toNat, ?_, by omega,
        ⟨fun h => ?_, fun h => absurd h (by simp)⟩, fun _ => hge, fun _ _ => by omega⟩
      · rw [calculateCementD_of_overflow h1 h2]
        show floor (div (drumVolumeD a) (personVolumeD a)) = _
        rw [hdiv, hcast]
        show fin false |((⌊value false (roundVal (volumeVal dd dh / volumeVal pw ph))⌋ : ℤ) : ℚ)|
          = _
        congr 1
        simp only [value, Bool.false_eq_true, if_false]
        exact abs_of_nonneg (by exact_mod_cast (by omega :
          (0 : ℤ) ≤ ⌊roundVal (volumeVal dd dh / volumeVal pw ph)⌋))
      · omega
  · -- a dimension does not fit
    refine ⟨0, ?_, Nat.zero_le _, ⟨fun _ => rfl, fun _ => rfl⟩,
      fun h => absurd h (by simp), fun h => absurd h (by simp)⟩
    rw [calculateCementD_of_notFit h1]
    show ofNat 0 = _
    rw [ofNat_zero]; simp

/-- Witness for C11 as amended: scenario C on doubles is a positive input in
the overflow branch with finite positive volumes; its count is 4, between 1 and
the 5 persons asked for. -/
theorem actualCount_on_doubles_witness :
    PositiveDoubles (wholeInput 90 30 100 60 5) ∧
      (calculateCementD (wholeInput 90 30 100 60 5)).actualCount = fin false 4 ∧
      ∃ k : ℕ, (calculateCementD (wholeInput 90 30 100 60 5)).actualCount = fin false (k : ℚ) ∧
        1 ≤ k ∧ k ≤ 5 := by
  have hp : PositiveDoubles (wholeInput 90 30 100 60 5) := by decide!
  obtain ⟨k, h1, h2, -, -, h5⟩ := actualCount_on_doubles (wholeInput 90 30 100 60 5) hp
    (by decide!) (by decide!) (by decide!)
  exact ⟨hp, by decide!, k, h1, h5 (by decide!) (by decide!), h2⟩

end CountClaim

section DisplayOnDoubles

open JSNumber

lemma summaryTextD_eq_overflow_iff (r : DoubleResult) :
    summaryTextD r = "Cannot fit the human. Drum overflow detected!" ↔
      gt r.percentFilled (fin false 100) = true := by
  unfold summaryTextD
  rw [ofNat_hundred]
  split_ifs with h1 h2
  · exact ⟨fun _ => h1, fun _ => rfl⟩
  · exact ⟨fun h => absurd h (by decide), fun h => absurd h h1⟩
  · refine ⟨fun h => ?_, fun h => absurd h h1⟩
    have := congrArg String.data h
    simp only [String.data_append] at this
    revert this
    simp

lemma summaryTextD_eq_perfect_iff (r : DoubleResult) :
    summaryTextD r = "Drum is perfectly filled with the person included!" ↔
      (gt r.percentFilled (fin false 100) = false ∧
        strictEq r.percentFilled (fin false 100) = true) := by
  unfold summaryTextD
  rw [ofNat_hundred]
  split_ifs with h1 h2
  · exact ⟨fun h => absurd h (by decide), fun h => absurd h1 (by simp [h.1])⟩
  · exact ⟨fun _ => ⟨by simpa using h1, h2⟩, fun _ => rfl⟩
  · refine ⟨fun h => ?_, fun h => absurd h.2 h2⟩
    have := congrArg String.data h
    simp only [String.data_append] at this
    revert this
    simp

lemma summaryTextD_eq_cement_iff (r : DoubleResult) :
    summaryTextD r = "Cement needed to fill the drum: "
        ++ toFixed (div r.cementVolume (ofNat 1000)) ++ " liters" ↔
      (gt r.percentFilled (fin false 100) = false ∧
        strictEq r.percentFilled (fin false 100) = false) := by
  unfold summaryTextD
  rw [ofNat_hundred]
  split_ifs with h1 h2
  · refine ⟨fun h => ?_, fun h => absurd h1 (by simp [h.1])⟩
    have := congrArg String.data h
    simp only [String.data_append] at this
    revert this
    simp
  · refine ⟨fun h => ?_, fun h => absurd h2 (by simp [h.2])⟩
    have := congrArg String.data h
    simp only [String.data_append] at this
    revert this
    simp
  · exact ⟨fun _ => ⟨by simpa using h1, by simpa using h2⟩, fun _ => rfl⟩

lemma min_of_lt {v : ℚ} (hv : v < 100) :
    JSNumber.min (fin false v) (ofNat 100) = fin false v := by
  rw [ofNat_hundred]
  have h : gt (fin false 100) (fin false v) = true := by
    simpa [JSNumber.gt, value] using hv
  show (if gt (fin false 100) (fin false v) then fin false v
    else if gt (fin false v) (fin false 100) then fin false 100 else fin false 100) = fin false v
  rw [if_pos h]

/-- The percentage of a positive input with a finite positive drum volume,
branch by branch. -/
lemma percentFilled_cases {a : CementInput JSNumber} (hpos : PositiveDoubles a)
    (hD : isPositive (drumVolumeD a) = true)
    (h1 : (gt a.personHeight a.drumHeight || gt a.personWidth a.drumDiameter) = false) :
    (gt (totalPeopleVolumeD a) (drumVolumeD a) = true ∧
        strictEq (totalPeopleVolumeD a) (drumVolumeD a) = false ∧
        ge (totalPeopleVolumeD a) (drumVolumeD a) = true ∧
        gt (calculateCementD a).percentFilled (fin false 100) = true) ∨
      (gt (totalPeopleVolumeD a) (drumVolumeD a) = false ∧
        strictEq (totalPeopleVolumeD a) (drumVolumeD a) = true ∧
        ge (totalPeopleVolumeD a) (drumVolumeD a) = true ∧
        (calculateCementD a).percentFilled = fin false 100) ∨
      (gt (totalPeopleVolumeD a) (drumVolumeD a) = false ∧
        strictEq (totalPeopleVolumeD a) (drumVolumeD a) = false ∧
        ge (totalPeopleVolumeD a) (drumVolumeD a) = false ∧
        ∃ v : ℚ, v < 100 ∧ (calculateCementD a).percentFilled = fin false v) := by
  obtain ⟨ph, pw, dh, dd, hph, hpw, hdh, hdd, e1, e2, e3, e4, hn, hn2⟩ := hpos.dest
  obtain ⟨D, hD0, hDe⟩ := isPositive_iff.mp hD
  have hDv : D = volumeVal dd dh := by
    rcases drumVolumeD_cases e4 e3 hdh.ne' with h | ⟨h, -⟩
    · rw [h] at hDe; exact absurd hDe (by simp)
    · rw [h] at hDe; injection hDe with _ h'; exact h'.symm
  have fD : roundVal D = D := by
    rw [hDv]; exact roundVal_idem (mul_nonneg (roundVal_nonneg _) hdh.le)
  rcases totalPeopleVolumeD_cases e2 e1 hph.ne' hn hn2 with ⟨hT, -⟩ | ⟨-, hT⟩
  · -- the total is `Infinity`
    left
    have hv : ge (totalPeopleVolumeD a) (drumVolumeD a) = true := by rw [hT, hDe]; rfl
    rw [calculateCementD_of_overflow h1 hv]
    refine ⟨by rw [hT, hDe]; rfl, by rw [hT, hDe]; rfl, hv, ?_⟩
    show gt (mul (div (totalPeopleVolumeD a) (drumVolumeD a)) (ofNat 100)) (fin false 100) = true
    rw [hT, hDe, ofNat_hundred]
    show gt (mul (inf false) (fin false 100)) (fin false 100) = true
    rw [mul_inf_fin (by norm_num)]; rfl
  · -- the total is finite
    have hT0 : 0 ≤ roundVal (volumeVal pw ph * (a.personCount : ℚ)) := roundVal_nonneg _
    have hvol0 : 0 ≤ volumeVal pw ph := roundVal_nonneg _
    have fT : roundVal (roundVal (volumeVal pw ph * (a.personCount : ℚ)))
        = roundVal (volumeVal pw ph * (a.personCount : ℚ)) :=
      roundVal_idem (mul_nonneg hvol0 (Nat.cast_nonneg _))
    generalize roundVal (volumeVal pw ph * (a.personCount : ℚ)) = T at hT hT0 fT
    rcases lt_trichotomy T D with hlt | heq | hgt
    · -- below the boundary: normal fit
      right; right
      have hv : ge (totalPeopleVolumeD a) (drumVolumeD a) = false := by
        rw [hT, hDe]; simpa [JSNumber.ge, value] using hlt
      have hx : T / D ≤ 1 - 2 ^ (-53 : ℤ) := by
        rcases hT0.eq_or_lt with h0 | hTpos
        · rw [← h0, zero_div]
          have : (2 : ℚ) ^ (-53 : ℤ) ≤ 1 := by rw [zpow_neg]; norm_num
          linarith
        · exact ratio_le hTpos hlt fD fT
      obtain ⟨v, hv1, hv2⟩ := percent_lt (div_nonneg hT0 hD0.le) hx
      refine ⟨by rw [hT, hDe]; simpa [JSNumber.gt, value] using hlt.le,
        by rw [hT, hDe]; simpa [JSNumber.strictEq, value] using hlt.ne, hv, v, hv2, ?_⟩
      rw [calculateCementD_of_normal h1 hv]
      show JSNumber.min (mul (div (totalPeopleVolumeD a) (drumVolumeD a)) (ofNat 100)) (ofNat 100)
        = fin false v
      rw [hT, hDe, div_fin_fin false false T hD0.ne']
      show JSNumber.min (mul (roundDouble false (T / D)) (ofNat 100)) (ofNat 100) = fin false v
      rw [ofNat_hundred, hv1, ← ofNat_hundred]
      exact min_of_lt hv2
    · -- on the boundary
      right; left
      have hv : ge (totalPeopleVolumeD a) (drumVolumeD a) = true := by
        rw [hT, hDe]; simpa [JSNumber.ge, value] using heq.ge
      refine ⟨by rw [hT, hDe]; simpa [JSNumber.gt, value] using heq.le,
        by rw [hT, hDe]; simpa [JSNumber.strictEq, value] using heq, hv, ?_⟩
      rw [calculateCementD_of_overflow h1 hv]
      show mul (div (totalPeopleVolumeD a) (drumVolumeD a)) (ofNat 100) = fin false 100
      rw [hT, hDe, div_fin_fin false false T hD0.ne', heq, div_self hD0.ne']
      decide!
    · -- above the boundary
      left
      have hv : ge (totalPeopleVolumeD a) (drumVolumeD a) = true := by
        rw [hT, hDe]; simpa [JSNumber.ge, value] using hgt.le
      refine ⟨by rw [hT, hDe]; simpa [JSNumber.gt, value] using hgt,
        by rw [hT, hDe]; simpa [JSNumber.strictEq, value] using hgt.ne', hv, ?_⟩
      rw [calculateCementD_of_overflow h1 hv]
      show gt (mul (div (totalPeopleVolumeD a) (drumVolumeD a)) (ofNat 100)) (fin false 100)
        = true
      rw [hT, hDe, div_fin_fin false false T hD0.ne', ofNat_hundred]
      exact percent_gt (ratio_gt hD0 hgt fD fT)

/-- Counterexample to C12 as stated.  Drum 80 x 60 with nine persons 80 x 20:
the dimensions fit and over the reals the people take exactly the drum's
volume (`72000 π`), so the claim asks for the "perfectly filled" text; the
code's `percentFilled` is `100.00000000000003` and the page shows the overflow
text.  Drum 80 x 45 with nine persons 80 x 15: again equal volumes over the
reals (`40500 π`), but `percentFilled` is `99.99999999999999` and the page shows
the cement-volume text. -/
theorem summary_boundary_counterexample :
    (PositiveDoubles (wholeInput 80 20 80 60 9) ∧
        ((80 : ℝ) ≤ 80 ∧ (20 : ℝ) ≤ 60) ∧
        totalPeopleVolume Real.pi (wholeInputExact ℝ 80 20 80 60 9)
          = drumVolume Real.pi (wholeInputExact ℝ 80 20 80 60 9) ∧
        (calculateCementD (wholeInput 80 20 80 60 9)).percentFilled
          = fin false (3518437208883201 / 35184372088832) ∧
        summaryTextD (calculateCementD (wholeInput 80 20 80 60 9))
          = "Cannot fit the human. Drum overflow detected!" ∧
        summaryTextD (calculateCementD (wholeInput 80 20 80 60 9))
          ≠ "Drum is perfectly filled with the person included!") ∧
      (PositiveDoubles (wholeInput 80 15 80 45 9) ∧
        ((80 : ℝ) ≤ 80 ∧ (15 : ℝ) ≤ 45) ∧
        totalPeopleVolume Real.pi (wholeInputExact ℝ 80 15 80 45 9)
          = drumVolume Real.pi (wholeInputExact ℝ 80 15 80 45 9) ∧
        (calculateCementD (wholeInput 80 15 80 45 9)).percentFilled
          = fin false (7036874417766399 / 70368744177664) ∧
        summaryTextD (calculateCementD (wholeInput 80 15 80 45 9))
          = "Cement needed to fill the drum: 0.00 liters") := by
  refine ⟨⟨by decide!, ⟨by norm_num, by norm_num⟩, ?_, by decide!, by decide!, by decide!⟩,
    ⟨by decide!, ⟨by norm_num, by norm_num⟩, ?_, by decide!, by decide!⟩⟩
  · simp only [totalPeopleVolume, personVolume, drumVolume, wholeInputExact]
    norm_num; ring
  · simp only [totalPeopleVolume, personVolume, drumVolume, wholeInputExact]
    norm_num; ring

/-- C12, amended (calculator and results display on the doubles of the code).
For positive inputs whose computed `drumVolume` is finite and positive, the
summary of `page.js` applied to the result of `calculateCement` is the
overflow text exactly when neither `>` of line 7 holds and the computed
`totalPeopleVolume > drumVolume`, the "perfectly filled" text exactly when
neither holds and the computed volumes are equal, and the cement-volume text in
every other case; when a `>` of line 7 holds, `cementVolume` is 0 and the text
reads `0.00` liters. -/
theorem summary_on_doubles (a : CementInput JSNumber) (hpos : PositiveDoubles a)
    (hD : isPositive (drumVolumeD a) = true) :
    (summaryTextD (calculateCementD a) = "Cannot fit the human. Drum overflow detected!" ↔
        ((gt a.personHeight a.drumHeight || gt a.personWidth a.drumDiameter) = false ∧
          gt (totalPeopleVolumeD a) (drumVolumeD a) = true)) ∧
      (summaryTextD (calculateCementD a)
          = "Drum is perfectly filled with the person included!" ↔
        ((gt a.personHeight a.drumHeight || gt a.personWidth a.drumDiameter) = false ∧
          strictEq (totalPeopleVolumeD a) (drumVolumeD a) = true)) ∧
      (summaryTextD (calculateCementD a)
          = "Cement needed to fill the drum: "
            ++ toFixed (div (calculateCementD a).cementVolume (ofNat 1000)) ++ " liters" ↔
        ¬((gt a.personHeight a.drumHeight || gt a.personWidth a.drumDiameter) = false ∧
          ge (totalPeopleVolumeD a) (drumVolumeD a) = true)) ∧
      ((gt a.personHeight a.drumHeight || gt a.personWidth a.drumDiameter) = true →
        (calculateCementD a).cementVolume = fin false 0 ∧
        summaryTextD (calculateCementD a) = "Cement needed to fill the drum: 0.00 liters") := by
  rw [summaryTextD_eq_overflow_iff, summaryTextD_eq_perfect_iff, summaryTextD_eq_cement_iff]
  cases h1 : (gt a.personHeight a.drumHeight || gt a.personWidth a.drumDiameter)
  · rcases percentFilled_cases hpos hD h1 with ⟨c1, c2, c3, c4⟩ | ⟨c1, c2, c3, c4⟩ |
      ⟨c1, c2, c3, v, hv, c4⟩
    · rw [c1, c2, c3, c4]
      have hs : strictEq (calculateCementD a).percentFilled (fin false 100) = false := by
        match hp : (calculateCementD a).percentFilled, c4 with
        | inf false, _ => rfl
        | fin s m, c4 =>
          have : value false 100 < value s m := by simpa [JSNumber.gt] using c4
          simpa [JSNumber.strictEq] using this.ne'
      rw [hs]
      simp
    · rw [c1, c2, c3, c4]
      have g : gt (fin false 100) (fin false 100) = false := by decide
      have e : strictEq (fin false 100) (fin false 100) = true := by decide
      rw [g, e]
      simp
    · rw [c1, c2, c3, c4]
      have g : gt (fin false v) (fin false 100) = false := by
        simpa [JSNumber.gt, value] using hv.le
      have e : strictEq (fin false v) (fin false 100) = false := by
        simpa [JSNumber.strictEq, value] using hv.ne
      rw [g, e]
      simp
  · have hr := calculateCementD_of_notFit h1
    have hpf : (calculateCementD a).percentFilled = fin false 0 := by
      rw [hr]; exact ofNat_zero
    have hcv : (calculateCementD a).cementVolume = fin false 0 := by
      rw [hr]; exact ofNat_zero
    have g : gt (fin false 0) (fin false 100) = false := by decide
    have e : strictEq (fin false 0) (fin false 100) = false := by decide
    rw [hpf, g, e]
    refine ⟨by simp, by simp, by simp, fun _ => ⟨hcv, ?_⟩⟩
    have ht := (summaryTextD_eq_cement_iff (calculateCementD a)).mpr
      (by rw [hpf, g, e]; exact ⟨rfl, rfl⟩)
    rw [ht, hcv]
    decide!

/-- Witness for C12 as amended: on doubles the boundary input (drum 100 x 60,
four persons 100 x 30), whose computed volumes are equal, shows the "perfectly
filled" text; scenario C shows the overflow text; scenario A, whose person is
taller than the drum, shows the cement-volume text with `0.00` liters. -/
theorem summary_on_doubles_witness :
    summaryTextD (calculateCementD (wholeInput 100 30 100 60 4))
        = "Drum is perfectly filled with the person included!" ∧
      summaryTextD (calculateCementD (wholeInput 90 30 100 60 5))
        = "Cannot fit the human. Drum overflow detected!" ∧
      summaryTextD (calculateCementD (wholeInput 170 40 100 60 1))
        = "Cement needed to fill the drum: 0.00 liters" := by
  have hb := summary_on_doubles (wholeInput 100 30 100 60 4) (by decide!) (by decide!)
  have hc := summary_on_doubles (wholeInput 90 30 100 60 5) (by decide!) (by decide!)
  have ha := summary_on_doubles (wholeInput 170 40 100 60 1) (by decide!) (by decide!)
  exact ⟨hb.2.1.mpr ⟨by decide!, by decide!⟩, hc.1.mpr ⟨by decide!, by decide!⟩,
    (ha.2.2.2 (by decide!)).2⟩

end DisplayOnDoubles

namespace JSNumber

/-! ### Scaling by a power of two -/

/-- In the normal range, rounding commutes with a power of two. -/
lemma roundVal_scale {x : ℚ} (j : ℤ) (hx : (2 : ℚ) ^ (-1022 : ℤ) ≤ x)
    (hxs : (2 : ℚ) ^ (-1022 : ℤ) ≤ 2 ^ j * x) : roundVal (2 ^ j * x) = 2 ^ j * roundVal x := by
  have hpos : 0 < x := lt_of_lt_of_le (two_zpow_pos _) hx
  have hj := two_zpow_pos j
  obtain ⟨s1, s2⟩ := floorLog2_spec hpos
  have hfl : -1022 ≤ floorLog2 x := by
    have := (zpow_lt_zpow_iff_right₀ (by norm_num : (1 : ℚ) < 2)).mp (lt_of_le_of_lt hx s2)
    omega
  have t1 : (2 : ℚ) ^ (floorLog2 x + j) ≤ 2 ^ j * x := by
    rw [zpow_add₀ (by norm_num), mul_comm]
    exact mul_le_mul_of_nonneg_left s1 hj.le
  have t2 : 2 ^ j * x < (2 : ℚ) ^ (floorLog2 x + j + 1) := by
    have e : (2 : ℚ) ^ (floorLog2 x + j + 1) = 2 ^ j * 2 ^ (floorLog2 x + 1) := by
      rw [← zpow_add₀ (by norm_num)]; congr 1; ring
    rw [e]
    exact mul_lt_mul_of_pos_left s2 hj
  have hfls : floorLog2 (2 ^ j * x) = floorLog2 x + j := floorLog2_eq t1 t2
  have hfl2 : -1022 ≤ floorLog2 x + j := by
    have := (zpow_lt_zpow_iff_right₀ (by norm_num : (1 : ℚ) < 2)).mp (lt_of_le_of_lt hxs t2)
    omega
  have eu : (2 : ℚ) ^ (floorLog2 x + j - 52) = 2 ^ j * 2 ^ (floorLog2 x - 52) := by
    rw [← zpow_add₀ (by norm_num)]; congr 1; ring
  rw [roundVal_eq, roundVal_eq, hfls, max_eq_left hfl, max_eq_left hfl2, eu,
    mul_div_mul_left _ _ hj.ne']
  ring

lemma two_zpow_le_of_le {x : ℚ} {i : ℤ} (hi : -1022 ≤ i) (h : (2 : ℚ) ^ i ≤ x) :
    (2 : ℚ) ^ (-1022 : ℤ) ≤ x :=
  le_trans (zpow_le_zpow_right₀ (by norm_num) hi) h

/-- Lower bounds along the chain of lines 2 and 3. -/
lemma chain_lower {w : ℚ} {i : ℤ} (hi : -340 ≤ i) (hw : (2 : ℚ) ^ i ≤ w) :
    (2 : ℚ) ^ (i - 1) ≤ roundVal (w / 2) ∧
      (2 : ℚ) ^ (2 * i - 2) ≤ roundVal (roundVal (w / 2) * roundVal (w / 2)) ∧
      (2 : ℚ) ^ (2 * i - 1)
        ≤ roundVal (piVal * roundVal (roundVal (w / 2) * roundVal (w / 2))) := by
  have a1 : (2 : ℚ) ^ (i - 1) ≤ w / 2 := by
    rw [zpow_sub_one₀ (by norm_num)]
    exact div_le_div_of_nonneg_right hw (by norm_num)
  have b1 := le_roundVal_of_le (two_zpow_pos _).le (roundVal_two_zpow (by omega)) a1
  have c1 : (2 : ℚ) ^ (2 * i - 2) ≤ roundVal (w / 2) * roundVal (w / 2) := by
    have e : (2 : ℚ) ^ (2 * i - 2) = 2 ^ (i - 1) * 2 ^ (i - 1) := by
      rw [← zpow_add₀ (by norm_num)]; congr 1; ring
    rw [e]
    exact mul_le_mul b1 b1 (two_zpow_pos _).le (roundVal_nonneg _)
  have d1 := le_roundVal_of_le (two_zpow_pos _).le (roundVal_two_zpow (by omega)) c1
  have e1 : (2 : ℚ) ^ (2 * i - 1)
      ≤ piVal * roundVal (roundVal (w / 2) * roundVal (w / 2)) := by
    have e : (2 : ℚ) ^ (2 * i - 1) = 2 ^ (1 : ℤ) * 2 ^ (2 * i - 2) := by
      rw [← zpow_add₀ (by norm_num)]; congr 1; ring
    rw [e]
    exact mul_le_mul piVal_bounds.1 d1 (two_zpow_pos _).le piVal_pos.le
  exact ⟨b1, d1, le_roundVal_of_le (two_zpow_pos _).le (roundVal_two_zpow (by omega)) e1⟩

/-- Within range the value of lines 2 and 3 scales with the cube of a power of
two. -/
lemma volumeVal_scale {w h : ℚ} {i : ℤ} (j : ℤ) (hi : -340 ≤ i)
    (hw : (2 : ℚ) ^ i ≤ w) (hh : (2 : ℚ) ^ i ≤ h)
    (hws : (2 : ℚ) ^ i ≤ 2 ^ j * w) (hhs : (2 : ℚ) ^ i ≤ 2 ^ j * h) :
    volumeVal (2 ^ j * w) (2 ^ j * h) = 2 ^ (3 * j) * volumeVal w h := by
  obtain ⟨b1, d1, f1⟩ := chain_lower hi hw
  obtain ⟨b2, d2, f2⟩ := chain_lower hi hws
  have hh0 : 0 < h := lt_of_lt_of_le (two_zpow_pos _) hh
  have hhs0 : 0 < 2 ^ j * h := lt_of_lt_of_le (two_zpow_pos _) hhs
  -- the half
  have a1 : (2 : ℚ) ^ (i - 1) ≤ w / 2 := by
    rw [zpow_sub_one₀ (by norm_num)]
    exact div_le_div_of_nonneg_right hw (by norm_num)
  have a2 : (2 : ℚ) ^ (i - 1) ≤ 2 ^ j * (w / 2) := by
    rw [zpow_sub_one₀ (by norm_num), ← mul_div_assoc]
    exact div_le_div_of_nonneg_right hws (by norm_num)
  have s1 : roundVal (2 ^ j * w / 2) = 2 ^ j * roundVal (w / 2) := by
    rw [mul_div_assoc]
    exact roundVal_scale j (two_zpow_le_of_le (by omega) a1) (two_zpow_le_of_le (by omega) a2)
  -- the square
  have c1 : (2 : ℚ) ^ (2 * i - 2) ≤ roundVal (w / 2) * roundVal (w / 2) := by
    have e : (2 : ℚ) ^ (2 * i - 2) = 2 ^ (i - 1) * 2 ^ (i - 1) := by
      rw [← zpow_add₀ (by norm_num)]; congr 1; ring
    rw [e]
    exact mul_le_mul b1 b1 (two_zpow_pos _).le (roundVal_nonneg _)
  have esq : 2 ^ j * roundVal (w / 2) * (2 ^ j * roundVal (w / 2))
      = 2 ^ (2 * j) * (roundVal (w / 2) * roundVal (w / 2)) := by
    rw [show (2 : ℤ) * j = j + j by ring, zpow_add₀ (by norm_num : (2 : ℚ) ≠ 0)]; ring
  have c2 : (2 : ℚ) ^ (2 * i - 2)
      ≤ 2 ^ (2 * j) * (roundVal (w / 2) * roundVal (w / 2)) := by
    rw [← esq, ← s1]
    have e : (2 : ℚ) ^ (2 * i - 2) = 2 ^ (i - 1) * 2 ^ (i - 1) := by
      rw [← zpow_add₀ (by norm_num)]; congr 1; ring
    rw [e]
    exact mul_le_mul b2 b2 (two_zpow_pos _).le (roundVal_nonneg _)
  have s2 : roundVal (roundVal (2 ^ j * w / 2) * roundVal (2 ^ j * w / 2))
      = 2 ^ (2 * j) * roundVal (roundVal (w / 2) * roundVal (w / 2)) := by
    rw [s1, esq]
    exact roundVal_scale (2 * j) (two_zpow_le_of_le (by omega) c1)
      (two_zpow_le_of_le (by omega) c2)
  -- times `Math.PI`
  have e1 : (2 : ℚ) ^ (2 * i - 1)
      ≤ piVal * roundVal (roundVal (w / 2) * roundVal (w / 2)) := by
    have e : (2 : ℚ) ^ (2 * i - 1) = 2 ^ (1 : ℤ) * 2 ^ (2 * i - 2) := by
      rw [← zpow_add₀ (by norm_num)]; congr 1; ring
    rw [e]
    exact mul_le_mul piVal_bounds.1 d1 (two_zpow_pos _).le piVal_pos.le
  have epi : piVal * (2 ^ (2 * j) * roundVal (roundVal (w / 2) * roundVal (w / 2)))
      = 2 ^ (2 * j) * (piVal * roundVal (roundVal (w / 2) * roundVal (w / 2))) := by ring
  have e2 : (2 : ℚ) ^ (2 * i - 1)
      ≤ 2 ^ (2 * j) * (piVal * roundVal (roundVal (w / 2) * roundVal (w / 2))) := by
    rw [← epi, ← s2]
    have e : (2 : ℚ) ^ (2 * i - 1) = 2 ^ (1 : ℤ) * 2 ^ (2 * i - 2) := by
      rw [← zpow_add₀ (by norm_num)]; congr 1; ring
    rw [e]
    exact mul_le_mul piVal_bounds.1 d2 (two_zpow_pos _).le piVal_pos.le
  have s3 : roundVal (piVal * roundVal (roundVal (2 ^ j * w / 2) * roundVal (2 ^ j * w / 2)))
      = 2 ^ (2 * j) * roundVal (piVal * roundVal (roundVal (w / 2) * roundVal (w / 2))) := by
    rw [s2, epi]
    exact roundVal_scale (2 * j) (two_zpow_le_of_le (by omega) e1)
      (two_zpow_le_of_le (by omega) e2)
  -- times the height
  have g1 : (2 : ℚ) ^ (3 * i - 1)
      ≤ roundVal (piVal * roundVal (roundVal (w / 2) * roundVal (w / 2))) * h := by
    have e : (2 : ℚ) ^ (3 * i - 1) = 2 ^ (2 * i - 1) * 2 ^ i := by
      rw [← zpow_add₀ (by norm_num)]; congr 1; ring
    rw [e]
    exact mul_le_mul f1 hh (two_zpow_pos _).le (roundVal_nonneg _)
  have eh : 2 ^ (2 * j) * roundVal (piVal * roundVal (roundVal (w / 2) * roundVal (w / 2)))
        * (2 ^ j * h)
      = 2 ^ (3 * j)
        * (roundVal (piVal * roundVal (roundVal (w / 2) * roundVal (w / 2))) * h) := by
    rw [show (3 : ℤ) * j = 2 * j + j by ring, zpow_add₀ (by norm_num : (2 : ℚ) ≠ 0)]; ring
  have g2 : (2 : ℚ) ^ (3 * i - 1)
      ≤ 2 ^ (3 * j)
        * (roundVal (piVal * roundVal (roundVal (w / 2) * roundVal (w / 2))) * h) := by
    rw [← eh, ← s3]
    have e : (2 : ℚ) ^ (3 * i - 1) = 2 ^ (2 * i - 1) * 2 ^ i := by
      rw [← zpow_add₀ (by norm_num)]; congr 1; ring
    rw [e]
    exact mul_le_mul f2 hhs (two_zpow_pos _).le (roundVal_nonneg _)
  unfold volumeVal
  rw [s3, eh]
  exact roundVal_scale (3 * j) (two_zpow_le_of_le (by omega) g1)
    (two_zpow_le_of_le (by omega) g2)

end JSNumber

section ScaleClaim

open JSNumber

/-- Within range both the volume of lines 2 and 3 and its scaled copy are
finite, and the scaled one is `2 ^ (3 * j)` times the other. -/
lemma volume_scaled {w h : ℚ} (j : ℤ)
    (hw1 : (2 : ℚ) ^ (-200 : ℤ) ≤ w) (hw2 : w ≤ 2 ^ (200 : ℤ))
    (hh1 : (2 : ℚ) ^ (-200 : ℤ) ≤ h) (hh2 : h ≤ 2 ^ (200 : ℤ))
    (hws1 : (2 : ℚ) ^ (-200 : ℤ) ≤ 2 ^ j * w) (hws2 : 2 ^ j * w ≤ 2 ^ (200 : ℤ))
    (hhs1 : (2 : ℚ) ^ (-200 : ℤ) ≤ 2 ^ j * h) (hhs2 : 2 ^ j * h ≤ 2 ^ (200 : ℤ)) :
    mul (mul PI (square (div (fin false w) (ofNat 2)))) (fin false h)
        = fin false (volumeVal w h) ∧
      mul (mul PI (square (div (fin false (2 ^ j * w)) (ofNat 2)))) (fin false (2 ^ j * h))
        = fin false (2 ^ (3 * j) * volumeVal w h) ∧
      (2 : ℚ) ^ (-601 : ℤ) ≤ volumeVal w h ∧ volumeVal w h ≤ 2 ^ (600 : ℤ) ∧
      (2 : ℚ) ^ (-601 : ℤ) ≤ 2 ^ (3 * j) * volumeVal w h ∧
      2 ^ (3 * j) * volumeVal w h ≤ 2 ^ (600 : ℤ) := by
  obtain ⟨a1, a2, a3⟩ := volume_of_range (by norm_num : (-340 : ℤ) ≤ -200)
    (by norm_num : (200 : ℤ) ≤ 340) hw1 hw2 hh1 hh2
  obtain ⟨b1, b2, b3⟩ := volume_of_range (by norm_num : (-340 : ℤ) ≤ -200)
    (by norm_num : (200 : ℤ) ≤ 340) hws1 hws2 hhs1 hhs2
  have e := volumeVal_scale j (by norm_num : (-340 : ℤ) ≤ -200) hw1 hh1 hws1 hhs1
  rw [e] at b1 b2 b3
  exact ⟨a1, b1, a2, a3, b2, b3⟩

lemma gt_scale {k x y : ℚ} (hk : 0 < k) :
    gt (fin false (k * x)) (fin false (k * y)) = gt (fin false x) (fin false y) := by
  simp only [JSNumber.gt, value, Bool.false_eq_true, if_false]
  exact decide_eq_decide.mpr (mul_lt_mul_left hk)

lemma ge_scale {k x y : ℚ} (hk : 0 < k) :
    ge (fin false (k * x)) (fin false (k * y)) = ge (fin false x) (fin false y) := by
  simp only [JSNumber.ge, value, Bool.false_eq_true, if_false]
  exact decide_eq_decide.mpr (mul_le_mul_left hk)

lemma two_zpow_bound_lo {x : ℚ} (h : (2 : ℚ) ^ (-601 : ℤ) ≤ x) : (2 : ℚ) ^ (-1022 : ℤ) ≤ x :=
  two_zpow_le_of_le (by norm_num) h

/-- The difference of two distinct doubles well inside the normal range is
itself in the normal range. -/
lemma sub_normal {s t : ℚ} (hs : (2 : ℚ) ^ (-601 : ℤ) ≤ s) (hst : s < t) (fs : roundVal s = s)
    (ft : roundVal t = t) : (2 : ℚ) ^ (-1022 : ℤ) ≤ t - s := by
  have hs0 : 0 < s := lt_of_lt_of_le (two_zpow_pos _) hs
  have h := sub_ge_ulp hs0 hst fs ft
  obtain ⟨-, s2⟩ := floorLog2_spec hs0
  have hfl : -601 ≤ floorLog2 s := by
    have := (zpow_lt_zpow_iff_right₀ (by norm_num : (1 : ℚ) < 2)).mp (lt_of_le_of_lt hs s2)
    omega
  refine le_trans (zpow_le_zpow_right₀ (by norm_num) ?_) h
  have := le_max_left (floorLog2 s) (-1022)
  omega

/-- The total of line 5 from a finite person volume inside the range. -/
lemma total_of_range {P : ℚ} {n : ℕ} (hn : 0 < n) (hn2 : n ≤ 2 ^ 53)
    (hP1 : (2 : ℚ) ^ (-601 : ℤ) ≤ P) (hP2 : P ≤ 2 ^ (600 : ℤ)) :
    mul (fin false P) (ofNat n) = fin false (roundVal (P * n)) ∧
      (2 : ℚ) ^ (-601 : ℤ) ≤ P * n ∧ (2 : ℚ) ^ (-601 : ℤ) ≤ roundVal (P * n) ∧
      roundVal (P * n) ≤ 2 ^ (653 : ℤ) := by
  have hP0 : 0 < P := lt_of_lt_of_le (two_zpow_pos _) hP1
  have n1 : (1 : ℚ) ≤ (n : ℚ) := by exact_mod_cast hn
  have n2 : (n : ℚ) ≤ 2 ^ (53 : ℤ) := by
    have h0 : (n : ℚ) ≤ ((2 ^ 53 : ℕ) : ℚ) := by exact_mod_cast hn2
    have e : ((2 ^ 53 : ℕ) : ℚ) = (2 : ℚ) ^ (53 : ℤ) := by norm_num
    rwa [e] at h0
  have lo : (2 : ℚ) ^ (-601 : ℤ) ≤ P * n :=
    le_trans hP1 (le_mul_of_one_le_right hP0.le n1)
  have hi : P * n ≤ (2 : ℚ) ^ (653 : ℤ) := by
    have e : (2 : ℚ) ^ (653 : ℤ) = 2 ^ (600 : ℤ) * 2 ^ (53 : ℤ) := by
      rw [← zpow_add₀ (by norm_num)]; norm_num
    rw [e]
    exact mul_le_mul hP2 n2 (by positivity) (two_zpow_pos _).le
  obtain ⟨r1, r2⟩ := roundVal_range (by norm_num : (-1074 : ℤ) ≤ -601)
    (by norm_num : (-1074 : ℤ) ≤ 653) lo hi
  refine ⟨?_, lo, r1, r2⟩
  rw [ofNat_eq hn2, mul_fin_false]
  exact roundDouble_of_lt (lt_of_le_of_lt r2 (two_zpow_lt_huge (by norm_num)))

lemma volumeVal_fixed {w h : ℚ} (hh : 0 ≤ h) : roundVal (volumeVal w h) = volumeVal w h := by
  unfold volumeVal
  exact roundVal_idem (mul_nonneg (roundVal_nonneg _) hh)

/-- The volumes of an input inside the range and of its copy scaled by a power
of two: all finite, the scaled ones `2 ^ (3 * j)` times the others. -/
lemma scaled_volumes (j : ℤ) (a : CementInput JSNumber)
    (r1 : inRange (2 ^ (-200 : ℤ)) (2 ^ (200 : ℤ)) a.personHeight)
    (r2 : inRange (2 ^ (-200 : ℤ)) (2 ^ (200 : ℤ)) a.personWidth)
    (r3 : inRange (2 ^ (-200 : ℤ)) (2 ^ (200 : ℤ)) a.drumHeight)
    (r4 : inRange (2 ^ (-200 : ℤ)) (2 ^ (200 : ℤ)) a.drumDiameter)
    (s1 : inRange (2 ^ (-200 : ℤ)) (2 ^ (200 : ℤ)) (scale (2 ^ j) a.personHeight))
    (s2 : inRange (2 ^ (-200 : ℤ)) (2 ^ (200 : ℤ)) (scale (2 ^ j) a.personWidth))
    (s3 : inRange (2 ^ (-200 : ℤ)) (2 ^ (200 : ℤ)) (scale (2 ^ j) a.drumHeight))
    (s4 : inRange (2 ^ (-200 : ℤ)) (2 ^ (200 : ℤ)) (scale (2 ^ j) a.drumDiameter))
    (hn : 0 < a.personCount) (hn2 : a.personCount ≤ 2 ^ 53) :
    ∃ ph pw dh dd P D T : ℚ,
      a.personHeight = fin false ph ∧ a.personWidth = fin false pw ∧
      a.drumHeight = fin false dh ∧ a.drumDiameter = fin false dd ∧
      personVolumeD a = fin false P ∧ drumVolumeD a = fin false D ∧
      totalPeopleVolumeD a = fin false T ∧
      personVolumeD (scaleInputD (2 ^ j) a) = fin false (2 ^ (3 * j) * P) ∧
      drumVolumeD (scaleInputD (2 ^ j) a) = fin false (2 ^ (3 * j) * D) ∧
      totalPeopleVolumeD (scaleInputD (2 ^ j) a) = fin false (2 ^ (3 * j) * T) ∧
      0 < P ∧ 0 < D ∧ (2 : ℚ) ^ (-601 : ℤ) ≤ T ∧ (2 : ℚ) ^ (-601 : ℤ) ≤ 2 ^ (3 * j) * T ∧
      roundVal T = T ∧ roundVal D = D ∧
      roundVal (2 ^ (3 * j) * T) = 2 ^ (3 * j) * T ∧
      roundVal (2 ^ (3 * j) * D) = 2 ^ (3 * j) * D ∧
      D ≤ 2 ^ (600 : ℤ) ∧ 2 ^ (3 * j) * D ≤ 2 ^ (600 : ℤ) := by
  obtain ⟨ph, e1, hph1, hph2⟩ := inRange_iff.mp r1
  obtain ⟨pw, e2, hpw1, hpw2⟩ := inRange_iff.mp r2
  obtain ⟨dh, e3, hdh1, hdh2⟩ := inRange_iff.mp r3
  obtain ⟨dd, e4, hdd1, hdd2⟩ := inRange_iff.mp r4
  rw [e1] at s1
  rw [e2] at s2
  rw [e3] at s3
  rw [e4] at s4
  have hc := two_zpow_pos (3 * j)
  obtain ⟨p1, p2, p3, p4, p5, p6⟩ :=
    volume_scaled j hpw1 hpw2 hph1 hph2 s2.1 s2.2 s1.1 s1.2
  obtain ⟨d1, d2, d3, d4, d5, d6⟩ :=
    volume_scaled j hdd1 hdd2 hdh1 hdh2 s4.1 s4.2 s3.1 s3.2
  obtain ⟨t1, t2, t3, t4⟩ := total_of_range hn hn2 p3 p4
  obtain ⟨u1, u2, u3, u4⟩ := total_of_range hn hn2 p5 p6
  have hph0 : 0 < ph := lt_of_lt_of_le (two_zpow_pos _) hph1
  have hdh0 : 0 < dh := lt_of_lt_of_le (two_zpow_pos _) hdh1
  have hP0 : 0 < volumeVal pw ph := lt_of_lt_of_le (two_zpow_pos _) p3
  have hD0 : 0 < volumeVal dd dh := lt_of_lt_of_le (two_zpow_pos _) d3
  have hsc : roundVal (2 ^ (3 * j) * volumeVal pw ph * (a.personCount : ℚ))
      = 2 ^ (3 * j) * roundVal (volumeVal pw ph * (a.personCount : ℚ)) := by
    rw [mul_assoc]
    refine roundVal_scale (3 * j) (two_zpow_bound_lo t2) ?_
    rw [← mul_assoc]
    exact two_zpow_bound_lo u2
  rw [hsc] at u1 u3
  have hPa : personVolumeD a = fin false (volumeVal pw ph) := by
    unfold personVolumeD; rw [e1, e2]; exact p1
  have hDa : drumVolumeD a = fin false (volumeVal dd dh) := by
    unfold drumVolumeD; rw [e3, e4]; exact d1
  have hPb : personVolumeD (scaleInputD (2 ^ j) a)
      = fin false (2 ^ (3 * j) * volumeVal pw ph) := by
    unfold personVolumeD scaleInputD
    simp only [e1, e2, scale]
    exact p2
  have hDb : drumVolumeD (scaleInputD (2 ^ j) a)
      = fin false (2 ^ (3 * j) * volumeVal dd dh) := by
    unfold drumVolumeD scaleInputD
    simp only [e3, e4, scale]
    exact d2
  have hTa : totalPeopleVolumeD a
      = fin false (roundVal (volumeVal pw ph * (a.personCount : ℚ))) := by
    unfold totalPeopleVolumeD; rw [hPa]; exact t1
  have hTb : totalPeopleVolumeD (scaleInputD (2 ^ j) a)
      = fin false (2 ^ (3 * j) * roundVal (volumeVal pw ph * (a.personCount : ℚ))) := by
    unfold totalPeopleVolumeD; rw [hPb]; exact u1
  have fT : roundVal (roundVal (volumeVal pw ph * (a.personCount : ℚ)))
      = roundVal (volumeVal pw ph * (a.personCount : ℚ)) :=
    roundVal_idem (mul_nonneg hP0.le (Nat.cast_nonneg _))
  have fTb : roundVal (2 ^ (3 * j) * roundVal (volumeVal pw ph * (a.personCount : ℚ)))
      = 2 ^ (3 * j) * roundVal (volumeVal pw ph * (a.personCount : ℚ)) := by
    rw [← hsc]
    exact roundVal_idem (mul_nonneg (mul_nonneg hc.le hP0.le) (Nat.cast_nonneg _))
  have fDb : roundVal (2 ^ (3 * j) * volumeVal dd dh) = 2 ^ (3 * j) * volumeVal dd dh := by
    rw [← volumeVal_scale j (by norm_num : (-340 : ℤ) ≤ -200) hdd1 hdh1 s4.1 s3.1]
    exact volumeVal_fixed (mul_nonneg (two_zpow_pos j).le hdh0.le)
  exact ⟨ph, pw, dh, dd, _, _, _, e1, e2, e3, e4, hPa, hDa, hTa, hPb, hDb, hTb, hP0, hD0,
    t3, u3, fT, volumeVal_fixed hdh0.le, fTb, fDb, d4, d6⟩

lemma sub_fin_of_lt {s t : ℚ} (h : s < t) :
    sub (fin false t) (fin false s) = roundDouble false (t - s) := by
  have h0 : 0 < t - s := sub_pos.mpr h
  have h1 : t - s ≠ 0 := h0.ne'
  have h2 : ¬ (t - s < 0) := not_lt.mpr h0.le
  simp only [JSNumber.sub, value, Bool.false_eq_true, if_false, h1, h2, decide_False,
    abs_of_pos h0]

lemma overflowResultD_message_ne_notFit (a : CementInput JSNumber) :
    (overflowResultD a).message ≠ "Person does not fit in the drum." := by
  show "Too many people! Drum overfilled." ≠ "Person does not fit in the drum."
  decide

/-- Counterexample to C13 as stated.  Drum 80 x 45 with nine persons 80 x 15
takes the normal fit with `percentFilled = 99.99999999999999`; with every
length three times as large (drum 240 x 135, persons 240 x 45) the code takes
the overflow branch with `percentFilled = 100.00000000000003`.  Drum 80 x 60
with ten persons 80 x 20 returns `actualCount = 8`; with every length ten times
as large it returns `actualCount = 9` and another `percentFilled`. -/
theorem scale_invariance_counterexample :
    (PositiveDoubles (wholeInput 80 15 80 45 9) ∧
        scaleInputD 3 (wholeInput 80 15 80 45 9) = wholeInput 240 45 240 135 9 ∧
        calculateCementD (wholeInput 80 15 80 45 9) = normalResultD (wholeInput 80 15 80 45 9) ∧
        calculateCementD (scaleInputD 3 (wholeInput 80 15 80 45 9))
          = overflowResultD (scaleInputD 3 (wholeInput 80 15 80 45 9)) ∧
        (calculateCementD (wholeInput 80 15 80 45 9)).percentFilled
          = fin false (7036874417766399 / 70368744177664) ∧
        (calculateCementD (scaleInputD 3 (wholeInput 80 15 80 45 9))).percentFilled
          = fin false (3518437208883201 / 35184372088832) ∧
        (calculateCementD (scaleInputD 3 (wholeInput 80 15 80 45 9))).message
          = "Too many people! Drum overfilled.") ∧
      (PositiveDoubles (wholeInput 80 20 80 60 10) ∧
        scaleInputD 10 (wholeInput 80 20 80 60 10) = wholeInput 800 200 800 600 10 ∧
        (calculateCementD (wholeInput 80 20 80 60 10)).actualCount = fin false 8 ∧
        (calculateCementD (scaleInputD 10 (wholeInput 80 20 80 60 10))).actualCount
          = fin false 9 ∧
        (calculateCementD (wholeInput 80 20 80 60 10)).percentFilled
          = fin false (3909374676536889 / 35184372088832) ∧
        (calculateCementD (scaleInputD 10 (wholeInput 80 20 80 60 10))).percentFilled
          = fin false (7818749353073777 / 70368744177664)) := by
  refine ⟨⟨?_, ?_, ?_, ?_, ?_, ?_, ?_⟩, ?_, ?_, ?_, ?_, ?_, ?_⟩ <;> decide!

/-- C13 as amended: scale invariance on the doubles of the code, for a change
of unit by a power of two.  When the four dimensions and their copies multiplied
by `2 ^ j` are doubles between `2 ^ (-200)` and `2 ^ 200` and the count is
between 1 and `2 ^ 53`, the scaled input passes the same tests of lines 7 and
11, returns a record of the same kind, the same `percentFilled` and the same
`actualCount`, and a `cementVolume` exactly `2 ^ (3 * j)` times as large. -/
theorem scale_invariance_on_doubles (j : ℤ) (a : CementInput JSNumber)
    (r1 : inRange (2 ^ (-200 : ℤ)) (2 ^ (200 : ℤ)) a.personHeight)
    (r2 : inRange (2 ^ (-200 : ℤ)) (2 ^ (200 : ℤ)) a.personWidth)
    (r3 : inRange (2 ^ (-200 : ℤ)) (2 ^ (200 : ℤ)) a.drumHeight)
    (r4 : inRange (2 ^ (-200 : ℤ)) (2 ^ (200 : ℤ)) a.drumDiameter)
    (s1 : inRange (2 ^ (-200 : ℤ)) (2 ^ (200 : ℤ)) (scale (2 ^ j) a.personHeight))
    (s2 : inRange (2 ^ (-200 : ℤ)) (2 ^ (200 : ℤ)) (scale (2 ^ j) a.personWidth))
    (s3 : inRange (2 ^ (-200 : ℤ)) (2 ^ (200 : ℤ)) (scale (2 ^ j) a.drumHeight))
    (s4 : inRange (2 ^ (-200 : ℤ)) (2 ^ (200 : ℤ)) (scale (2 ^ j) a.drumDiameter))
    (hn : 0 < a.personCount) (hn2 : a.personCount ≤ 2 ^ 53) :
    (gt (scaleInputD (2 ^ j) a).personHeight (scaleInputD (2 ^ j) a).drumHeight
          || gt (scaleInputD (2 ^ j) a).personWidth (scaleInputD (2 ^ j) a).drumDiameter)
        = (gt a.personHeight a.drumHeight || gt a.personWidth a.drumDiameter) ∧
      ge (totalPeopleVolumeD (scaleInputD (2 ^ j) a)) (drumVolumeD (scaleInputD (2 ^ j) a))
        = ge (totalPeopleVolumeD a) (drumVolumeD a) ∧
      ((calculateCementD (scaleInputD (2 ^ j) a)).message = "Person does not fit in the drum."
        ↔ (calculateCementD a).message = "Person does not fit in the drum.") ∧
      ((calculateCementD (scaleInputD (2 ^ j) a)).message = "Too many people! Drum overfilled."
        ↔ (calculateCementD a).message = "Too many people! Drum overfilled.") ∧
      (calculateCementD (scaleInputD (2 ^ j) a)).percentFilled
        = (calculateCementD a).percentFilled ∧
      (calculateCementD (scaleInputD (2 ^ j) a)).actualCount
        = (calculateCementD a).actualCount ∧
      (calculateCementD (scaleInputD (2 ^ j) a)).cementVolume
        = scale (2 ^ (3 * j)) (calculateCementD a).cementVolume := by
  obtain ⟨ph, pw, dh, dd, P, D, T, e1, e2, e3, e4, hPa, hDa, hTa, hPb, hDb, hTb, hP0, hD0,
    hT1, hT2, fT, fD, fTb, fDb, hD2, hD3⟩ := scaled_volumes j a r1 r2 r3 r4 s1 s2 s3 s4 hn hn2
  have hk := two_zpow_pos j
  have hc := two_zpow_pos (3 * j)
  have hg : (gt (scaleInputD (2 ^ j) a).personHeight (scaleInputD (2 ^ j) a).drumHeight
        || gt (scaleInputD (2 ^ j) a).personWidth (scaleInputD (2 ^ j) a).drumDiameter)
      = (gt a.personHeight a.drumHeight || gt a.personWidth a.drumDiameter) := by
    simp only [scaleInputD, e1, e2, e3, e4, scale]
    rw [gt_scale hk, gt_scale hk]
  have hge : ge (totalPeopleVolumeD (scaleInputD (2 ^ j) a))
      (drumVolumeD (scaleInputD (2 ^ j) a)) = ge (totalPeopleVolumeD a) (drumVolumeD a) := by
    rw [hTb, hDb, hTa, hDa]; exact ge_scale hc
  have hpct : mul (div (totalPeopleVolumeD (scaleInputD (2 ^ j) a))
        (drumVolumeD (scaleInputD (2 ^ j) a))) (ofNat 100)
      = mul (div (totalPeopleVolumeD a) (drumVolumeD a)) (ofNat 100) := by
    rw [hTb, hDb, hTa, hDa, div_fin_fin false false _ (mul_pos hc hD0).ne',
      div_fin_fin false false _ hD0.ne', mul_div_mul_left _ _ hc.ne']
  refine ⟨hg, hge, ?_⟩
  cases h1 : (gt a.personHeight a.drumHeight || gt a.personWidth a.drumDiameter)
  · cases h2 : ge (totalPeopleVolumeD a) (drumVolumeD a)
    · -- the normal fit
      rw [calculateCementD_of_normal h1 h2,
        calculateCementD_of_normal (hg.trans h1) (hge.trans h2)]
      have hlt : T < D := by
        rw [hTa, hDa] at h2
        simpa [JSNumber.ge, value] using h2
      have hlt2 : 2 ^ (3 * j) * T < 2 ^ (3 * j) * D := mul_lt_mul_of_pos_left hlt hc
      have hd0 : 0 ≤ D - T := (sub_pos.mpr hlt).le
      have esub : 2 ^ (3 * j) * D - 2 ^ (3 * j) * T = 2 ^ (3 * j) * (D - T) := by ring
      have hsc : roundVal (2 ^ (3 * j) * D - 2 ^ (3 * j) * T)
          = 2 ^ (3 * j) * roundVal (D - T) := by
        rw [esub]
        refine roundVal_scale (3 * j) (sub_normal hT1 hlt fT fD) ?_
        rw [← esub]
        exact sub_normal hT2 hlt2 fTb fDb
      have b1 : roundVal (D - T) < 2 ^ 1024 :=
        lt_of_le_of_lt (le_trans (roundVal_le_of_le hd0 fD
          (by have := le_trans (two_zpow_pos (-601)).le hT1; linarith)) hD2)
          (two_zpow_lt_huge (by norm_num))
      have b2 : roundVal (2 ^ (3 * j) * D - 2 ^ (3 * j) * T) < 2 ^ 1024 := by
        refine lt_of_le_of_lt (le_trans (roundVal_le_of_le ?_ fDb ?_) hD3)
          (two_zpow_lt_huge (by norm_num))
        · rw [esub]; exact mul_nonneg hc.le hd0
        · have := mul_nonneg hc.le (le_trans (two_zpow_pos _).le hT1)
          linarith
      refine ⟨iff_of_false (normalResultD_message_ne_notFit _)
        (normalResultD_message_ne_notFit _),
        iff_of_false (normalResultD_message_ne _) (normalResultD_message_ne _), ?_, rfl, ?_⟩
      · show min (mul (div (totalPeopleVolumeD (scaleInputD (2 ^ j) a))
            (drumVolumeD (scaleInputD (2 ^ j) a))) (ofNat 100)) (ofNat 100)
          = min (mul (div (totalPeopleVolumeD a) (drumVolumeD a)) (ofNat 100)) (ofNat 100)
        rw [hpct]
      · show sub (drumVolumeD (scaleInputD (2 ^ j) a)) (totalPeopleVolumeD (scaleInputD (2 ^ j) a))
          = scale (2 ^ (3 * j)) (sub (drumVolumeD a) (totalPeopleVolumeD a))
        rw [hTb, hDb, hTa, hDa, sub_fin_of_lt hlt, sub_fin_of_lt hlt2, roundDouble_of_lt b1,
          roundDouble_of_lt b2, hsc]
        rfl
    · -- the overflow
      rw [calculateCementD_of_overflow h1 h2,
        calculateCementD_of_overflow (hg.trans h1) (hge.trans h2)]
      refine ⟨iff_of_false (overflowResultD_message_ne_notFit _)
        (overflowResultD_message_ne_notFit _), iff_of_true rfl rfl, hpct, ?_, ?_⟩
      · show floor (div (drumVolumeD (scaleInputD (2 ^ j) a))
            (personVolumeD (scaleInputD (2 ^ j) a)))
          = floor (div (drumVolumeD a) (personVolumeD a))
        rw [hPb, hDb, hPa, hDa, div_fin_fin false false _ (mul_pos hc hP0).ne',
          div_fin_fin false false _ hP0.ne', mul_div_mul_left _ _ hc.ne']
      · show ofNat 0 = scale (2 ^ (3 * j)) (ofNat 0)
        rw [ofNat_zero]
        simp [scale]
  · rw [calculateCementD_of_notFit h1, calculateCementD_of_notFit (hg.trans h1)]
    refine ⟨Iff.rfl, Iff.rfl, rfl, rfl, ?_⟩
    show ofNat 0 = scale (2 ^ (3 * j)) (ofNat 0)
    rw [ofNat_zero]
    simp [scale]

/-- Witness for C13 as amended: scenario B (drum 100 x 60, one person 90 x 30)
with every length doubled is drum 200 x 120 and a person 180 x 60; the code
returns the same `percentFilled = 22.499999999999996`, the same count 1 and a
`cementVolume` eight times as large. -/
theorem scale_invariance_on_doubles_witness :
    scaleInputD (2 ^ (1 : ℤ)) (wholeInput 90 30 100 60 1) = wholeInput 180 60 200 120 1 ∧
      (calculateCementD (wholeInput 90 30 100 60 1)).cementVolume
        = fin false (7529115039123287 / 34359738368) ∧
      (calculateCementD (scaleInputD (2 ^ (1 : ℤ)) (wholeInput 90 30 100 60 1))).cementVolume
        = fin false (7529115039123287 / 4294967296) ∧
      (calculateCementD (scaleInputD (2 ^ (1 : ℤ)) (wholeInput 90 30 100 60 1))).percentFilled
        = fin false (6333186975989759 / 281474976710656) ∧
      (calculateCementD (scaleInputD (2 ^ (1 : ℤ)) (wholeInput 90 30 100 60 1))).percentFilled
        = (calculateCementD (wholeInput 90 30 100 60 1)).percentFilled ∧
      (calculateCementD (scaleInputD (2 ^ (1 : ℤ)) (wholeInput 90 30 100 60 1))).actualCount
        = (calculateCementD (wholeInput 90 30 100 60 1)).actualCount ∧
      (calculateCementD (scaleInputD (2 ^ (1 : ℤ)) (wholeInput 90 30 100 60 1))).cementVolume
        = scale (2 ^ (3 * (1 : ℤ))) (calculateCementD (wholeInput 90 30 100 60 1)).cementVolume := by
  have h := scale_invariance_on_doubles 1 (wholeInput 90 30 100 60 1) (by decide!) (by decide!)
    (by decide!) (by decide!) (by decide!) (by decide!) (by decide!) (by decide!) (by decide!)
    (by decide!)
  exact ⟨by decide!, by decide!, by decide!, by decide!, h.2.2.2.2.1, h.2.2.2.2.2.1,
    h.2.2.2.2.2.2⟩

end ScaleClaim

end DrumFit
